import Mathlib

/-!
# The Raft replica of `raft.h`, embedded in Lean

The C++ class `raft<state_machine, command>` is modelled as a record `raft Cmd` and each
member function as a function on that record.

* `int` is modelled by `Int` (no wrap-around: signed overflow is undefined in C++).
* `std::vector` is modelled by `List`; reading or writing a position that does not exist,
  `back()` / `front()` of an empty vector and an `erase` with a range outside the vector are
  undefined behaviour in C++: the embedded function then returns `none`.
* the thread pool is modelled by returning the queued jobs (target, argument) to the caller;
* the clock is an argument `now` wherever the source reads `system_clock::now()`;
* the state machine is modelled by the trace of the calls made on it.

The namespace `Chfs` embeds the directory operations of `chfs_client.cc` and the inode
manager of `inode_manager.cc`.
-/

namespace Raft

/-! ## Protocol types (`raft_protocol.h`) -/

/-- The class `log_entry<command>`. -/
structure log_entry (Cmd : Type) where
  index : Int
  term : Int
  cmd : Cmd
deriving DecidableEq, Repr

/-- The class `request_vote_args`. -/
structure request_vote_args where
  term : Int
  candidate_id : Int
  lastLogIndex : Int
  lastLogTerm : Int
deriving DecidableEq, Repr

/-- The class `request_vote_reply`. -/
structure request_vote_reply where
  term : Int
  vote_grant : Bool
deriving DecidableEq, Repr

/-- The class `append_entries_args<command>`. -/
structure append_entries_args (Cmd : Type) where
  term : Int
  leader_id : Int
  prevLogIndex : Int
  prevLogTerm : Int
  entries : List (log_entry Cmd)
  leaderCommit : Int
deriving DecidableEq, Repr

/-- The class `append_entries_reply`. -/
structure append_entries_reply where
  term : Int
  success : Bool
deriving DecidableEq, Repr

/-- The class `install_snapshot_args`. -/
structure install_snapshot_args where
  term : Int
  leader_id : Int
  last_index : Int
  lastIncludedTerm : Int
  snapshot : List Char
deriving DecidableEq, Repr

/-- The class `install_snapshot_reply`. -/
structure install_snapshot_reply where
  term : Int
deriving DecidableEq, Repr

/-! ## Vectors -/

/-- Read `v[i]` for an `int` position `i`; `none` when the position does not exist. -/
def vget {α : Type} (v : List α) (i : Int) : Option α :=
  if 0 ≤ i then v[i.toNat]? else none

/-- Write `v[i] = x` for an `int` position `i`; `none` when the position does not exist. -/
def vset {α : Type} (v : List α) (i : Int) (x : α) : Option (List α) :=
  if 0 ≤ i ∧ i.toNat < v.length then some (v.set i.toNat x) else none

/-- The call `v.erase(v.begin() + k, v.end())`; `none` when `k` is outside `[0, size]`. -/
def erase_from {α : Type} (v : List α) (k : Int) : Option (List α) :=
  if 0 ≤ k ∧ k.toNat ≤ v.length then some (v.take k.toNat) else none

/-- The call `v.erase(v.begin(), v.begin() + k)`; `none` when `k` is outside `[0, size]`. -/
def erase_front {α : Type} (v : List α) (k : Int) : Option (List α) :=
  if 0 ≤ k ∧ k.toNat ≤ v.length then some (v.drop k.toNat) else none

/-- The call `v.assign(k, x)` for an `int` count `k`; a negative count converts to a huge
`size_t` and the call throws: `none`. -/
def assign {α : Type} (k : Int) (x : α) : Option (List α) :=
  if 0 ≤ k then some (List.replicate k.toNat x) else none

/-! ## Storage and state machine -/

/-- Modelled from the spec: `raft_storage.h` is not among the sources. The storage holds the
last written metadata `(term, voted_for)`, log and snapshot; each `update*` call replaces its
artifact, and a successful `appendLog` appends the given entries to the stored log. -/
structure raft_storage (Cmd : Type) where
  term : Int
  vote : Int
  log : List (log_entry Cmd)
  snapshot : List Char
deriving DecidableEq, Repr

/-- Modelled from the spec: `update_metadata(term, voted_for)` of the absent `raft_storage.h`. -/
def raft_storage.updateMetadata {Cmd : Type} (st : raft_storage Cmd) (term vote : Int) :
    raft_storage Cmd :=
  { st with term := term, vote := vote }

/-- Modelled from the spec: `update_log(log)`, the full rewrite, of the absent
`raft_storage.h`. -/
def raft_storage.updateLog {Cmd : Type} (st : raft_storage Cmd) (log : List (log_entry Cmd)) :
    raft_storage Cmd :=
  { st with log := log }

/-- Modelled from the spec: `append_log(entries, new_len)` of the absent `raft_storage.h`,
when it succeeds (a failed call leaves the storage unchanged and returns `false`). -/
def raft_storage.appendLog {Cmd : Type} (st : raft_storage Cmd)
    (entries : List (log_entry Cmd)) : raft_storage Cmd :=
  { st with log := st.log ++ entries }

/-- Modelled from the spec: `update_snapshot(bytes)` of the absent `raft_storage.h`. -/
def raft_storage.updateSnapshot {Cmd : Type} (st : raft_storage Cmd) (bytes : List Char) :
    raft_storage Cmd :=
  { st with snapshot := bytes }

/-- A call made on the state machine. `apply_log` receives `entry.cmd`; the whole entry is
recorded so that the index under which a command was delivered can be named. -/
inductive sm_call (Cmd : Type) where
  | apply_log (entry : log_entry Cmd)
  | apply_snapshot (bytes : List Char)
deriving DecidableEq, Repr

/-! ## The replica (`raft.h`) -/

/-- The enum `raft_role`. -/
inductive raft_role where
  | follower
  | candidate
  | leader
deriving DecidableEq, Repr

/-- The data members of the class `raft`. `num_nodes` is `rpc_clients.size()`, `state` is the
trace of the calls made on the state machine (latest last). The random timeouts `fTimeout`
and `cTimeout` are left out: a timer expiry is a step of its own. -/
structure raft (Cmd : Type) where
  num_nodes : Nat
  idx : Int
  role : raft_role
  current_term : Int
  vote_for : Int
  log : List (log_entry Cmd)
  snapshot : List Char
  commitIndex : Int
  lastApplied : Int
  vote_count : Int
  votedNodes : List Bool
  nextIndex : List Int
  matchIndex : List Int
  matchCount : List Int
  pre_time : Nat
  storage : raft_storage Cmd
  state : List (sm_call Cmd)
deriving DecidableEq, Repr

variable {Cmd : Type}

/-- The constructor `raft::raft` when `storage->restore` fails: the fresh replica. -/
def raft.fresh [Inhabited Cmd] (n : Nat) (idx : Int) (now : Nat) : raft Cmd :=
  { num_nodes := n
    idx := idx
    role := .follower
    current_term := 0
    vote_for := -1
    log := [⟨0, 0, default⟩]
    snapshot := []
    commitIndex := 0
    lastApplied := 0
    vote_count := 0
    votedNodes := List.replicate n false
    nextIndex := List.replicate n 1
    matchIndex := List.replicate n 0
    matchCount := []
    pre_time := now
    storage := ⟨0, -1, [⟨0, 0, default⟩], []⟩
    state := [] }

/-- The method `raft::is_leader`: the pair (result, `term`). -/
def is_leader (s : raft Cmd) : Bool × Int :=
  (decide (s.role = .leader), s.current_term)

/-- The method `raft::setFollower` (the random timeouts of `initTime` are not modelled). -/
def setFollower (s : raft Cmd) (term : Int) : raft Cmd :=
  { s with
    role := .follower
    current_term := term
    vote_for := -1
    storage := s.storage.updateMetadata term (-1) }

/-- The loop of `raft::sendHeartBeat` over the peers `i = from, from + 1, ...` (`todo` of
them): the queued `send_append_entries` jobs. The static `args` never receives entries. -/
def heartBeatJobs (s : raft Cmd) : Nat → Nat → Option (List (Int × append_entries_args Cmd))
  | _, 0 => some []
  | i, todo + 1 =>
    if (i : Int) = s.idx then heartBeatJobs s (i + 1) todo
    else
      match vget s.nextIndex i, s.log.head? with
      | some next, some front =>
        match vget s.log (next - 1 - front.index) with
        | some prev =>
          match heartBeatJobs s (i + 1) todo with
          | some jobs =>
            some (((i : Int),
              { term := s.current_term
                leader_id := s.idx
                prevLogIndex := next - 1
                prevLogTerm := prev.term
                entries := []
                leaderCommit := s.commitIndex }) :: jobs)
          | none => none
        | none => none
      | _, _ => none

/-- The method `raft::sendHeartBeat`. -/
def sendHeartBeat (s : raft Cmd) : Option (List (Int × append_entries_args Cmd)) :=
  heartBeatJobs s 0 s.num_nodes

/-- The method `raft::setLeader`: the new state and the heartbeats it queues. -/
def setLeader (s : raft Cmd) : Option (raft Cmd × List (Int × append_entries_args Cmd)) :=
  match s.log.getLast? with
  | none => none
  | some back =>
    match vset (List.replicate s.num_nodes (0 : Int)) s.idx back.index,
        assign (back.index - s.commitIndex) (0 : Int) with
    | some mi, some mc =>
      let s1 : raft Cmd :=
        { s with
          role := .leader
          nextIndex := List.replicate s.num_nodes (back.index + 1)
          matchIndex := mi
          matchCount := mc }
      match sendHeartBeat s1 with
      | some jobs => some (s1, jobs)
      | none => none
    | _, _ => none

/-- The loop of `raft::make_election` queueing `send_request_vote` for every peer. -/
def requestVoteJobs (idx : Int) (args : request_vote_args) :
    Nat → Nat → List (Int × request_vote_args)
  | _, 0 => []
  | i, todo + 1 =>
    if (i : Int) = idx then requestVoteJobs idx args (i + 1) todo
    else ((i : Int), args) :: requestVoteJobs idx args (i + 1) todo

/-- The method `raft::make_election`: the new state and the vote requests it queues. -/
def make_election (now : Nat) (s : raft Cmd) :
    Option (raft Cmd × List (Int × request_vote_args)) :=
  match vset (List.replicate s.num_nodes false) s.idx true, s.log.getLast? with
  | some voted, some back =>
    let s1 : raft Cmd :=
      { s with
        role := .candidate
        current_term := s.current_term + 1
        vote_for := s.idx
        vote_count := 1
        votedNodes := voted
        storage := s.storage.updateMetadata (s.current_term + 1) s.idx
        pre_time := now }
    let args : request_vote_args :=
      { term := s1.current_term
        candidate_id := s.idx
        lastLogIndex := back.index
        lastLogTerm := back.term }
    some (s1, requestVoteJobs s.idx args 0 s.num_nodes)
  | _, _ => none

/-- The method `raft::getEntries`. -/
def getEntries (s : raft Cmd) (begin_index end_index : Int) : Option (List (log_entry Cmd)) :=
  if begin_index < end_index then
    match s.log.head? with
    | none => none
    | some front =>
      let b := begin_index - front.index
      let e := end_index - front.index
      if 0 ≤ b ∧ e.toNat ≤ s.log.length then some ((s.log.take e.toNat).drop b.toNat)
      else none
  else some []

/-- The method `raft::new_command`: the new state and, when the result is `true`, the pair
`(term, index)`. `appendOk` is the result of `storage->appendLog`. -/
def new_command (appendOk : Bool) (s : raft Cmd) (cmd : Cmd) :
    Option (raft Cmd × Option (Int × Int)) :=
  if s.role ≠ .leader then some (s, none)
  else
    match s.log.getLast? with
    | none => none
    | some back =>
      let term := s.current_term
      let index := back.index + 1
      let entry : log_entry Cmd := ⟨index, term, cmd⟩
      let log := s.log ++ [entry]
      match vset s.nextIndex s.idx (index + 1), vset s.matchIndex s.idx index with
      | some ni, some mi =>
        some ({ s with
                log := log
                nextIndex := ni
                matchIndex := mi
                matchCount := s.matchCount ++ [1]
                storage :=
                  if appendOk then s.storage.appendLog [entry] else s.storage.updateLog log },
              some (term, index))
      | _, _ => none

/-- The method `raft::save_snapshot`; `snap` is the state machine's `snapshot()`. -/
def save_snapshot (snap : List (sm_call Cmd) → List Char) (s : raft Cmd) :
    Option (raft Cmd × Bool) :=
  match s.log.getLast?, s.log.head? with
  | some back, some front =>
    let bytes := snap s.state
    match (if s.lastApplied ≤ back.index then erase_front s.log (s.lastApplied - front.index)
           else some []) with
    | none => none
    | some log =>
      some ({ s with
              snapshot := bytes
              log := log
              storage := (s.storage.updateSnapshot bytes).updateLog log }, true)
  | _, _ => none

/-- The RPC handler `raft::request_vote`. -/
def request_vote (now : Nat) (s : raft Cmd) (arg : request_vote_args) :
    Option (raft Cmd × request_vote_reply) :=
  let s0 : raft Cmd := { s with pre_time := now }
  let reply : request_vote_reply := { term := s.current_term, vote_grant := false }
  if arg.term < s.current_term then some (s0, reply)
  else
    let s1 := if arg.term > s.current_term then setFollower s0 arg.term else s0
    if s1.vote_for = -1 ∨ s1.vote_for = arg.candidate_id then
      match s1.log.getLast? with
      | none => none
      | some back =>
        if arg.lastLogTerm > back.term ∨
            (arg.lastLogTerm = back.term ∧ arg.lastLogIndex ≥ back.index) then
          some ({ s1 with
                  vote_for := arg.candidate_id
                  storage := s1.storage.updateMetadata s1.current_term arg.candidate_id },
                { reply with vote_grant := true })
        else some (s1, reply)
    else some (s1, reply)

/-- The method `raft::handle_request_vote_reply`: the new state and the heartbeats queued
when the replica becomes leader. -/
def handle_request_vote_reply (s : raft Cmd) (target : Int) (_arg : request_vote_args)
    (reply : request_vote_reply) :
    Option (raft Cmd × List (Int × append_entries_args Cmd)) :=
  if reply.term > s.current_term then some (setFollower s reply.term, [])
  else if s.role ≠ .candidate then some (s, [])
  else if reply.vote_grant then
    match vget s.votedNodes target with
    | none => none
    | some voted =>
      if !voted then
        let s1 : raft Cmd :=
          { s with
            votedNodes := s.votedNodes.set target.toNat true
            vote_count := s.vote_count + 1 }
        if s1.vote_count > (s.num_nodes : Int) / 2 then setLeader s1 else some (s1, [])
      else some (s, [])
  else some (s, [])

/-- The RPC handler `raft::append_entries`. `appendOk` is the result of
`storage->appendLog`. -/
def append_entries (now : Nat) (appendOk : Bool) (s : raft Cmd)
    (arg : append_entries_args Cmd) : Option (raft Cmd × append_entries_reply) :=
  let s0 : raft Cmd := { s with pre_time := now }
  let reply : append_entries_reply := { term := s.current_term, success := false }
  if arg.term < s.current_term then some (s0, reply)
  else
    let s1 :=
      if arg.term > s.current_term ∨ s.role = .candidate then setFollower s0 arg.term else s0
    match s1.log.getLast?, s1.log.head? with
    | some back, some front =>
      if arg.prevLogIndex ≤ back.index then
        match vget s1.log (arg.prevLogIndex - front.index) with
        | none => none
        | some prev =>
          if arg.prevLogTerm = prev.term then
            let appended : Option (raft Cmd) :=
              if !arg.entries.isEmpty then
                if arg.prevLogIndex < back.index then
                  match (if arg.prevLogIndex + 1 ≤ back.index then
                           erase_from s1.log (arg.prevLogIndex + 1 - front.index)
                         else some s1.log) with
                  | none => none
                  | some kept =>
                    some { s1 with
                           log := kept ++ arg.entries
                           storage := s1.storage.updateLog (kept ++ arg.entries) }
                else
                  some { s1 with
                         log := s1.log ++ arg.entries
                         storage :=
                           if appendOk then s1.storage.appendLog arg.entries
                           else s1.storage.updateLog (s1.log ++ arg.entries) }
              else some s1
            match appended with
            | none => none
            | some s2 =>
              if arg.leaderCommit > s2.commitIndex then
                match s2.log.getLast? with
                | none => none
                | some back2 =>
                  some ({ s2 with commitIndex := min arg.leaderCommit back2.index },
                        { reply with success := true })
              else some (s2, { reply with success := true })
          else some (s1, reply)
      else some (s1, reply)
    | _, _ => none

/-- The `for` loop of `raft::handle_append_entries_reply`, entered with `i = last + todo`
and `todo` iterations to go (it runs while `i > last`). -/
def commitLoop (last : Int) : Nat → raft Cmd → Option (raft Cmd)
  | 0, s => some s
  | todo + 1, s =>
    let i : Int := last + (todo + 1 : Nat)
    match vget s.matchCount i with
    | none => none
    | some count =>
      let s1 : raft Cmd := { s with matchCount := s.matchCount.set i.toNat (count + 1) }
      if count + 1 > (s.num_nodes : Int) / 2 then
        match s.log.head? with
        | none => none
        | some front =>
          match vget s.log (s.commitIndex + i + 1 - front.index) with
          | none => none
          | some entry =>
            if entry.term = s.current_term then
              match erase_front s1.matchCount (i + 1) with
              | none => none
              | some mc => some { s1 with commitIndex := s.commitIndex + (i + 1), matchCount := mc }
            else commitLoop last todo s1
      else commitLoop last todo s1

/-- The method `raft::handle_append_entries_reply`. -/
def handle_append_entries_reply (s : raft Cmd) (target : Int)
    (arg : append_entries_args Cmd) (reply : append_entries_reply) : Option (raft Cmd) :=
  if reply.term > s.current_term then some (setFollower s reply.term)
  else if s.role ≠ .leader then some s
  else if reply.success then
    match vget s.matchIndex target with
    | none => none
    | some prev =>
      let m := max prev (arg.prevLogIndex + (arg.entries.length : Int))
      match vset s.matchIndex target m, vset s.nextIndex target (m + 1) with
      | some mi, some ni =>
        let s1 : raft Cmd := { s with matchIndex := mi, nextIndex := ni }
        let last := max (prev - s.commitIndex) 0 - 1
        commitLoop last (m - s.commitIndex - 1 - last).toNat s1
      | _, _ => none
  else
    match vget s.nextIndex target with
    | none => none
    | some next =>
      if next > arg.prevLogIndex then
        match vset s.nextIndex target arg.prevLogIndex with
        | some ni => some { s with nextIndex := ni }
        | none => none
      else some s

/-- The RPC handler `raft::install_snapshot`. -/
def install_snapshot [Inhabited Cmd] (now : Nat) (s : raft Cmd) (arg : install_snapshot_args) :
    Option (raft Cmd × install_snapshot_reply) :=
  let s0 : raft Cmd := { s with pre_time := now }
  let reply : install_snapshot_reply := { term := s.current_term }
  if arg.term < s.current_term then some (s0, reply)
  else
    let s1 :=
      if arg.term > s.current_term ∨ s.role = .candidate then setFollower s0 arg.term else s0
    match s1.log.getLast?, s1.log.head? with
    | some back, some front =>
      let trimmed : Option (List (log_entry Cmd)) :=
        if arg.last_index ≤ back.index then
          match vget s1.log (arg.last_index - front.index) with
          | none => none
          | some at_last =>
            if arg.lastIncludedTerm = at_last.term then
              if arg.last_index ≤ back.index then
                erase_front s1.log (arg.last_index - front.index)
              else some []
            else some [⟨arg.last_index, arg.lastIncludedTerm, default⟩]
        else some [⟨arg.last_index, arg.lastIncludedTerm, default⟩]
      match trimmed with
      | none => none
      | some log =>
        some ({ s1 with
                log := log
                snapshot := arg.snapshot
                state := s1.state ++ [sm_call.apply_snapshot arg.snapshot]
                lastApplied := arg.last_index
                commitIndex :=
                  if s1.commitIndex > arg.last_index then s1.commitIndex else arg.last_index
                storage := (s1.storage.updateLog log).updateSnapshot arg.snapshot },
              reply)
    | _, _ => none

/-- The method `raft::handle_install_snapshot_reply`. -/
def handle_install_snapshot_reply (s : raft Cmd) (target : Int) (arg : install_snapshot_args)
    (reply : install_snapshot_reply) : Option (raft Cmd) :=
  if reply.term > s.current_term then some (setFollower s reply.term)
  else if s.role ≠ .leader then some s
  else
    match vget s.matchIndex target with
    | none => none
    | some cur =>
      let m := if cur > arg.last_index then cur else arg.last_index
      match vset s.matchIndex target m, vset s.nextIndex target (m + 1) with
      | some mi, some ni => some { s with matchIndex := mi, nextIndex := ni }
      | _, _ => none

/-- One request queued by the replicator: AppendEntries or InstallSnapshot. -/
inductive replicate_job (Cmd : Type) where
  | append (target : Int) (args : append_entries_args Cmd)
  | snapshot (target : Int) (args : install_snapshot_args)
deriving DecidableEq, Repr

/-- The inner loop of one tick of `raft::run_background_commit` over the peers
`i = from, from + 1, ...` (`todo` of them), on a leader. -/
def commitJobs (s : raft Cmd) (last_log_index : Int) :
    Nat → Nat → Option (List (replicate_job Cmd))
  | _, 0 => some []
  | i, todo + 1 =>
    if (i : Int) = s.idx then commitJobs s last_log_index (i + 1) todo
    else
      match vget s.nextIndex i, s.log.head? with
      | some next, some front =>
        if next ≤ last_log_index then
          if next > front.index then
            match vget s.log (next - 1 - front.index), getEntries s next (last_log_index + 1),
                commitJobs s last_log_index (i + 1) todo with
            | some prev, some entries, some jobs =>
              some (replicate_job.append (i : Int)
                { term := s.current_term
                  leader_id := s.idx
                  prevLogIndex := next - 1
                  prevLogTerm := prev.term
                  entries := entries
                  leaderCommit := s.commitIndex } :: jobs)
            | _, _, _ => none
          else
            match commitJobs s last_log_index (i + 1) todo with
            | some jobs =>
              some (replicate_job.snapshot (i : Int)
                { term := s.current_term
                  leader_id := s.idx
                  last_index := front.index
                  lastIncludedTerm := front.term
                  snapshot := s.snapshot } :: jobs)
            | none => none
        else commitJobs s last_log_index (i + 1) todo
      | _, _ => none

/-- One tick of `raft::run_background_commit`: the requests it queues. -/
def run_background_commit (s : raft Cmd) : Option (List (replicate_job Cmd)) :=
  if s.role = .leader then
    match s.log.getLast? with
    | none => none
    | some back => commitJobs s back.index 0 s.num_nodes
  else some []

/-- One tick of `raft::run_background_apply`. -/
def run_background_apply (s : raft Cmd) : Option (raft Cmd) :=
  if s.commitIndex > s.lastApplied then
    match getEntries s (s.lastApplied + 1) (s.commitIndex + 1) with
    | none => none
    | some entries =>
      some { s with
             state := s.state ++ entries.map sm_call.apply_log
             lastApplied := s.commitIndex }
  else some s

/-- One tick of `raft::run_background_ping`: the heartbeats it queues. -/
def run_background_ping (s : raft Cmd) : Option (List (Int × append_entries_args Cmd)) :=
  if s.role = .leader then sendHeartBeat s else some []

/-- One tick of `raft::run_background_election` at which the timeout of the current role
has elapsed. -/
def run_background_election (now : Nat) (s : raft Cmd) :
    Option (raft Cmd × List (Int × request_vote_args)) :=
  match s.role with
  | .follower => make_election now s
  | .candidate => make_election now s
  | .leader => some (s, [])

/-! ## The cluster

The replicas of a cluster and the requests and replies in flight. A request is queued by
`thread_pool->addObjJob(this, &raft::send_*, target, arg)`; `send_*` calls the handler of
`target` and, when the call returns, hands the reply to the `handle_*_reply` of the sender.
Requests and replies are never removed from the network, so each may be delivered late, in
any order, several times, or never. -/

/-- A request in flight. -/
inductive request (Cmd : Type) where
  | vote (sender target : Int) (arg : request_vote_args)
  | append (sender target : Int) (arg : append_entries_args Cmd)
  | snapshot (sender target : Int) (arg : install_snapshot_args)
deriving DecidableEq, Repr

/-- A reply in flight, with the request it answers. -/
inductive response (Cmd : Type) where
  | vote (sender target : Int) (arg : request_vote_args) (reply : request_vote_reply)
  | append (sender target : Int) (arg : append_entries_args Cmd) (reply : append_entries_reply)
  | snapshot (sender target : Int) (arg : install_snapshot_args)
      (reply : install_snapshot_reply)
deriving DecidableEq, Repr

/-- The replicas and the network. -/
structure cluster (Cmd : Type) where
  nodes : List (raft Cmd)
  requests : List (request Cmd)
  replies : List (response Cmd)
deriving DecidableEq, Repr

/-- A step of the cluster. -/
inductive action (Cmd : Type) where
  | timeout (node : Nat) (now : Nat)
  | deliver_request (k : Nat) (now : Nat) (appendOk : Bool)
  | deliver_reply (k : Nat)
  | new_command (node : Nat) (cmd : Cmd) (appendOk : Bool)
  | replicator (node : Nat)
  | heartbeat (node : Nat)
  | applier (node : Nat)
deriving DecidableEq, Repr

/-- The fresh replicas `from, from + 1, ...` (`todo` of them) of a cluster of `n`. -/
def fresh_nodes [Inhabited Cmd] (n : Nat) (now : Nat) : Nat → Nat → List (raft Cmd)
  | _, 0 => []
  | i, todo + 1 => raft.fresh n (i : Int) now :: fresh_nodes n now (i + 1) todo

/-- The fresh cluster of `n` replicas, nothing in flight. -/
def cluster.fresh [Inhabited Cmd] (n : Nat) (now : Nat) : cluster Cmd :=
  { nodes := fresh_nodes n now 0 n, requests := [], replies := [] }

/-- The AppendEntries requests queued by `sender`. -/
def append_requests (sender : Int) (jobs : List (Int × append_entries_args Cmd)) :
    List (request Cmd) :=
  jobs.map fun job => request.append sender job.1 job.2

/-- The RequestVote requests queued by `sender`. -/
def vote_requests (sender : Int) (jobs : List (Int × request_vote_args)) : List (request Cmd) :=
  jobs.map fun job => request.vote sender job.1 job.2

/-- The requests queued by the replicator of `sender`. -/
def replicate_requests (sender : Int) (jobs : List (replicate_job Cmd)) : List (request Cmd) :=
  jobs.map fun job =>
    match job with
    | .append target args => request.append sender target args
    | .snapshot target args => request.snapshot sender target args

/-- Deliver a request to the handler of its target; the reply joins the network. -/
def cluster.deliver_request [Inhabited Cmd] (c : cluster Cmd) (now : Nat) (appendOk : Bool) :
    request Cmd → Option (cluster Cmd)
  | .vote sender target arg =>
    match vget c.nodes target with
    | none => none
    | some r =>
      match request_vote now r arg with
      | none => none
      | some (r1, reply) =>
        some { c with
               nodes := c.nodes.set target.toNat r1
               replies := c.replies ++ [response.vote sender target arg reply] }
  | .append sender target arg =>
    match vget c.nodes target with
    | none => none
    | some r =>
      match append_entries now appendOk r arg with
      | none => none
      | some (r1, reply) =>
        some { c with
               nodes := c.nodes.set target.toNat r1
               replies := c.replies ++ [response.append sender target arg reply] }
  | .snapshot sender target arg =>
    match vget c.nodes target with
    | none => none
    | some r =>
      match install_snapshot now r arg with
      | none => none
      | some (r1, reply) =>
        some { c with
               nodes := c.nodes.set target.toNat r1
               replies := c.replies ++ [response.snapshot sender target arg reply] }

/-- Deliver a reply to the reply handler of the sender of its request. -/
def cluster.deliver_reply (c : cluster Cmd) : response Cmd → Option (cluster Cmd)
  | .vote sender target arg reply =>
    match vget c.nodes sender with
    | none => none
    | some r =>
      match handle_request_vote_reply r target arg reply with
      | none => none
      | some (r1, jobs) =>
        some { c with
               nodes := c.nodes.set sender.toNat r1
               requests := c.requests ++ append_requests sender jobs }
  | .append sender target arg reply =>
    match vget c.nodes sender with
    | none => none
    | some r =>
      match handle_append_entries_reply r target arg reply with
      | none => none
      | some r1 => some { c with nodes := c.nodes.set sender.toNat r1 }
  | .snapshot sender target arg reply =>
    match vget c.nodes sender with
    | none => none
    | some r =>
      match handle_install_snapshot_reply r target arg reply with
      | none => none
      | some r1 => some { c with nodes := c.nodes.set sender.toNat r1 }

/-- One step of the cluster; `none` when the step cannot be taken (no such replica or
message, a timer expiry on a leader, `new_command` refused, or undefined behaviour). -/
def cluster.step [Inhabited Cmd] (c : cluster Cmd) : action Cmd → Option (cluster Cmd)
  | .timeout i now =>
    match c.nodes[i]? with
    | none => none
    | some r =>
      if r.role = .leader then none
      else
        match run_background_election now r with
        | none => none
        | some (r1, jobs) =>
          some { c with
                 nodes := c.nodes.set i r1
                 requests := c.requests ++ vote_requests r.idx jobs }
  | .deliver_request k now appendOk =>
    match c.requests[k]? with
    | none => none
    | some req => c.deliver_request now appendOk req
  | .deliver_reply k =>
    match c.replies[k]? with
    | none => none
    | some rep => c.deliver_reply rep
  | .new_command i cmd appendOk =>
    match c.nodes[i]? with
    | none => none
    | some r =>
      match new_command appendOk r cmd with
      | some (r1, some _) => some { c with nodes := c.nodes.set i r1 }
      | _ => none
  | .replicator i =>
    match c.nodes[i]? with
    | none => none
    | some r =>
      match run_background_commit r with
      | none => none
      | some jobs => some { c with requests := c.requests ++ replicate_requests r.idx jobs }
  | .heartbeat i =>
    match c.nodes[i]? with
    | none => none
    | some r =>
      match run_background_ping r with
      | none => none
      | some jobs => some { c with requests := c.requests ++ append_requests r.idx jobs }
  | .applier i =>
    match c.nodes[i]? with
    | none => none
    | some r =>
      match run_background_apply r with
      | none => none
      | some r1 => some { c with nodes := c.nodes.set i r1 }

/-- A run: the steps taken one after the other. -/
def cluster.run [Inhabited Cmd] (c : cluster Cmd) : List (action Cmd) → Option (cluster Cmd)
  | [] => some c
  | a :: rest =>
    match c.step a with
    | none => none
    | some c1 => cluster.run c1 rest

/-- Election Safety of a cluster state: no two distinct replicas are leader in one term. -/
def election_safety (c : cluster Cmd) : Prop :=
  ∀ (i j : Nat) (a b : raft Cmd), c.nodes[i]? = some a → c.nodes[j]? = some b → i ≠ j →
    a.role = .leader → b.role = .leader → a.current_term ≠ b.current_term

/-- A run of a 3-replica cluster: replica 0 starts an election in term 1 and replica 1
grants; replica 0 times out again (term 2); replica 2 times out twice (term 2), replica 1
grants it and replica 2 becomes leader; then the grant of term 1 reaches replica 0. -/
def stale_grant_run : List (action Nat) :=
  [ .timeout 0 0, .deliver_request 0 0 true, .timeout 0 0, .timeout 2 0, .timeout 2 0,
    .deliver_request 7 0 true, .deliver_reply 1, .deliver_reply 0 ]

/-- The entries delivered to the state machine by `apply_log`, oldest first. -/
def delivered : List (sm_call Cmd) → List (log_entry Cmd)
  | [] => []
  | .apply_log entry :: rest => entry :: delivered rest
  | .apply_snapshot _ :: rest => delivered rest

/-- State Machine Safety of a cluster state: two commands delivered under one index, on
any replicas, are the same command. -/
def state_machine_safety (c : cluster Cmd) : Prop :=
  ∀ (i j : Nat) (a b : raft Cmd) (x y : log_entry Cmd), c.nodes[i]? = some a →
    c.nodes[j]? = some b → x ∈ delivered a.state → y ∈ delivered b.state →
    x.index = y.index → x.cmd = y.cmd

/-- Log Matching of a cluster state: entries of two logs with the same index and term carry
the same command, and the two logs agree on every smaller index that both contain. -/
def log_matching (c : cluster Cmd) : Prop :=
  ∀ (i j : Nat) (a b : raft Cmd) (x y : log_entry Cmd), c.nodes[i]? = some a →
    c.nodes[j]? = some b → x ∈ a.log → y ∈ b.log → x.index = y.index → x.term = y.term →
    x.cmd = y.cmd ∧
      ∀ (u v : log_entry Cmd), u ∈ a.log → v ∈ b.log → u.index = v.index →
        u.index < x.index → u = v

/-- The run `stale_grant_run` followed by a command submitted to each of the two leaders. -/
def two_leaders_submit_run : List (action Nat) :=
  [ .timeout 0 0, .deliver_request 0 0 true, .timeout 0 0, .timeout 2 0, .timeout 2 0,
    .deliver_request 7 0 true, .deliver_reply 1, .deliver_reply 0,
    .new_command 0 7 true, .new_command 2 8 true ]

/-- The run `two_leaders_submit_run` in which each leader then replicates its entry to
replica 1, commits it on the reply and delivers it to its state machine. -/
def two_leaders_apply_run : List (action Nat) :=
  [ .timeout 0 0, .deliver_request 0 0 true, .timeout 0 0, .timeout 2 0, .timeout 2 0,
    .deliver_request 7 0 true, .deliver_reply 1, .deliver_reply 0,
    .new_command 0 7 true, .new_command 2 8 true,
    .replicator 0, .deliver_request 12 0 true, .deliver_reply 2, .applier 0,
    .replicator 2, .deliver_request 15 0 true, .deliver_reply 3, .applier 2 ]

/-! ## One replica and its steps -/

/-- A step of one replica: a timer expiry, an RPC handler or a reply handler, with any
argument. -/
inductive op (Cmd : Type) where
  | timeout (now : Nat)
  | request_vote (now : Nat) (arg : request_vote_args)
  | append_entries (now : Nat) (appendOk : Bool) (arg : append_entries_args Cmd)
  | install_snapshot (now : Nat) (arg : install_snapshot_args)
  | vote_reply (target : Int) (arg : request_vote_args) (reply : request_vote_reply)
  | append_reply (target : Int) (arg : append_entries_args Cmd) (reply : append_entries_reply)
  | snapshot_reply (target : Int) (arg : install_snapshot_args)
      (reply : install_snapshot_reply)
deriving DecidableEq, Repr

/-- The state of the replica after one step. -/
def raft.step [Inhabited Cmd] (s : raft Cmd) : op Cmd → Option (raft Cmd)
  | .timeout now => (run_background_election now s).map Prod.fst
  | .request_vote now arg => (request_vote now s arg).map Prod.fst
  | .append_entries now appendOk arg => (append_entries now appendOk s arg).map Prod.fst
  | .install_snapshot now arg => (install_snapshot now s arg).map Prod.fst
  | .vote_reply target arg reply => (handle_request_vote_reply s target arg reply).map Prod.fst
  | .append_reply target arg reply => handle_append_entries_reply s target arg reply
  | .snapshot_reply target arg reply => handle_install_snapshot_reply s target arg reply

/-- The state of the replica after a sequence of steps. -/
def raft.run [Inhabited Cmd] (s : raft Cmd) : List (op Cmd) → Option (raft Cmd)
  | [] => some s
  | o :: rest =>
    match s.step o with
    | none => none
    | some s1 => raft.run s1 rest

/-- Vote uniqueness along a run of one replica: a vote held at one point and a vote held at
a later point of the same term are for the same candidate (`-1` is no vote). -/
def vote_uniqueness [Inhabited Cmd] (s : raft Cmd) : Prop :=
  ∀ (before after : List (op Cmd)) (s1 s2 : raft Cmd), s.run before = some s1 →
    s1.run after = some s2 → s1.current_term = s2.current_term → s1.vote_for ≠ -1 →
    s2.vote_for ≠ -1 → s1.vote_for = s2.vote_for

/-! ## The vocabulary of the specification -/

/-- The base index of a log: the index of its first entry. -/
def base_index (log : List (log_entry Cmd)) : Int :=
  match log.head? with
  | some front => front.index
  | none => 0

/-- The last log index: the index of the last entry. -/
def last_index (log : List (log_entry Cmd)) : Int :=
  match log.getLast? with
  | some back => back.index
  | none => 0

/-- The term of the last log entry. -/
def last_term (log : List (log_entry Cmd)) : Int :=
  match log.getLast? with
  | some back => back.term
  | none => 0

/-- The log entry with index `i`: the first entry whose `index` field is `i`. -/
def entry_at (log : List (log_entry Cmd)) (i : Int) : Option (log_entry Cmd) :=
  log.find? fun e => decide (e.index = i)

/-- The log structure invariant: the log is not empty and its entries are contiguous,
`log[k].index = log[0].index + k`. -/
def log_ok (log : List (log_entry Cmd)) : Prop :=
  log ≠ [] ∧ ∀ (k : Nat) (e : log_entry Cmd), log[k]? = some e → e.index = base_index log + k

/-! ## Example inputs -/

/-- Replica 1 of a fresh 3-replica cluster. -/
def follower_example : raft Nat := raft.fresh 3 1 0

/-- The AppendEntries of a leader 0 of term 1 that carries its entries 1 and 2, the first
of them committed. -/
def append_example : append_entries_args Nat := ⟨1, 0, 0, 0, [⟨1, 1, 7⟩, ⟨2, 1, 8⟩], 1⟩

/-- The state and reply of `follower_example` after it has handled `append_example`. -/
def append_example_result : raft Nat × append_entries_reply :=
  (append_entries 0 true follower_example append_example).getD (follower_example, ⟨0, false⟩)

/-- An earlier AppendEntries of the same leader, sent when its log ended at entry 1. -/
def stale_append_example : append_entries_args Nat := ⟨1, 0, 0, 0, [⟨1, 1, 7⟩], 0⟩

/-- A successful `append_entries` removes no entry when no sent entry conflicts: if every
sent entry that overlaps the log has the term of the existing entry with its index, every
entry of the log is still in the log afterwards. -/
def keeps_matching_entries (now : Nat) (appendOk : Bool) (s : raft Cmd)
    (arg : append_entries_args Cmd) : Prop :=
  ∀ (s1 : raft Cmd) (reply : append_entries_reply),
    append_entries now appendOk s arg = some (s1, reply) → reply.success = true →
    (∀ e ∈ arg.entries, ∀ x, entry_at s.log e.index = some x → x.term = e.term) →
    ∀ x ∈ s.log, x ∈ s1.log

/-- The number of replicas whose `matchIndex` is at least `i`. -/
def votes (matchIndex : List Int) (i : Int) : Nat :=
  matchIndex.countP fun m => decide (i ≤ m)

/-- The invariant of the leader's tallies: the log structure invariant, one tally per index
above `commitIndex` up to the last log index, one `matchIndex` per replica, the leader's own
`matchIndex` within the log, and every tally at most the number of replicas whose
`matchIndex` has reached its index. -/
def commit_inv (s : raft Cmd) : Prop :=
  log_ok s.log ∧
  (s.matchCount.length : Int) = last_index s.log - s.commitIndex ∧
  s.matchIndex.length = s.num_nodes ∧
  (∃ v, vget s.matchIndex s.idx = some v ∧ v ≤ last_index s.log) ∧
  ∀ (j : Nat) (c : Int), s.matchCount[j]? = some c →
    c ≤ (votes s.matchIndex (s.commitIndex + j + 1) : Int)

/-- The states reachable from `setLeader` on `s0` by `new_command` and by
`handle_append_entries_reply` steps, with any target and reply, whose argument satisfies
`prevLogIndex + |entries| ≤` last log index. -/
inductive leader_reach (s0 : raft Cmd) : raft Cmd → Prop where
  | elected (s : raft Cmd) (jobs : List (Int × append_entries_args Cmd)) :
      setLeader s0 = some (s, jobs) → leader_reach s0 s
  | submit (s s1 : raft Cmd) (appendOk : Bool) (cmd : Cmd) (r : Option (Int × Int)) :
      leader_reach s0 s → new_command appendOk s cmd = some (s1, r) → leader_reach s0 s1
  | reply (s s1 : raft Cmd) (target : Int) (arg : append_entries_args Cmd)
      (reply : append_entries_reply) :
      leader_reach s0 s → arg.prevLogIndex + arg.entries.length ≤ last_index s.log →
      handle_append_entries_reply s target arg reply = some s1 → leader_reach s0 s1

/-- Replica 0 of a fresh 3-replica cluster after its election timer has expired. -/
def candidate_example : raft Nat :=
  ((make_election 0 (raft.fresh 3 0 0)).map Prod.fst).getD (raft.fresh 3 0 0)

/-- The candidate `candidate_example` made leader of term 1. -/
def leader_example : raft Nat :=
  ((setLeader candidate_example).map Prod.fst).getD candidate_example

/-- The leader `leader_example` after `new_command(7)`. -/
def leader_submit_example : raft Nat :=
  ((new_command true leader_example 7).map Prod.fst).getD leader_example

/-- The AppendEntries by which `leader_submit_example` replicates its entry 1. -/
def replicate_example : append_entries_args Nat := ⟨1, 0, 0, 0, [⟨1, 1, 7⟩], 0⟩

/-- The leader after the successful reply of replica 1 to `replicate_example`. -/
def leader_commit_example : raft Nat :=
  (handle_append_entries_reply leader_submit_example 1 replicate_example ⟨1, true⟩).getD
    leader_submit_example

/-! ## Every operation of a replica -/

/-- The constructor `raft::raft`. `restored` is what `storage->restore` hands back: the
stored state, or `none` when there is none (the replica then starts fresh and writes
the fresh state with `updateTotal`). -/
def raft.create [Inhabited Cmd] (n : Nat) (idx : Int) (now : Nat)
    (restored : Option (raft_storage Cmd)) : Option (raft Cmd) :=
  let st : raft_storage Cmd :=
    match restored with
    | some st => st
    | none => ⟨0, -1, [⟨0, 0, default⟩], []⟩
  match st.log.head? with
  | none => none
  | some front =>
    some
      { num_nodes := n
        idx := idx
        role := .follower
        current_term := st.term
        vote_for := st.vote
        log := st.log
        snapshot := st.snapshot
        commitIndex := front.index
        lastApplied := front.index
        vote_count := 0
        votedNodes := List.replicate n false
        nextIndex := List.replicate n 1
        matchIndex := List.replicate n 0
        matchCount := []
        pre_time := now
        storage := st
        state := if st.snapshot.isEmpty then [] else [sm_call.apply_snapshot st.snapshot] }

/-- An operation of a replica: a step of `op` (timer expiry, RPC handler, reply handler),
`new_command`, `save_snapshot` or an applier step. -/
inductive operation (Cmd : Type) where
  | rpc (o : op Cmd)
  | new_command (appendOk : Bool) (cmd : Cmd)
  | save_snapshot (snap : List (sm_call Cmd) → List Char)
  | applier

/-- The state of the replica after one operation. -/
def raft.operate [Inhabited Cmd] (s : raft Cmd) : operation Cmd → Option (raft Cmd)
  | .rpc o => s.step o
  | .new_command appendOk cmd => (new_command appendOk s cmd).map Prod.fst
  | .save_snapshot snap => (save_snapshot snap s).map Prod.fst
  | .applier => run_background_apply s

/-- The volatile-state invariant `base ≤ last_applied ≤ commit_index ≤ last log index`. -/
def volatile_ok (s : raft Cmd) : Prop :=
  base_index s.log ≤ s.lastApplied ∧ s.lastApplied ≤ s.commitIndex ∧
    s.commitIndex ≤ last_index s.log

/-- The follower `follower_example` after it has handled the AppendEntries of leader 0 that
carries entries 1 and 2 with `leaderCommit = 2`, and has applied both. -/
def applied_example : raft Nat :=
  ((follower_example.run [.append_entries 0 true ⟨1, 0, 0, 0, [⟨1, 1, 7⟩, ⟨2, 1, 8⟩], 2⟩]).bind
    run_background_apply).getD follower_example

/-- An InstallSnapshot whose last included entry (1, term 9) is not in the log of
`applied_example`, which holds (1, term 1). -/
def foreign_snapshot_example : install_snapshot_args := ⟨1, 0, 1, 9, []⟩

/-- An InstallSnapshot of leader 0 taken at entry 1, which `applied_example` holds. -/
def old_snapshot_example : install_snapshot_args := ⟨1, 0, 1, 1, []⟩

/-- The log, the commit and apply indices, the snapshot bytes and the trace of state-machine
calls of `s1` are those of `s`. -/
def same_data (s s1 : raft Cmd) : Prop :=
  s1.log = s.log ∧ s1.commitIndex = s.commitIndex ∧ s1.lastApplied = s.lastApplied ∧
    s1.snapshot = s.snapshot ∧ s1.state = s.state

/-- The term, the vote and the role of `s1` are those of `s`. -/
def same_election (s s1 : raft Cmd) : Prop :=
  s1.current_term = s.current_term ∧ s1.vote_for = s.vote_for ∧ s1.role = s.role

/-- The entries sent by an AppendEntries are empty or end with an entry whose index is at
least `commitIndex`. -/
def reaches_commit (s : raft Cmd) (arg : append_entries_args Cmd) : Prop :=
  ∀ e, arg.entries.getLast? = some e → s.commitIndex ≤ e.index

/-- The operations and arguments for which the volatile-state invariant is kept: every
operation, with `append_entries` for arguments whose entries are empty or end at an index
`≥ commitIndex`, and `install_snapshot` for arguments of a stale term, or whose last included
entry is in the log, or with `last_index ≥ commitIndex`. -/
def keeps_volatile (s : raft Cmd) : operation Cmd → Prop
  | .rpc (.append_entries _ _ arg) => reaches_commit s arg
  | .rpc (.install_snapshot _ arg) =>
    arg.term < s.current_term ∨
      (∃ e, entry_at s.log arg.last_index = some e ∧ e.term = arg.lastIncludedTerm) ∨
      s.commitIndex ≤ arg.last_index
  | _ => True

/-- The operations and arguments for which `lastApplied` does not decrease: every operation,
with `install_snapshot` for arguments of a stale term or with `last_index ≥ lastApplied`. -/
def keeps_applied (s : raft Cmd) : operation Cmd → Prop
  | .rpc (.install_snapshot _ arg) => arg.term < s.current_term ∨ s.lastApplied ≤ arg.last_index
  | _ => True

/-- The state of `applied_example` after it has handled `old_snapshot_example`. -/
def trimmed_example : raft Nat :=
  (applied_example.operate (.rpc (.install_snapshot 0 old_snapshot_example))).getD
    applied_example

/-- The state of `follower_example` after `append_example` and an applier step. -/
def applied_once_example : raft Nat :=
  (run_background_apply append_example_result.1).getD append_example_result.1

/-- The entries carry the indices `b, b + 1, b + 2, ...` in order. -/
def indexed_from : Int → List (log_entry Cmd) → Bool
  | _, [] => true
  | b, e :: rest => decide (e.index = b) && indexed_from (b + 1) rest

/-- The number of replicas marked as granters in `votedNodes`. -/
def granters (s : raft Cmd) : Nat :=
  s.votedNodes.count true

/-- The states reachable from `make_election` on `s0` by `handle_request_vote_reply` steps
with any target, argument and reply. -/
inductive candidate_reach (s0 : raft Cmd) : raft Cmd → Prop where
  | started (now : Nat) (s : raft Cmd) (jobs : List (Int × request_vote_args)) :
      make_election now s0 = some (s, jobs) → candidate_reach s0 s
  | reply (s s1 : raft Cmd) (target : Int) (arg : request_vote_args)
      (reply : request_vote_reply) (jobs : List (Int × append_entries_args Cmd)) :
      candidate_reach s0 s → handle_request_vote_reply s target arg reply = some (s1, jobs) →
      candidate_reach s0 s1

/-- The state of `leader_submit_example` after a second `new_command`, and its result. -/
def submit_example : raft Nat × Option (Int × Int) :=
  (new_command true leader_submit_example 9).getD (leader_submit_example, none)

/-- The grant of replica 1 to the RequestVote of `candidate_example`. -/
def grant_example : request_vote_reply := ⟨0, true⟩

/-- The RequestVote sent by `candidate_example`. -/
def vote_request_example : request_vote_args := ⟨1, 0, 0, 0⟩

/-- The state of `candidate_example` after the grant of replica 1, and the heartbeats it
queues. -/
def elected_example : raft Nat × List (Int × append_entries_args Nat) :=
  (handle_request_vote_reply candidate_example 1 vote_request_example grant_example).getD
    (candidate_example, [])

/-- The only replica of a fresh 1-replica cluster after its election timer has expired. -/
def single_candidate_example : raft Nat :=
  ((make_election 0 (raft.fresh 1 0 0)).map Prod.fst).getD (raft.fresh 1 0 0)

/-- The state of `candidate_example` after the RequestVote of candidate 1 for term 2, and
its reply. -/
def stepped_down_example : raft Nat × request_vote_reply :=
  (request_vote 5 candidate_example ⟨2, 1, 0, 0⟩).getD (candidate_example, ⟨0, false⟩)

/-- A state machine `snapshot()` for the examples: the number of calls received, in
unary. -/
def snapshot_example (calls : List (sm_call Nat)) : List Char :=
  List.replicate calls.length 'c'

/-! ## Scenarios -/

/-- Whether a reply in flight is a granting RequestVote reply. -/
def response.granted : response Cmd → Bool
  | .vote _ _ _ reply => reply.vote_grant
  | _ => false

/-- The normal election in a 3-replica cluster: the election timer of replica 0 fires,
replicas 1 and 2 handle its RequestVote, replica 0 handles the two replies. -/
def normal_election_run : List (action Nat) :=
  [.timeout 0 0, .deliver_request 0 0 true, .deliver_request 1 0 true, .deliver_reply 0,
    .deliver_reply 1]

/-- The six orders in which the two RequestVote of the normal election and their replies
can be handled (a reply after its request). -/
def normal_election_runs : List (List (action Nat)) :=
  [ normal_election_run,
    [.timeout 0 0, .deliver_request 0 0 true, .deliver_request 1 0 true, .deliver_reply 1,
      .deliver_reply 0],
    [.timeout 0 0, .deliver_request 1 0 true, .deliver_request 0 0 true, .deliver_reply 0,
      .deliver_reply 1],
    [.timeout 0 0, .deliver_request 1 0 true, .deliver_request 0 0 true, .deliver_reply 1,
      .deliver_reply 0],
    [.timeout 0 0, .deliver_request 0 0 true, .deliver_reply 0, .deliver_request 1 0 true,
      .deliver_reply 1],
    [.timeout 0 0, .deliver_request 1 0 true, .deliver_reply 0, .deliver_request 0 0 true,
      .deliver_reply 1] ]

/-- What a run of the fresh 3-replica cluster ends with: the result of `is_leader` on every
replica, and for every reply sent whether it grants. -/
def election_outcome (run : List (action Nat)) : Option (List (Bool × Int) × List Bool) :=
  ((cluster.fresh 3 0).run run).map fun c => (c.nodes.map is_leader, c.replies.map response.granted)

/-- The cluster reached by the normal election. -/
def elected_cluster_example : cluster Nat :=
  ((cluster.fresh 3 0).run normal_election_run).getD (cluster.fresh 3 0)

/-- The scenario that commits one command `cmd` after the normal election: `new_command` on
replica 0, one replicator tick whose two AppendEntries the followers handle and whose
replies replica 0 handles, an applier step on replica 0, one heartbeat round that the
followers handle, and an applier step on each follower. -/
def commit_one_run (cmd : Nat) : List (action Nat) :=
  [.new_command 0 cmd true, .replicator 0, .deliver_request 4 0 true,
    .deliver_request 5 0 true, .deliver_reply 2, .deliver_reply 3, .applier 0, .heartbeat 0,
    .deliver_request 6 0 true, .deliver_request 7 0 true, .applier 1, .applier 2]

/-- What the commit scenario ends with on every replica: `lastApplied` and the calls its
state machine has received. -/
def commit_outcome (cmd : Nat) : Option (List (Int × List (sm_call Nat))) :=
  (elected_cluster_example.run (commit_one_run cmd)).map fun c =>
    c.nodes.map fun r => (r.lastApplied, r.state)

/-- Replica 0 of a fresh 3-replica cluster after its election timer has expired twice: a
candidate of term 2. -/
def second_term_candidate_example : raft Nat :=
  ((raft.fresh 3 0 0 : raft Nat).run [.timeout 0, .timeout 0]).getD (raft.fresh 3 0 0)

/-- A rejecting reply of term 1 to an AppendEntries. -/
def reject_example : append_entries_reply := ⟨1, false⟩

/-! ## Persistence -/

/-- The stored `(term, voted_for)` is the in-memory `(current_term, vote_for)`. -/
def metadata_stored (s : raft Cmd) : Prop :=
  s.storage.term = s.current_term ∧ s.storage.vote = s.vote_for

/-- The stored log is the in-memory log. -/
def log_stored (s : raft Cmd) : Prop :=
  s.storage.log = s.log

/-- The stored metadata and log are the in-memory ones. -/
def persisted (s : raft Cmd) : Prop :=
  metadata_stored s ∧ log_stored s

/-! ## Marshalling (`raft_protocol.h`, `raft_protocol.cc`) -/

/-- Modelled from the spec: the buffer of `marshall` and `unmarshall` of the absent `rpc.h`,
a sequence of bytes. -/
abbrev wire := List Nat

/-- Modelled from the spec: the primitive `operator<<` and `operator>>` of the absent `rpc.h`
for one type. `put x` is what `m << x` appends to the buffer; `get u` is the value that
`u >> x` reads from the front of the buffer `u` and the rest of the buffer, `none` when the
buffer does not hold a value. -/
structure codec (α : Type) where
  put : α → wire
  get : wire → Option (α × wire)

/-- Reading what was written gives back the value and leaves the rest of the buffer. -/
def codec.round_trips {α : Type} (c : codec α) : Prop :=
  ∀ (x : α) (rest : wire), c.get (c.put x ++ rest) = some (x, rest)

/-- Modelled from the spec: the primitive marshalling of the absent `rpc.h` used by the RPC
types: `int`, `bool`, `std::vector<char>`, the command, and `std::vector` of log entries,
which is built from the marshalling of one entry. -/
structure primitives (Cmd : Type) where
  int : codec Int
  bool : codec Bool
  bytes : codec (List Char)
  cmd : codec Cmd
  vector : codec (log_entry Cmd) → codec (List (log_entry Cmd))

/-- The primitive marshalling round-trips; that of a vector when that of its elements
does. -/
def primitives.round_trips (p : primitives Cmd) : Prop :=
  p.int.round_trips ∧ p.bool.round_trips ∧ p.bytes.round_trips ∧ p.cmd.round_trips ∧
    ∀ c : codec (log_entry Cmd), c.round_trips → (p.vector c).round_trips

/-- The `operator<<` of `request_vote_args`: the buffer `m` after the call. -/
def marshall_request_vote_args (p : primitives Cmd) (m : wire) (args : request_vote_args) :
    wire :=
  let m := m ++ p.int.put args.term
  let m := m ++ p.int.put args.candidate_id
  let m := m ++ p.int.put args.lastLogIndex
  let m := m ++ p.int.put args.lastLogTerm
  m

/-- The `operator>>` of `request_vote_args`: the value read and the rest of the buffer. -/
def unmarshall_request_vote_args (p : primitives Cmd) (u : wire) :
    Option (request_vote_args × wire) :=
  match p.int.get u with
  | none => none
  | some (term, u) =>
    match p.int.get u with
    | none => none
    | some (candidate_id, u) =>
      match p.int.get u with
      | none => none
      | some (lastLogIndex, u) =>
        match p.int.get u with
        | none => none
        | some (lastLogTerm, u) => some (⟨term, candidate_id, lastLogIndex, lastLogTerm⟩, u)

/-- The `operator<<` of `request_vote_reply`. -/
def marshall_request_vote_reply (p : primitives Cmd) (m : wire) (reply : request_vote_reply) :
    wire :=
  let m := m ++ p.int.put reply.term
  let m := m ++ p.bool.put reply.vote_grant
  m

/-- The `operator>>` of `request_vote_reply`. -/
def unmarshall_request_vote_reply (p : primitives Cmd) (u : wire) :
    Option (request_vote_reply × wire) :=
  match p.int.get u with
  | none => none
  | some (term, u) =>
    match p.bool.get u with
    | none => none
    | some (vote_grant, u) => some (⟨term, vote_grant⟩, u)

/-- The `operator<<` of `log_entry<command>`. -/
def marshall_log_entry (p : primitives Cmd) (m : wire) (entry : log_entry Cmd) : wire :=
  let m := m ++ p.int.put entry.index
  let m := m ++ p.int.put entry.term
  let m := m ++ p.cmd.put entry.cmd
  m

/-- The `operator>>` of `log_entry<command>`. -/
def unmarshall_log_entry (p : primitives Cmd) (u : wire) : Option (log_entry Cmd × wire) :=
  match p.int.get u with
  | none => none
  | some (index, u) =>
    match p.int.get u with
    | none => none
    | some (term, u) =>
      match p.cmd.get u with
      | none => none
      | some (cmd, u) => some (⟨index, term, cmd⟩, u)

/-- The marshalling of one log entry, from which that of `std::vector<log_entry<command>>`
is built. -/
def log_entry_codec (p : primitives Cmd) : codec (log_entry Cmd) :=
  ⟨marshall_log_entry p [], unmarshall_log_entry p⟩

/-- The `operator<<` of `append_entries_args<command>`. -/
def marshall_append_entries_args (p : primitives Cmd) (m : wire)
    (args : append_entries_args Cmd) : wire :=
  let m := m ++ p.int.put args.term
  let m := m ++ p.int.put args.leader_id
  let m := m ++ p.int.put args.prevLogIndex
  let m := m ++ p.int.put args.prevLogTerm
  let m := m ++ (p.vector (log_entry_codec p)).put args.entries
  let m := m ++ p.int.put args.leaderCommit
  m

/-- The `operator>>` of `append_entries_args<command>`. -/
def unmarshall_append_entries_args (p : primitives Cmd) (u : wire) :
    Option (append_entries_args Cmd × wire) :=
  match p.int.get u with
  | none => none
  | some (term, u) =>
    match p.int.get u with
    | none => none
    | some (leader_id, u) =>
      match p.int.get u with
      | none => none
      | some (prevLogIndex, u) =>
        match p.int.get u with
        | none => none
        | some (prevLogTerm, u) =>
          match (p.vector (log_entry_codec p)).get u with
          | none => none
          | some (entries, u) =>
            match p.int.get u with
            | none => none
            | some (leaderCommit, u) =>
              some (⟨term, leader_id, prevLogIndex, prevLogTerm, entries, leaderCommit⟩, u)

/-- The `operator<<` of `append_entries_reply`. -/
def marshall_append_entries_reply (p : primitives Cmd) (m : wire)
    (reply : append_entries_reply) : wire :=
  let m := m ++ p.int.put reply.term
  let m := m ++ p.bool.put reply.success
  m

/-- The `operator>>` of `append_entries_reply`. -/
def unmarshall_append_entries_reply (p : primitives Cmd) (u : wire) :
    Option (append_entries_reply × wire) :=
  match p.int.get u with
  | none => none
  | some (term, u) =>
    match p.bool.get u with
    | none => none
    | some (success, u) => some (⟨term, success⟩, u)

/-- The `operator<<` of `install_snapshot_args`. -/
def marshall_install_snapshot_args (p : primitives Cmd) (m : wire)
    (args : install_snapshot_args) : wire :=
  let m := m ++ p.int.put args.term
  let m := m ++ p.int.put args.leader_id
  let m := m ++ p.int.put args.last_index
  let m := m ++ p.int.put args.lastIncludedTerm
  let m := m ++ p.bytes.put args.snapshot
  m

/-- The `operator>>` of `install_snapshot_args`. -/
def unmarshall_install_snapshot_args (p : primitives Cmd) (u : wire) :
    Option (install_snapshot_args × wire) :=
  match p.int.get u with
  | none => none
  | some (term, u) =>
    match p.int.get u with
    | none => none
    | some (leader_id, u) =>
      match p.int.get u with
      | none => none
      | some (last_index, u) =>
        match p.int.get u with
        | none => none
        | some (lastIncludedTerm, u) =>
          match p.bytes.get u with
          | none => none
          | some (snapshot, u) =>
            some (⟨term, leader_id, last_index, lastIncludedTerm, snapshot⟩, u)

/-- The `operator<<` of `install_snapshot_reply`. -/
def marshall_install_snapshot_reply (p : primitives Cmd) (m : wire)
    (reply : install_snapshot_reply) : wire :=
  m ++ p.int.put reply.term

/-- The `operator>>` of `install_snapshot_reply`. -/
def unmarshall_install_snapshot_reply (p : primitives Cmd) (u : wire) :
    Option (install_snapshot_reply × wire) :=
  match p.int.get u with
  | none => none
  | some (term, u) => some (⟨term⟩, u)

/-- The wire schema of the specification, `RequestVoteArgs`:
`term, candidate_id, last_log_index, last_log_term`. -/
def schema_request_vote_args (p : primitives Cmd) (x : request_vote_args) : wire :=
  p.int.put x.term ++ p.int.put x.candidate_id ++ p.int.put x.lastLogIndex ++
    p.int.put x.lastLogTerm

/-- The wire schema of the specification, `RequestVoteReply`: `term, granted`. -/
def schema_request_vote_reply (p : primitives Cmd) (x : request_vote_reply) : wire :=
  p.int.put x.term ++ p.bool.put x.vote_grant

/-- The wire schema of the specification, `LogEntry<Cmd>`: `index, term, cmd`. -/
def schema_log_entry (p : primitives Cmd) (x : log_entry Cmd) : wire :=
  p.int.put x.index ++ p.int.put x.term ++ p.cmd.put x.cmd

/-- The wire schema of the specification, `AppendEntriesArgs<Cmd>`:
`term, leader_id, prev_log_index, prev_log_term, entries, leader_commit`, the entries as a
vector of `LogEntry<Cmd>`. -/
def schema_append_entries_args (p : primitives Cmd) (x : append_entries_args Cmd) : wire :=
  p.int.put x.term ++ p.int.put x.leader_id ++ p.int.put x.prevLogIndex ++
    p.int.put x.prevLogTerm ++ (p.vector ⟨schema_log_entry p, unmarshall_log_entry p⟩).put
      x.entries ++ p.int.put x.leaderCommit

/-- The wire schema of the specification, `AppendEntriesReply`: `term, success`. -/
def schema_append_entries_reply (p : primitives Cmd) (x : append_entries_reply) : wire :=
  p.int.put x.term ++ p.bool.put x.success

/-- The wire schema of the specification, `InstallSnapshotArgs`:
`term, leader_id, last_included_index, last_included_term, snapshot_bytes`. -/
def schema_install_snapshot_args (p : primitives Cmd) (x : install_snapshot_args) : wire :=
  p.int.put x.term ++ p.int.put x.leader_id ++ p.int.put x.last_index ++
    p.int.put x.lastIncludedTerm ++ p.bytes.put x.snapshot

/-- The wire schema of the specification, `InstallSnapshotReply`: `term`. -/
def schema_install_snapshot_reply (p : primitives Cmd) (x : install_snapshot_reply) : wire :=
  p.int.put x.term

/-- A primitive marshalling for the examples: one byte-sequence element per value, its
code under the encoding of `Encodable`. -/
def example_codec (α : Type) [Encodable α] : codec α :=
  { put := fun x => [Encodable.encode x]
    get := fun u =>
      match u with
      | [] => none
      | n :: rest => (Encodable.decode n).map fun x => (x, rest) }

/-- Read `n` elements, one after the other. -/
def read_elements {α : Type} (c : codec α) : Nat → wire → Option (List α × wire)
  | 0, u => some ([], u)
  | n + 1, u =>
    match c.get u with
    | none => none
    | some (x, u) =>
      match read_elements c n u with
      | none => none
      | some (xs, u) => some (x :: xs, u)

/-- A marshalling of vectors for the examples: the number of elements, then the
elements. -/
def example_vector {α : Type} (c : codec α) : codec (List α) :=
  { put := fun xs => xs.length :: (xs.map c.put).flatten
    get := fun u =>
      match u with
      | [] => none
      | n :: rest => read_elements c n rest }

/-- A marshalling of `char` for the examples: its code. -/
def example_char : codec Char :=
  { put := fun c => [c.toNat]
    get := fun u =>
      match u with
      | [] => none
      | n :: rest => some (Char.ofNat n, rest) }

/-- The primitive marshalling of the examples, for commands that are numbers. -/
def example_primitives : primitives Nat :=
  { int := example_codec Int
    bool := example_codec Bool
    bytes := example_vector example_char
    cmd := example_codec Nat
    vector := example_vector }

/-! ## A leader that takes a snapshot -/

/-- The follower `applied_example` (replica 1, entries 0 to 2 applied) after its election
timer has expired and it has become leader of term 2, and the heartbeats it queues. -/
def snapshot_leader_example : raft Nat × List (Int × append_entries_args Nat) :=
  (((make_election 0 applied_example).map Prod.fst).bind setLeader).getD (applied_example, [])

/-- The heartbeat that `snapshot_leader_example` queues for every peer. -/
def snapshot_heartbeat_example : append_entries_args Nat := ⟨2, 1, 2, 1, [], 2⟩

/-- The leader `snapshot_leader_example` after `save_snapshot`, and then after the reply of
the fresh replica 2 to its heartbeat. -/
def lagging_leader_example : raft Nat :=
  (((save_snapshot snapshot_example snapshot_leader_example.1).map Prod.fst).bind fun s =>
    handle_append_entries_reply s 2 snapshot_heartbeat_example ⟨0, false⟩).getD
      snapshot_leader_example.1

/-! ## What the replicator sends -/

/-- The entries of the log with the indices `lo, lo + 1, ..., hi`, in order. -/
def entries_between (log : List (log_entry Cmd)) (lo hi : Int) : List (log_entry Cmd) :=
  (List.range (hi + 1 - lo).toNat).filterMap fun (k : Nat) => entry_at log (lo + (k : Int))

/-- What the replicator of a leader sends to the peer `i` whose `nextIndex` is `next`:
AppendEntries from `next` on when `base < next ≤` last log index, InstallSnapshot of the
first entry of the log when `next ≤ base`, nothing when `next >` last log index. -/
def replicate_to (s : raft Cmd) (i : Nat) (next : Int) : Option (replicate_job Cmd) :=
  if base_index s.log < next ∧ next ≤ last_index s.log then
    some (.append i
      { term := s.current_term
        leader_id := s.idx
        prevLogIndex := next - 1
        prevLogTerm := ((entry_at s.log (next - 1)).map fun e => e.term).getD 0
        entries := entries_between s.log next (last_index s.log)
        leaderCommit := s.commitIndex })
  else if next ≤ base_index s.log then
    some (.snapshot i
      { term := s.current_term
        leader_id := s.idx
        last_index := base_index s.log
        lastIncludedTerm := (s.log.head?.map fun e => e.term).getD 0
        snapshot := s.snapshot })
  else none

/-- What one replicator tick of a leader sends: for every peer other than itself, in the
order of the peers, what `replicate_to` says for its `nextIndex`. -/
def replicator_sends (s : raft Cmd) : List (replicate_job Cmd) :=
  (List.range s.num_nodes).filterMap fun (i : Nat) =>
    if (i : Int) = s.idx then none else (vget s.nextIndex i).bind (replicate_to s i)

/-- The leader `leader_submit_example` after a snapshot reply has set `nextIndex[2]` to 0:
replica 1 is sent entry 1, replica 2 a snapshot. -/
def replicator_example : raft Nat :=
  { leader_submit_example with nextIndex := [2, 1, 0] }


/-- The cluster of one replica after three election timeouts. -/
def lone_cluster_example : cluster Nat :=
  ((cluster.fresh 1 0).run [.timeout 0 1, .timeout 0 2, .timeout 0 3]).getD (cluster.fresh 1 0)

end Raft

namespace Chfs

/-! # The file-system client (`chfs_client.cc`)

The content of a directory is a `std::string` in the format `name:inum/name:inum/...`.
A `std::string` is a list of characters; a position held in an `int` is an integer, and
`std::string::npos` converted to `int` is `-1`. -/

/-- The call `buf.find(c, pos)` with the result converted to `int`: the first position
`≥ pos` of the character `c`, `-1` when there is none. A negative `pos` converts to a
position beyond every string. -/
def find_char (buf : List Char) (c : Char) (pos : Int) : Int :=
  if pos < 0 then -1
  else
    match (buf.drop pos.toNat).indexOf? c with
    | some k => pos + k
    | none => -1

/-- The positions `pos, pos + 1, ...` (`todo` of them) searched for the string `str`. -/
def find_from (buf str : List Char) : Nat → Nat → Int
  | _, 0 => -1
  | pos, todo + 1 =>
    if str.isPrefixOf (buf.drop pos) then (pos : Int) else find_from buf str (pos + 1) todo

/-- The call `buf.find(str)` with the result converted to `int`: the first position at which
`str` occurs in `buf`, `-1` when it does not occur. -/
def find (buf str : List Char) : Int :=
  find_from buf str 0 (buf.length + 1)

/-- The call `buf.substr(pos, count)` with `int` arguments: `none` when `pos` is beyond the
string (the call throws); a negative `count` converts to a length beyond every string. -/
def substr (buf : List Char) (pos count : Int) : Option (List Char) :=
  if pos < 0 ∨ (buf.length : Int) < pos then none
  else some ((buf.drop pos.toNat).take (if count < 0 then buf.length else count.toNat))

/-- The call `buf.erase(pos, count)` with `int` arguments: `none` when `pos` is beyond the
string (the call throws); a negative `count` converts to a length beyond every string. -/
def erase (buf : List Char) (pos count : Int) : Option (List Char) :=
  if pos < 0 ∨ (buf.length : Int) < pos then none
  else
    some (buf.take pos.toNat ++
      buf.drop (pos.toNat + (if count < 0 then buf.length else count.toNat)))

/-- The decimal digits at the front of a string, as a number: `acc` is the value read so
far. -/
def read_digits : List Char → Nat → Nat
  | [], acc => acc
  | c :: rest, acc => if c.isDigit then read_digits rest (acc * 10 + (c.toNat - 48)) else acc

/-- The method `chfs_client::n2i`: the number that `ist >> finum` reads from the front of
the string, 0 when it does not start with a digit (leading blanks, a sign and the overflow
of `unsigned long long` are not modelled). -/
def n2i (n : List Char) : Nat :=
  read_digits n 0

/-- The struct `dirent`. -/
structure dirent where
  name : List Char
  inum : Nat
deriving DecidableEq, Repr

/-- The `while` loop of `chfs_client::readdir`, entered with `start` and `end`; `fuel` bounds
the number of iterations (`none` when they do not suffice, or when `substr` throws). -/
def readdir_loop (buf : List Char) : Nat → Int → Int → List dirent → Option (List dirent)
  | 0, _, _, _ => none
  | fuel + 1, start, end_pos, list =>
    if end_pos = -1 then some list
    else
      match substr buf start (end_pos - start) with
      | none => none
      | some name =>
        let start := end_pos + 1
        let end_pos := find_char buf '/' start
        match substr buf start (end_pos - start) with
        | none => none
        | some inum =>
          let list := list ++ [⟨name, n2i inum⟩]
          let start := end_pos + 1
          let end_pos := find_char buf ':' start
          readdir_loop buf fuel start end_pos list

/-- The method `chfs_client::readdir` on a directory whose content `ec->get` returns as
`buf`: the list of its entries. Every iteration with a defined result passes a `:`, so
`buf.length + 1` iterations suffice when the loop ends. -/
def readdir (buf : List Char) : Option (List dirent) :=
  readdir_loop buf (buf.length + 1) 0 (find_char buf ':' 0) []

/-- The loop of `chfs_client::lookup` over the entries: `found` and `ino_out`. -/
def lookup_in : List dirent → List Char → Bool × Option Nat
  | [], _ => (false, none)
  | entry :: rest, name => if entry.name = name then (true, some entry.inum) else lookup_in rest name

/-- The method `chfs_client::lookup` on the directory content `buf`. -/
def lookup (buf name : List Char) : Option (Bool × Option Nat) :=
  (readdir buf).map fun list => lookup_in list name

/-- The method `chfs_client::unlink` on a directory whose content is `buf`, the calls of
the extent server taken to succeed: the content that `ec->put` writes back to the
directory (`ec->remove` acts on the extent of the file). `none` when `erase` throws. -/
def unlink (buf name : List Char) : Option (List Char) :=
  match lookup buf name with
  | none => none
  | some _ =>
    let erase_start := find buf name
    let erase_after := find_char buf '/' erase_start
    erase buf erase_start (erase_after - erase_start + 1)

/-- The directory `ab:2/a:3/`: the entries `ab` and `a`. -/
def prefix_dir_example : List Char := "ab:2/a:3/".toList

/-- The directory `ba:2/a:3/`: the entries `ba` and `a`. -/
def shadowed_dir_example : List Char := "ba:2/a:3/".toList

/-- The directory `x:1/1:5/`: the entries `x` and `1`. -/
def numeric_dir_example : List Char := "x:1/1:5/".toList

/-! # The inode manager (`inode_manager.cc`)

A block is the list of its bytes; `uint32_t` values are natural numbers. -/

/-- The struct `inode`: `blocks` holds the `NDIRECT` direct block ids and the id of the
indirect block. -/
structure inode where
  type : Nat
  size : Nat
  atime : Nat
  mtime : Nat
  ctime : Nat
  blocks : List Nat
deriving DecidableEq, Repr

/-- Modelled from the spec: the constants and macros of `inode_manager.h`, which is not
among the sources, left as parameters. `IBLOCK inum` is `IBLOCK(inum, sb.nblocks)`.
`load_inode buf inum` is the struct that `(struct inode*)buf + inum%IPB` points to and
`store_inode buf inum ino` the buffer after the assignment of `ino` to it; `get_id buf k`
is `((blockid_t*)buf)[k]` and `set_id buf k b` the buffer after the assignment of `b` to
it; `junk` is what a buffer that has not been written holds. -/
structure layout where
  BLOCK_SIZE : Nat
  BLOCK_NUM : Nat
  INODE_NUM : Nat
  NDIRECT : Nat
  MAXFILE : Nat
  FILEBLOCK : Nat
  IBLOCK : Nat → Nat
  load_inode : List Nat → Nat → inode
  store_inode : List Nat → Nat → inode → List Nat
  get_id : List Nat → Nat → Nat
  set_id : List Nat → Nat → Nat → List Nat
  junk : List Nat

/-- The data members of `block_manager` and of its `disk`: the blocks of the disk, and the
ids `b` with `using_blocks[b] == true`. -/
structure block_manager where
  blocks : List (List Nat)
  using_blocks : List Nat
deriving DecidableEq, Repr

/-- The method `block_manager::read_block` (`disk::read_block`): the buffer `buf` after
the call. -/
def read_block (L : layout) (bm : block_manager) (id : Nat) (buf : List Nat) : List Nat :=
  if id < L.BLOCK_NUM then bm.blocks.getD id buf else buf

/-- The method `block_manager::write_block` (`disk::write_block`); `buf` is the
`BLOCK_SIZE` bytes at the pointer passed. -/
def write_block (L : layout) (bm : block_manager) (id : Nat) (buf : List Nat) :
    block_manager :=
  if id < L.BLOCK_NUM then { bm with blocks := bm.blocks.set id buf } else bm

/-- The method `block_manager::alloc_block`: the first block from `FILEBLOCK` on that is not
in use, marked as in use; 0 when there is none. -/
def alloc_block (L : layout) (bm : block_manager) : block_manager × Nat :=
  match (List.range' L.FILEBLOCK (L.BLOCK_NUM - L.FILEBLOCK)).find?
      fun b => decide (b ∉ bm.using_blocks) with
  | some b => ({ bm with using_blocks := b :: bm.using_blocks }, b)
  | none => (bm, 0)

/-- The method `block_manager::free_block`. -/
def free_block (bm : block_manager) (id : Nat) : block_manager :=
  { bm with using_blocks := bm.using_blocks.filter fun b => decide (b ≠ id) }

/-- The method `inode_manager::alloc_nth_block`: the disk and the inode after the call,
`none` when it calls `exit`. -/
def alloc_nth_block (L : layout) (bm : block_manager) (ino : inode) (n : Nat) :
    Option (block_manager × inode) :=
  if n < L.NDIRECT then
    let r := alloc_block L bm
    some (r.1, { ino with blocks := ino.blocks.set n r.2 })
  else if n < L.MAXFILE then
    let r :=
      if ino.blocks.getD L.NDIRECT 0 = 0 then
        let r := alloc_block L bm
        (r.1, { ino with blocks := ino.blocks.set L.NDIRECT r.2 })
      else (bm, ino)
    let buf := read_block L r.1 (r.2.blocks.getD L.NDIRECT 0) L.junk
    let a := alloc_block L r.1
    let buf := L.set_id buf (n - L.NDIRECT) a.2
    some (write_block L a.1 (r.2.blocks.getD L.NDIRECT 0) buf, r.2)
  else none

/-- The method `inode_manager::get_nth_blockId`, `none` when it calls `exit`. -/
def get_nth_blockId (L : layout) (bm : block_manager) (ino : inode) (n : Nat) : Option Nat :=
  if n < L.NDIRECT then some (ino.blocks.getD n 0)
  else if n < L.MAXFILE then
    some (L.get_id (read_block L bm (ino.blocks.getD L.NDIRECT 0) L.junk) (n - L.NDIRECT))
  else none

/-- The method `inode_manager::get_inode`, `none` for `NULL`. -/
def get_inode (L : layout) (bm : block_manager) (inum : Nat) : Option inode :=
  if inum ≥ L.INODE_NUM then none
  else
    let ino := L.load_inode (read_block L bm (L.IBLOCK inum) L.junk) inum
    if ino.type = 0 then none else some ino

/-- The method `inode_manager::put_inode`. -/
def put_inode (L : layout) (bm : block_manager) (inum : Nat) (ino : inode) : block_manager :=
  write_block L bm (L.IBLOCK inum)
    (L.store_inode (read_block L bm (L.IBLOCK inum) L.junk) inum ino)

/-- The loop of `inode_manager::alloc_inode` over `inum, inum + 1, ...` (`todo` of them);
`none` when it ends without a free inode and `exit` is called. -/
def alloc_inode_from (L : layout) (bm : block_manager) (type now : Nat) :
    Nat → Nat → Option (block_manager × Nat)
  | _, 0 => none
  | inum, todo + 1 =>
    match get_inode L bm inum with
    | none =>
      some (put_inode L bm inum ⟨type, 0, now, now, now, List.replicate (L.NDIRECT + 1) 0⟩,
        inum)
    | some _ => alloc_inode_from L bm type now (inum + 1) todo

/-- The method `inode_manager::alloc_inode`: the loop runs over `inum = 1, ..., INODE_NUM`;
`now` is `time(NULL)`. -/
def alloc_inode (L : layout) (bm : block_manager) (type now : Nat) :
    Option (block_manager × Nat) :=
  alloc_inode_from L bm type now 1 L.INODE_NUM

/-- The loop `for (i = old_block_num; i < new_block_num; ++i) alloc_nth_block(ino, i)` of
`write_file`, entered with `i` and `todo` iterations to go. -/
def alloc_blocks (L : layout) : block_manager → inode → Nat → Nat →
    Option (block_manager × inode)
  | bm, ino, _, 0 => some (bm, ino)
  | bm, ino, i, todo + 1 =>
    match alloc_nth_block L bm ino i with
    | none => none
    | some r => alloc_blocks L r.1 r.2 (i + 1) todo

/-- The loop `for (i = old_block_num; i < new_block_num; ++i) free_block(...)` of
`write_file`, entered with `i` and `todo` iterations to go. -/
def free_blocks (L : layout) (ino : inode) : block_manager → Nat → Nat → Option block_manager
  | bm, _, 0 => some bm
  | bm, i, todo + 1 =>
    match get_nth_blockId L bm ino i with
    | none => none
    | some b => free_blocks L ino (free_block bm b) (i + 1) todo

/-- The loop of `write_file` that writes the whole blocks `i, i + 1, ...` (`todo` of them)
of `buf`. -/
def write_blocks (L : layout) (ino : inode) (buf : List Nat) :
    block_manager → Nat → Nat → Option block_manager
  | bm, _, 0 => some bm
  | bm, i, todo + 1 =>
    match get_nth_blockId L bm ino i with
    | none => none
    | some b =>
      write_blocks L ino buf
        (write_block L bm b ((buf.drop (i * L.BLOCK_SIZE)).take L.BLOCK_SIZE)) (i + 1) todo

/-- The number of blocks of a file of `size` bytes. -/
def block_count (L : layout) (size : Nat) : Nat :=
  if size = 0 then 0 else (size - 1) / L.BLOCK_SIZE + 1

/-- The method `inode_manager::write_file`: the disk after the call, `none` when `exit` is
called; `now` is `time(NULL)`. -/
def write_file (L : layout) (bm : block_manager) (inum : Nat) (buf : List Nat) (size : Int)
    (now : Nat) : Option block_manager :=
  if size < 0 ∨ size > ((L.MAXFILE * L.BLOCK_SIZE : Nat) : Int) then none
  else
    match get_inode L bm inum with
    | none => some bm
    | some ino =>
      let size := size.toNat
      let old_block_num := block_count L ino.size
      let new_block_num := block_count L size
      let resized : Option (block_manager × inode) :=
        if old_block_num < new_block_num then
          alloc_blocks L bm ino old_block_num (new_block_num - old_block_num)
        else if old_block_num > new_block_num then
          (free_blocks L ino bm old_block_num (new_block_num - old_block_num)).map
            fun bm => (bm, ino)
        else some (bm, ino)
      match resized with
      | none => none
      | some r =>
        let block_num := size / L.BLOCK_SIZE
        let remain_size := size % L.BLOCK_SIZE
        match write_blocks L r.2 buf r.1 0 block_num with
        | none => none
        | some bm =>
          let last : Option block_manager :=
            if remain_size > 0 then
              (get_nth_blockId L bm r.2 block_num).map fun b =>
                write_block L bm b
                  ((buf.drop (block_num * L.BLOCK_SIZE)).take remain_size ++
                    L.junk.drop remain_size)
            else some bm
          match last with
          | none => none
          | some bm =>
            some (put_inode L bm inum
              { r.2 with size := size, atime := now, mtime := now, ctime := now })

/-- The loop of `read_file` that reads the whole blocks `i, i + 1, ...` (`todo` of them):
the bytes copied to `*buf_out` and the buffer `buf` after the loop. -/
def read_blocks (L : layout) (bm : block_manager) (ino : inode) :
    Nat → Nat → List Nat → Option (List Nat × List Nat)
  | _, 0, buf => some ([], buf)
  | i, todo + 1, buf =>
    match get_nth_blockId L bm ino i with
    | none => none
    | some b =>
      match read_blocks L bm ino (i + 1) todo (read_block L bm b buf) with
      | none => none
      | some r => some ((read_block L bm b buf).take L.BLOCK_SIZE ++ r.1, r.2)

/-- The method `inode_manager::read_file`: `*size` and the bytes of `*buf_out`; `none` when
the outputs are not written (`get_inode` returns `NULL`) or `exit` is called. -/
def read_file (L : layout) (bm : block_manager) (inum : Nat) : Option (Nat × List Nat) :=
  match get_inode L bm inum with
  | none => none
  | some ino =>
    let block_num := ino.size / L.BLOCK_SIZE
    let remain_size := ino.size % L.BLOCK_SIZE
    match read_blocks L bm ino 0 block_num L.junk with
    | none => none
    | some r =>
      if remain_size > 0 then
        match get_nth_blockId L bm ino block_num with
        | none => none
        | some b => some (ino.size, r.1 ++ (read_block L bm b r.2).take remain_size)
      else some (ino.size, r.1)

/-- What the results proved assume of the parameters: blocks are not empty, block 0 and the
blocks of the inode table lie before `FILEBLOCK`, which lies on the disk, a struct `inode`
(with its `NDIRECT + 1` block ids) assigned through a buffer is read back from it, and so
is a block id, without change to the other ids of the buffer. -/
def layout.ok (L : layout) : Prop :=
  0 < L.BLOCK_SIZE ∧ 0 < L.FILEBLOCK ∧ L.FILEBLOCK ≤ L.BLOCK_NUM ∧ L.NDIRECT ≤ L.MAXFILE ∧
  (∀ inum, inum < L.INODE_NUM → L.IBLOCK inum < L.FILEBLOCK) ∧
  (∀ buf inum ino, ino.blocks.length = L.NDIRECT + 1 →
    L.load_inode (L.store_inode buf inum ino) inum = ino) ∧
  (∀ buf k b j, L.get_id (L.set_id buf k b) j = if j = k then b else L.get_id buf j)

/-- The number of blocks from `FILEBLOCK` on that are not in use. -/
def free_count (L : layout) (bm : block_manager) : Nat :=
  ((List.range' L.FILEBLOCK (L.BLOCK_NUM - L.FILEBLOCK)).filter
    fun b => decide (b ∉ bm.using_blocks)).length

/-- The number of blocks that `write_file` allocates for `size` bytes: the blocks the file
does not have yet, and the indirect block when it is needed and the inode names none. -/
def blocks_needed (L : layout) (ino : inode) (size : Nat) : Nat :=
  (block_count L size - block_count L ino.size) +
    (if ino.blocks.getD L.NDIRECT 0 = 0 ∧ L.NDIRECT < block_count L size then 1 else 0)

/-- The first `n` blocks of the file of `ino` are sound: the inode holds `NDIRECT + 1` block
ids, the disk has `BLOCK_NUM` blocks, the `n` blocks are distinct blocks from `FILEBLOCK`
on, marked as in use and different from the indirect block, and the indirect block, when
the inode names one (as it does when `n > NDIRECT`), is such a block too. -/
def file_ok (L : layout) (bm : block_manager) (ino : inode) (n : Nat) : Prop :=
  ino.blocks.length = L.NDIRECT + 1 ∧ bm.blocks.length = L.BLOCK_NUM ∧ n ≤ L.MAXFILE ∧
  (∀ i, i < n → ∃ b, get_nth_blockId L bm ino i = some b ∧ L.FILEBLOCK ≤ b ∧
    b < L.BLOCK_NUM ∧ b ∈ bm.using_blocks ∧ b ≠ ino.blocks.getD L.NDIRECT 0) ∧
  (∀ i j, i < n → j < n → get_nth_blockId L bm ino i = get_nth_blockId L bm ino j → i = j) ∧
  (ino.blocks.getD L.NDIRECT 0 ≠ 0 →
    L.FILEBLOCK ≤ ino.blocks.getD L.NDIRECT 0 ∧ ino.blocks.getD L.NDIRECT 0 < L.BLOCK_NUM ∧
    ino.blocks.getD L.NDIRECT 0 ∈ bm.using_blocks) ∧
  (L.NDIRECT < n → ino.blocks.getD L.NDIRECT 0 ≠ 0)

/-! ## A small disk

A layout with 8-byte blocks in which a struct `inode` is seven cells of a buffer (the five
fields and two block ids) and a block id is one cell. -/

/-- The struct `inode` read from the front of a buffer, with `n` block ids; cells the buffer
does not have read as 0. -/
def load_cells (n : Nat) (buf : List Nat) : inode :=
  ⟨buf.getD 0 0, buf.getD 1 0, buf.getD 2 0, buf.getD 3 0, buf.getD 4 0,
    (List.range n).map fun (k : Nat) => buf.getD (5 + k) 0⟩

/-- A struct `inode` assigned to the front of a buffer. -/
def store_cells (buf : List Nat) (ino : inode) : List Nat :=
  [ino.type, ino.size, ino.atime, ino.mtime, ino.ctime] ++ ino.blocks ++
    buf.drop (5 + ino.blocks.length)

/-- The cell `k` of a buffer set to `b`; cells the buffer does not have are 0. -/
def set_cell (buf : List Nat) (k b : Nat) : List Nat :=
  (List.range (max buf.length (k + 1))).map fun (j : Nat) => if j = k then b else buf.getD j 0

/-- A layout of 12 blocks of 8 bytes: block 0 is the super block, blocks 1 to 3 hold the
inodes 0 to 2, the blocks from 4 on hold files; a file has one direct block and up to two
blocks named by its indirect block. `INODE_NUM` is 2. -/
def small_layout : layout where
  BLOCK_SIZE := 8
  BLOCK_NUM := 12
  INODE_NUM := 2
  NDIRECT := 1
  MAXFILE := 3
  FILEBLOCK := 4
  IBLOCK := fun inum => inum + 1
  load_inode := fun buf _ => load_cells 2 buf
  store_inode := fun buf _ ino => store_cells buf ino
  get_id := fun buf k => buf.getD k 0
  set_id := set_cell
  junk := []

/-- The disk of `small_layout` after `bzero`. -/
def empty_disk : block_manager := ⟨List.replicate 12 [], []⟩

/-- The disk of `small_layout` after the constructor of `inode_manager`: the root directory
is inode 1 (type `T_DIR` is 1); the time is 7. -/
def rooted_disk : block_manager :=
  ((alloc_inode small_layout empty_disk 1 7).map Prod.fst).getD empty_disk

/-- The inode of the root directory on `rooted_disk`. -/
def root_inode : inode := ⟨1, 0, 7, 7, 7, [0, 0]⟩

/-- The 19 bytes 1, 2, ..., 19: two whole blocks and three bytes. -/
def bytes_example : List Nat := (List.range 19).map fun (k : Nat) => k + 1

/-- The disk `rooted_disk` after a second call of `alloc_inode` (type `T_FILE` is 2), and
the inode number that the call returns. -/
def second_alloc_example : Option (block_manager × Nat) :=
  alloc_inode small_layout rooted_disk 2 8

/-- The disk `rooted_disk` after `write_file` of the 19 bytes of `bytes_example` on inode 1. -/
def written_disk : block_manager :=
  (write_file small_layout rooted_disk 1 bytes_example 19 9).getD rooted_disk

/-- The disk `written_disk` after `write_file` of 0 bytes on inode 1. -/
def shrunk_disk : block_manager :=
  (write_file small_layout written_disk 1 [] 0 10).getD written_disk

end Chfs

/-! # Theorems -/

namespace Raft

variable {Cmd : Type}

/-- C1, Election Safety, fails on the code: in the run `stale_grant_run` of a fresh
3-replica cluster, replica 0 counts in term 2 a grant that replica 1 gave to its request of
term 1, while replica 1 has voted for replica 2 in term 2; replicas 0 and 2 end as
leaders of term 2. -/
theorem election_safety_broken :
    ∃ c : cluster Nat, cluster.run (cluster.fresh 3 0) stale_grant_run = some c ∧
      ¬ election_safety c := by
  have hrun : (cluster.run (cluster.fresh 3 0) stale_grant_run).isSome = true := by decide
  obtain ⟨c, hc⟩ := Option.isSome_iff_exists.mp hrun
  have h0 : ((cluster.run (cluster.fresh 3 0) stale_grant_run).bind fun c =>
      c.nodes[0]?.map fun r => (r.role, r.current_term)) = some (.leader, 2) := by decide
  have h2 : ((cluster.run (cluster.fresh 3 0) stale_grant_run).bind fun c =>
      c.nodes[2]?.map fun r => (r.role, r.current_term)) = some (.leader, 2) := by decide
  rw [hc] at h0 h2
  simp only [Option.some_bind, Option.map_eq_some', Prod.mk.injEq] at h0 h2
  obtain ⟨a, ha, har, hat⟩ := h0
  obtain ⟨b, hb, hbr, hbt⟩ := h2
  exact ⟨c, hc, fun hs => hs 0 2 a b ha hb (by decide) har hbr (by rw [hat, hbt])⟩

/-- C2, State Machine Safety, fails on the code: in the run `two_leaders_apply_run` of a
fresh 3-replica cluster the two leaders of term 2 each commit their own entry of index 1 on
one reply of replica 1; replica 0 delivers command 7 and replica 2 delivers command 8 as the
entry of index 1. -/
theorem state_machine_safety_broken :
    ∃ c : cluster Nat, cluster.run (cluster.fresh 3 0) two_leaders_apply_run = some c ∧
      ¬ state_machine_safety c := by
  have hrun : (cluster.run (cluster.fresh 3 0) two_leaders_apply_run).isSome = true := by
    decide
  obtain ⟨c, hc⟩ := Option.isSome_iff_exists.mp hrun
  have h0 : ((cluster.run (cluster.fresh 3 0) two_leaders_apply_run).bind fun c =>
      c.nodes[0]?.map fun r => delivered r.state) = some [⟨1, 2, 7⟩] := by decide
  have h2 : ((cluster.run (cluster.fresh 3 0) two_leaders_apply_run).bind fun c =>
      c.nodes[2]?.map fun r => delivered r.state) = some [⟨1, 2, 8⟩] := by decide
  rw [hc] at h0 h2
  simp only [Option.some_bind, Option.map_eq_some'] at h0 h2
  obtain ⟨a, ha, had⟩ := h0
  obtain ⟨b, hb, hbd⟩ := h2
  refine ⟨c, hc, fun hs => ?_⟩
  have := hs 0 2 a b ⟨1, 2, 7⟩ ⟨1, 2, 8⟩ ha hb (by rw [had]; exact List.mem_singleton.mpr rfl)
    (by rw [hbd]; exact List.mem_singleton.mpr rfl) rfl
  exact absurd this (by decide)

/-- C3, Log Matching, fails on the code: in the run `two_leaders_submit_run` of a fresh
3-replica cluster the two leaders of term 2 each append their own command under index 1 and
term 2; the logs of replicas 0 and 2 hold different commands in entries of the same index
and term. -/
theorem log_matching_broken :
    ∃ c : cluster Nat, cluster.run (cluster.fresh 3 0) two_leaders_submit_run = some c ∧
      ¬ log_matching c := by
  have hrun : (cluster.run (cluster.fresh 3 0) two_leaders_submit_run).isSome = true := by
    decide
  obtain ⟨c, hc⟩ := Option.isSome_iff_exists.mp hrun
  have h0 : ((cluster.run (cluster.fresh 3 0) two_leaders_submit_run).bind fun c =>
      c.nodes[0]?.map fun r => r.log) = some [⟨0, 0, 0⟩, ⟨1, 2, 7⟩] := by decide
  have h2 : ((cluster.run (cluster.fresh 3 0) two_leaders_submit_run).bind fun c =>
      c.nodes[2]?.map fun r => r.log) = some [⟨0, 0, 0⟩, ⟨1, 2, 8⟩] := by decide
  rw [hc] at h0 h2
  simp only [Option.some_bind, Option.map_eq_some'] at h0 h2
  obtain ⟨a, ha, hal⟩ := h0
  obtain ⟨b, hb, hbl⟩ := h2
  refine ⟨c, hc, fun hs => ?_⟩
  have := (hs 0 2 a b ⟨1, 2, 7⟩ ⟨1, 2, 8⟩ ha hb (by rw [hal]; simp) (by rw [hbl]; simp)
    rfl rfl).1
  exact absurd this (by decide)

/-- C4, vote uniqueness, fails on the code: a fresh replica 0 of 3 whose timer expires votes
for itself in term 1; an AppendEntries of term 1 makes the candidate a follower through
`setFollower`, which clears the vote; a RequestVote of term 1 from candidate 2 is then
granted. The replica has voted for 0 and for 2 in term 1. -/
theorem vote_uniqueness_broken : ¬ vote_uniqueness (raft.fresh 3 0 0 : raft Nat) := by
  intro hs
  have h1 : ((raft.fresh 3 0 0 : raft Nat).run [.timeout 0]).isSome = true := by decide
  obtain ⟨s1, hs1⟩ := Option.isSome_iff_exists.mp h1
  have h1v : (((raft.fresh 3 0 0 : raft Nat).run [.timeout 0]).map fun r =>
      (r.current_term, r.vote_for)) = some (1, 0) := by decide
  have h2 : (((raft.fresh 3 0 0 : raft Nat).run [.timeout 0]).bind fun r =>
      r.run [.append_entries 0 true ⟨1, 1, 0, 0, [], 0⟩, .request_vote 0 ⟨1, 2, 0, 0⟩]).isSome
      = true := by decide
  have h2v : ((((raft.fresh 3 0 0 : raft Nat).run [.timeout 0]).bind fun r =>
      r.run [.append_entries 0 true ⟨1, 1, 0, 0, [], 0⟩, .request_vote 0 ⟨1, 2, 0, 0⟩]).map
      fun r => (r.current_term, r.vote_for)) = some (1, 2) := by decide
  rw [hs1] at h1v h2 h2v
  simp only [Option.some_bind] at h2 h2v
  obtain ⟨s2, hs2⟩ := Option.isSome_iff_exists.mp h2
  rw [hs2] at h2v
  simp only [Option.map_some', Option.some.injEq, Prod.mk.injEq] at h1v h2v
  have := hs [.timeout 0]
    [.append_entries 0 true ⟨1, 1, 0, 0, [], 0⟩, .request_vote 0 ⟨1, 2, 0, 0⟩] s1 s2 hs1 hs2
    (by rw [h1v.1, h2v.1]) (by rw [h1v.2]; decide) (by rw [h2v.2]; decide)
  rw [h1v.2, h2v.2] at this
  exact absurd this (by decide)

/-! ## The log -/

theorem last_index_eq_of_getLast {log : List (log_entry Cmd)} {back : log_entry Cmd}
    (h : log.getLast? = some back) : last_index log = back.index := by
  simp [last_index, h]

theorem last_term_eq_of_getLast {log : List (log_entry Cmd)} {back : log_entry Cmd}
    (h : log.getLast? = some back) : last_term log = back.term := by
  simp [last_term, h]

theorem base_index_eq_of_head {log : List (log_entry Cmd)} {front : log_entry Cmd}
    (h : log.head? = some front) : base_index log = front.index := by
  simp [base_index, h]

theorem getLast_some_of_ne_nil {log : List (log_entry Cmd)} (h : log ≠ []) :
    ∃ back, log.getLast? = some back := by
  cases hl : log.getLast? with
  | none => exact absurd (List.getLast?_eq_none_iff.mp hl) h
  | some back => exact ⟨back, rfl⟩

theorem head_some_of_ne_nil {log : List (log_entry Cmd)} (h : log ≠ []) :
    ∃ front, log.head? = some front := by
  cases log with
  | nil => exact absurd rfl h
  | cons a l => exact ⟨a, rfl⟩

/-! ## C5: the RequestVote grant rule -/

/-- C5: on a replica whose log is not empty, `request_vote` returns, and it grants exactly
when `arg.term ≥ current_term`, the vote (cleared first when `arg.term > current_term`) is
none or for `arg.candidate_id`, and the candidate's log is at least as up to date as the
replica's last entry. A grant sets `vote_for` to the candidate; without a grant `vote_for`
is unchanged apart from that clearing. -/
theorem request_vote_grant_rule (now : Nat) (s : raft Cmd) (arg : request_vote_args)
    (hlog : s.log ≠ []) :
    ∃ s1 reply, request_vote now s arg = some (s1, reply) ∧
      (reply.vote_grant = true ↔
        (arg.term ≥ s.current_term ∧
          (arg.term > s.current_term ∨ s.vote_for = -1 ∨ s.vote_for = arg.candidate_id) ∧
          (arg.lastLogTerm > last_term s.log ∨
            (arg.lastLogTerm = last_term s.log ∧ arg.lastLogIndex ≥ last_index s.log)))) ∧
      (reply.vote_grant = true → s1.vote_for = arg.candidate_id) ∧
      (reply.vote_grant = false →
        s1.vote_for = if arg.term > s.current_term then -1 else s.vote_for) := by
  obtain ⟨back, hback⟩ := getLast_some_of_ne_nil hlog
  have hli := last_index_eq_of_getLast hback
  have hlt := last_term_eq_of_getLast hback
  rw [hli, hlt]
  by_cases h1 : arg.term < s.current_term
  · refine ⟨_, _, by rw [request_vote, if_pos h1], ?_, ?_, ?_⟩
    · simp only [Bool.false_eq_true, false_iff, not_and]
      intro h; omega
    · simp
    · intro _
      rw [if_neg (by omega)]
  · by_cases h2 : arg.term > s.current_term
    · by_cases h3 : arg.lastLogTerm > back.term ∨
          (arg.lastLogTerm = back.term ∧ arg.lastLogIndex ≥ back.index)
      · refine ⟨_, _, (by simp only [request_vote, if_neg h1, if_pos h2, setFollower, true_or, if_true, hback, if_pos h3]; rfl), ?_, ?_, ?_⟩
        · simp only [true_iff]
          exact ⟨by omega, Or.inl h2, h3⟩
        · simp
        · simp
      · refine ⟨_, _, (by simp only [request_vote, if_neg h1, if_pos h2, setFollower, true_or, if_true, hback, if_neg h3]; rfl), ?_, ?_, ?_⟩
        · simp only [Bool.false_eq_true, false_iff, not_and]
          exact fun _ _ => h3
        · simp
        · simp [h2]
    · by_cases h4 : s.vote_for = -1 ∨ s.vote_for = arg.candidate_id
      · by_cases h3 : arg.lastLogTerm > back.term ∨
            (arg.lastLogTerm = back.term ∧ arg.lastLogIndex ≥ back.index)
        · refine ⟨_, _, (by simp only [request_vote, if_neg h1, if_neg h2, if_pos h4, hback, if_pos h3]; rfl), ?_, ?_, ?_⟩
          · simp only [true_iff]
            exact ⟨by omega, Or.inr h4, h3⟩
          · simp
          · simp
        · refine ⟨_, _, (by simp only [request_vote, if_neg h1, if_neg h2, if_pos h4, hback, if_neg h3]; rfl), ?_, ?_, ?_⟩
          · simp only [Bool.false_eq_true, false_iff, not_and]
            exact fun _ _ => h3
          · simp
          · simp [h2]
      · refine ⟨_, _, (by simp only [request_vote, if_neg h1, if_neg h2, if_neg h4]; rfl), ?_, ?_, ?_⟩
        · simp only [Bool.false_eq_true, false_iff, not_and]
          intro _ h
          rcases h with h | h
          · exact absurd h h2
          · exact absurd h h4
        · simp
        · simp [h2]

/-- Witness of C5: a fresh replica grants the vote asked by candidate 1 for term 1. -/
theorem request_vote_grant_rule_witness :
    (raft.fresh 3 0 0 : raft Nat).log ≠ [] ∧
    ∃ s1 reply, request_vote 0 (raft.fresh 3 0 0 : raft Nat) ⟨1, 1, 0, 0⟩ = some (s1, reply) ∧
      (reply.vote_grant = true ↔
        ((1 : Int) ≥ (raft.fresh 3 0 0 : raft Nat).current_term ∧
          ((1 : Int) > (raft.fresh 3 0 0 : raft Nat).current_term ∨
            (raft.fresh 3 0 0 : raft Nat).vote_for = -1 ∨
            (raft.fresh 3 0 0 : raft Nat).vote_for = 1) ∧
          ((0 : Int) > last_term (raft.fresh 3 0 0 : raft Nat).log ∨
            ((0 : Int) = last_term (raft.fresh 3 0 0 : raft Nat).log ∧
              (0 : Int) ≥ last_index (raft.fresh 3 0 0 : raft Nat).log)))) ∧
      (reply.vote_grant = true → s1.vote_for = 1) ∧
      (reply.vote_grant = false →
        s1.vote_for = if (1 : Int) > (raft.fresh 3 0 0 : raft Nat).current_term then -1
          else (raft.fresh 3 0 0 : raft Nat).vote_for) :=
  ⟨by decide, request_vote_grant_rule 0 (raft.fresh 3 0 0) ⟨1, 1, 0, 0⟩ (by decide)⟩

theorem find_contiguous (l : List (log_entry Cmd)) (b i : Int)
    (h : ∀ (k : Nat) (e : log_entry Cmd), l[k]? = some e → e.index = b + k) :
    l.find? (fun e => decide (e.index = i)) = vget l (i - b) := by
  induction l generalizing b with
  | nil => simp [vget]
  | cons a l ih =>
    have ha : a.index = b := by simpa using h 0 a (by simp)
    have ht : ∀ (k : Nat) (e : log_entry Cmd), l[k]? = some e → e.index = (b + 1) + k := by
      intro k e hk
      have := h (k + 1) e (by simpa using hk)
      push_cast at this
      omega
    rw [List.find?_cons]
    by_cases hi : a.index = i
    · have : i - b = 0 := by omega
      simp [hi, vget, this]
    · simp only [hi, decide_False]
      rw [ih (b + 1) ht]
      unfold vget
      by_cases hb : 0 ≤ i - (b + 1)
      · have h1 : 0 ≤ i - b := by omega
        have h2 : (i - b).toNat = (i - (b + 1)).toNat + 1 := by omega
        simp [hb, h1, h2]
      · have h1 : ¬ 0 ≤ i - b := by omega
        simp [hb, h1]

theorem entry_at_eq_vget {log : List (log_entry Cmd)} (h : log_ok log) (i : Int) :
    entry_at log i = vget log (i - base_index log) :=
  find_contiguous log (base_index log) i h.2

theorem vget_index {log : List (log_entry Cmd)} (h : log_ok log) {j : Int}
    {e : log_entry Cmd} (hv : vget log j = some e) : e.index = base_index log + j := by
  unfold vget at hv
  split_ifs at hv with h0
  have := h.2 j.toNat e hv
  omega

theorem vget_lt_length {α : Type} {v : List α} {j : Int} {x : α} (hv : vget v j = some x) :
    0 ≤ j ∧ j < v.length := by
  unfold vget at hv
  split_ifs at hv with h0
  have := (List.getElem?_eq_some_iff.mp hv).1
  omega

theorem vget_some_of_lt {α : Type} {v : List α} {j : Int} (h0 : 0 ≤ j) (h1 : j < v.length) :
    ∃ x, vget v j = some x := by
  have h2 : j.toNat < v.length := by omega
  exact ⟨v[j.toNat], by simp [vget, h0, h2]⟩

theorem last_index_add_one {log : List (log_entry Cmd)} (h : log_ok log) :
    last_index log + 1 = base_index log + log.length := by
  obtain ⟨hne, hc⟩ := h
  have hlen : 0 < log.length := List.length_pos.mpr hne
  have hl : log.getLast? = some (log[log.length - 1]) := by
    rw [List.getLast?_eq_getElem?]
    exact List.getElem?_eq_getElem _
  have := hc (log.length - 1) _ (List.getElem?_eq_getElem (by omega))
  rw [last_index, hl]
  simp only
  omega

theorem append_entries_inv {now : Nat} {ok : Bool} {s s1 : raft Cmd}
    {arg : append_entries_args Cmd} {reply : append_entries_reply}
    (h : append_entries now ok s arg = some (s1, reply)) :
    (reply.success = false ∧ s1.log = s.log ∧ s1.commitIndex = s.commitIndex ∧
      (arg.term < s.current_term ∨
        (arg.term ≥ s.current_term ∧ s.log ≠ [] ∧
          (last_index s.log < arg.prevLogIndex ∨
            ∃ e, vget s.log (arg.prevLogIndex - base_index s.log) = some e ∧
              arg.prevLogTerm ≠ e.term)))) ∨
    (reply.success = true ∧ arg.term ≥ s.current_term ∧ s.log ≠ [] ∧
      arg.prevLogIndex ≤ last_index s.log ∧
      (∃ e, vget s.log (arg.prevLogIndex - base_index s.log) = some e ∧
        arg.prevLogTerm = e.term) ∧
      s1.log = (if arg.entries.isEmpty then s.log
        else if arg.prevLogIndex < last_index s.log then
          s.log.take (arg.prevLogIndex + 1 - base_index s.log).toNat ++ arg.entries
        else s.log ++ arg.entries) ∧
      s1.commitIndex = (if arg.leaderCommit > s.commitIndex then
        min arg.leaderCommit (last_index s1.log) else s.commitIndex)) := by
  unfold append_entries at h
  simp only at h
  by_cases h1 : arg.term < s.current_term
  · rw [if_pos h1] at h
    simp only [Option.some.injEq, Prod.mk.injEq] at h
    obtain ⟨rfl, rfl⟩ := h
    exact Or.inl ⟨rfl, rfl, rfl, Or.inl h1⟩
  · rw [if_neg h1] at h
    generalize hs2 : (if arg.term > s.current_term ∨ s.role = raft_role.candidate then
      setFollower { s with pre_time := now } arg.term else { s with pre_time := now }) = s2 at h
    have hlog : s2.log = s.log := by
      rw [← hs2]; split_ifs <;> rfl
    have hci : s2.commitIndex = s.commitIndex := by
      rw [← hs2]; split_ifs <;> rfl
    rw [hlog] at h
    cases hb : s.log.getLast? with
    | none => simp [hb] at h
    | some back =>
      cases hf : s.log.head? with
      | none => simp [hb, hf] at h
      | some front =>
        have hne : s.log ≠ [] := by
          intro h0
          simp [h0] at hf
        have hli := last_index_eq_of_getLast hb
        have hbi := base_index_eq_of_head hf
        rw [hli, hbi]
        simp only [hb, hf] at h
        by_cases h2 : arg.prevLogIndex ≤ back.index
        · rw [if_pos h2] at h
          cases hv : vget s.log (arg.prevLogIndex - front.index) with
          | none => simp [hv] at h
          | some prev =>
            simp only [hv] at h
            by_cases h3 : arg.prevLogTerm = prev.term
            · rw [if_pos h3] at h
              split at h
              · exact absurd h (by simp)
              · rename_i s3 happ
                have hs3 : s3.commitIndex = s.commitIndex ∧
                    s3.log = (if arg.entries.isEmpty then s.log
                      else if arg.prevLogIndex < back.index then
                        s.log.take (arg.prevLogIndex + 1 - front.index).toNat ++ arg.entries
                      else s.log ++ arg.entries) := by
                  by_cases e1 : arg.entries.isEmpty = true
                  · simp only [e1, Bool.not_true, Bool.false_eq_true, if_false,
                      Option.some.injEq] at happ
                    subst happ
                    simp [hci, hlog, e1]
                  · simp only [e1, Bool.not_false, if_true] at happ
                    by_cases e2 : arg.prevLogIndex < back.index
                    · have e3 : arg.prevLogIndex + 1 ≤ back.index := by omega
                      simp only [if_pos e2, if_pos e3, erase_from] at happ
                      split_ifs at happ with e4
                      simp only [Option.some.injEq] at happ
                      subst happ
                      simp [hci, e1, e2]
                    · simp only [if_neg e2, Option.some.injEq] at happ
                      subst happ
                      simp [hci, e1, e2]
                refine Or.inr ?_
                by_cases h4 : arg.leaderCommit > s3.commitIndex
                · rw [if_pos h4] at h
                  split at h
                  · exact absurd h (by simp)
                  · rename_i back2 hb2
                    simp only [Option.some.injEq, Prod.mk.injEq] at h
                    obtain ⟨rfl, rfl⟩ := h
                    refine ⟨rfl, by omega, hne, h2, ⟨prev, rfl, h3⟩, hs3.2, ?_⟩
                    rw [hs3.1] at h4
                    simp only [if_pos h4]
                    rw [last_index_eq_of_getLast hb2]
                · rw [if_neg h4] at h
                  simp only [Option.some.injEq, Prod.mk.injEq] at h
                  obtain ⟨rfl, rfl⟩ := h
                  refine ⟨rfl, by omega, hne, h2, ⟨prev, rfl, h3⟩, hs3.2, ?_⟩
                  rw [hs3.1] at h4
                  rw [if_neg h4, hs3.1]
            · rw [if_neg h3] at h
              simp only [Option.some.injEq, Prod.mk.injEq] at h
              obtain ⟨rfl, rfl⟩ := h
              exact Or.inl ⟨rfl, hlog, hci, Or.inr ⟨by omega, hne, Or.inr ⟨prev, rfl, h3⟩⟩⟩
        · rw [if_neg h2] at h
          simp only [Option.some.injEq, Prod.mk.injEq] at h
          obtain ⟨rfl, rfl⟩ := h
          exact Or.inl ⟨rfl, hlog, hci, Or.inr ⟨by omega, hne, Or.inl (by omega)⟩⟩

theorem append_entries_returns (now : Nat) (ok : Bool) (s : raft Cmd)
    (arg : append_entries_args Cmd) (hlog : log_ok s.log)
    (hbase : base_index s.log ≤ arg.prevLogIndex) :
    ∃ s1 reply, append_entries now ok s arg = some (s1, reply) := by
  cases h : append_entries now ok s arg with
  | some p => exact ⟨p.1, p.2, rfl⟩
  | none =>
    exfalso
    unfold append_entries at h
    simp only at h
    by_cases h1 : arg.term < s.current_term
    · rw [if_pos h1] at h
      exact absurd h (by simp)
    · rw [if_neg h1] at h
      generalize hs2 : (if arg.term > s.current_term ∨ s.role = raft_role.candidate then
        setFollower { s with pre_time := now } arg.term else { s with pre_time := now }) = s2
        at h
      have hl2 : s2.log = s.log := by
        rw [← hs2]; split_ifs <;> rfl
      rw [hl2] at h
      obtain ⟨back, hb⟩ := getLast_some_of_ne_nil hlog.1
      obtain ⟨front, hf⟩ := head_some_of_ne_nil hlog.1
      have hli := last_index_eq_of_getLast hb
      have hbi := base_index_eq_of_head hf
      have hlen := last_index_add_one hlog
      simp only [hb, hf] at h
      by_cases h2 : arg.prevLogIndex ≤ back.index
      · rw [if_pos h2] at h
        obtain ⟨prev, hv⟩ := vget_some_of_lt (v := s.log) (j := arg.prevLogIndex - front.index)
          (by omega) (by omega)
        simp only [hv] at h
        by_cases h3 : arg.prevLogTerm = prev.term
        · rw [if_pos h3] at h
          have hk : 0 ≤ arg.prevLogIndex + 1 - front.index ∧
              (arg.prevLogIndex + 1 - front.index).toNat ≤ s.log.length := ⟨by omega, by omega⟩
          split at h
          · rename_i happ
            by_cases e1 : arg.entries.isEmpty = true
            · simp [e1] at happ
            · simp only [e1, Bool.not_false, if_true] at happ
              by_cases e2 : arg.prevLogIndex < back.index
              · have e3 : arg.prevLogIndex + 1 ≤ back.index := by omega
                simp only [if_pos e2, if_pos e3, erase_from, if_pos hk] at happ
                exact absurd happ (by simp)
              · simp only [if_neg e2] at happ
                exact absurd happ (by simp)
          · rename_i s3 happ
            have hne3 : s3.log ≠ [] := by
              by_cases e1 : arg.entries.isEmpty = true
              · simp only [e1, Bool.not_true, Bool.false_eq_true, if_false,
                  Option.some.injEq] at happ
                subst happ
                rw [hl2]
                exact hlog.1
              · simp only [e1, Bool.not_false, if_true] at happ
                have hen : arg.entries ≠ [] := by simpa using e1
                by_cases e2 : arg.prevLogIndex < back.index
                · have e3 : arg.prevLogIndex + 1 ≤ back.index := by omega
                  simp only [if_pos e2, if_pos e3, erase_from, if_pos hk,
                    Option.some.injEq] at happ
                  subst happ
                  simp [hen]
                · simp only [if_neg e2, Option.some.injEq] at happ
                  subst happ
                  simp [hen]
            obtain ⟨back3, hb3⟩ := getLast_some_of_ne_nil hne3
            split_ifs at h
            · simp [hb3] at h
        · rw [if_neg h3] at h
          exact absurd h (by simp)
      · rw [if_neg h2] at h
        exact absurd h (by simp)

/-! ## C6 to C9: the AppendEntries handler -/

/-- C6: on a replica whose log satisfies the log structure invariant, for every argument
with `base ≤ prevLogIndex`, `append_entries` returns, and it replies `success = true` exactly
when `arg.term ≥ current_term`, `prevLogIndex ≤` the last log index, and the log entry with
index `prevLogIndex` has term `prevLogTerm`; a reply `success = false` leaves the log and
`commitIndex` unchanged. -/
theorem append_entries_success_iff (now : Nat) (ok : Bool) (s : raft Cmd)
    (arg : append_entries_args Cmd) (hlog : log_ok s.log)
    (hbase : base_index s.log ≤ arg.prevLogIndex) :
    ∃ s1 reply, append_entries now ok s arg = some (s1, reply) ∧
      (reply.success = true ↔
        (arg.term ≥ s.current_term ∧ arg.prevLogIndex ≤ last_index s.log ∧
          ∃ e, entry_at s.log arg.prevLogIndex = some e ∧ e.term = arg.prevLogTerm)) ∧
      (reply.success = false → s1.log = s.log ∧ s1.commitIndex = s.commitIndex) := by
  obtain ⟨s1, reply, h⟩ := append_entries_returns now ok s arg hlog hbase
  refine ⟨s1, reply, h, ?_, ?_⟩
  · rw [entry_at_eq_vget hlog]
    rcases append_entries_inv h with ⟨hf, _, _, hwhy⟩ | ⟨ht, h1, _, h2, ⟨e, he, het⟩, _, _⟩
    · rw [hf]
      simp only [Bool.false_eq_true, false_iff, not_and, not_exists]
      intro hterm hprev e he
      rcases hwhy with hw | ⟨_, _, hw | ⟨x, hx, hxt⟩⟩
      · omega
      · omega
      · rw [hx] at he
        cases he
        exact fun heq => hxt heq.symm
    · rw [ht]
      simp only [true_iff]
      exact ⟨h1, h2, e, he, het.symm⟩
  · intro hf
    rcases append_entries_inv h with ⟨_, hl, hc, _⟩ | ⟨ht, _⟩
    · exact ⟨hl, hc⟩
    · rw [hf] at ht
      exact absurd ht (by decide)

/-- C9: on every successful `append_entries`, with empty or non-empty entries, `commitIndex`
becomes `min(leaderCommit, last log index after the append)` when
`leaderCommit > commitIndex`, and is unchanged otherwise; and the call does return on every
replica whose log satisfies the log structure invariant, for `base ≤ prevLogIndex`. -/
theorem append_entries_commit (now : Nat) (ok : Bool) (s : raft Cmd)
    (arg : append_entries_args Cmd) :
    (log_ok s.log → base_index s.log ≤ arg.prevLogIndex →
      ∃ s1 reply, append_entries now ok s arg = some (s1, reply)) ∧
    ∀ (s1 : raft Cmd) (reply : append_entries_reply),
      append_entries now ok s arg = some (s1, reply) → reply.success = true →
      s1.commitIndex = if arg.leaderCommit > s.commitIndex then
        min arg.leaderCommit (last_index s1.log) else s.commitIndex := by
  refine ⟨append_entries_returns now ok s arg, fun s1 reply h hs => ?_⟩
  rcases append_entries_inv h with ⟨hf, _⟩ | ⟨_, _, _, _, _, _, hc⟩
  · rw [hs] at hf
    exact absurd hf (by decide)
  · exact hc

theorem append_entries_log {now : Nat} {ok : Bool} {s s1 : raft Cmd}
    {arg : append_entries_args Cmd} {reply : append_entries_reply} (hlog : log_ok s.log)
    (h : append_entries now ok s arg = some (s1, reply)) (hs : reply.success = true)
    (hne : arg.entries ≠ []) :
    base_index s.log ≤ arg.prevLogIndex ∧ arg.prevLogIndex ≤ last_index s.log ∧
    s1.log = s.log.take (arg.prevLogIndex + 1 - base_index s.log).toNat ++ arg.entries := by
  rcases append_entries_inv h with ⟨hf, _⟩ | ⟨_, _, _, hprev, ⟨e, he, _⟩, hl, _⟩
  · rw [hs] at hf
    exact absurd hf (by decide)
  · have hr := vget_lt_length he
    have hlen := last_index_add_one hlog
    refine ⟨by omega, hprev, ?_⟩
    have hemp : arg.entries.isEmpty = false := by simpa using hne
    rw [hl, hemp]
    simp only [Bool.false_eq_true, if_false]
    split_ifs with h1
    · rfl
    · have : (arg.prevLogIndex + 1 - base_index s.log).toNat = s.log.length := by omega
      rw [this, List.take_length]

/-- C8: on a replica whose log satisfies the log structure invariant, for non-empty entries
whose indices are `prevLogIndex + 1, prevLogIndex + 2, ...` in order, `append_entries`
returns (for `base ≤ prevLogIndex`), and after a successful call the log entry with index
`prevLogIndex + 1 + k` is `arg.entries[k]` for every `k`, and the log entry with index `i`
is the one it was for every `i ≤ prevLogIndex`. -/
theorem append_entries_stores (now : Nat) (ok : Bool) (s : raft Cmd)
    (arg : append_entries_args Cmd) (hlog : log_ok s.log) (hne : arg.entries ≠ [])
    (hidx : ∀ (k : Nat) (e : log_entry Cmd), arg.entries[k]? = some e →
      e.index = arg.prevLogIndex + 1 + k) :
    (base_index s.log ≤ arg.prevLogIndex →
      ∃ s1 reply, append_entries now ok s arg = some (s1, reply)) ∧
    ∀ (s1 : raft Cmd) (reply : append_entries_reply),
      append_entries now ok s arg = some (s1, reply) → reply.success = true →
      (∀ (k : Nat) (e : log_entry Cmd), arg.entries[k]? = some e →
        entry_at s1.log (arg.prevLogIndex + 1 + k) = some e) ∧
      (∀ i : Int, i ≤ arg.prevLogIndex → entry_at s1.log i = entry_at s.log i) := by
  refine ⟨append_entries_returns now ok s arg hlog, fun s1 reply h hs => ?_⟩
  obtain ⟨hb, hl, hlog1⟩ := append_entries_log hlog h hs hne
  have hlen := last_index_add_one hlog
  set n := (arg.prevLogIndex + 1 - base_index s.log).toNat with hn
  have hnlen : n ≤ s.log.length := by omega
  have htl : (s.log.take n).length = n := by simp [hnlen]
  have hcont : ∀ (k : Nat) (e : log_entry Cmd), s1.log[k]? = some e →
      e.index = base_index s.log + k := by
    intro k e hk
    rw [hlog1] at hk
    by_cases hkn : k < n
    · rw [List.getElem?_append_left (by omega), List.getElem?_take_of_lt hkn] at hk
      exact hlog.2 k e hk
    · rw [List.getElem?_append_right (by omega), htl] at hk
      have := hidx (k - n) e hk
      omega
  unfold entry_at
  constructor
  · intro k e hk
    rw [find_contiguous s1.log (base_index s.log) _ hcont, hlog1]
    unfold vget
    rw [if_pos (by omega)]
    have : (arg.prevLogIndex + 1 + k - base_index s.log).toNat = n + k := by omega
    rw [this, List.getElem?_append_right (by omega), htl]
    simpa using hk
  · intro i hi
    rw [find_contiguous s1.log (base_index s.log) _ hcont,
      find_contiguous s.log (base_index s.log) _ hlog.2, hlog1]
    unfold vget
    split_ifs with h0
    · rw [List.getElem?_append_left (by omega), List.getElem?_take_of_lt (by omega)]
    · rfl

/-- Witness of C6: a fresh follower handling `append_example`. -/
theorem append_entries_success_iff_witness :
    log_ok follower_example.log ∧ base_index follower_example.log ≤ append_example.prevLogIndex ∧
    ∃ s1 reply, append_entries 0 true follower_example append_example = some (s1, reply) ∧
      (reply.success = true ↔
        (append_example.term ≥ follower_example.current_term ∧
          append_example.prevLogIndex ≤ last_index follower_example.log ∧
          ∃ e, entry_at follower_example.log append_example.prevLogIndex = some e ∧
            e.term = append_example.prevLogTerm)) ∧
      (reply.success = false →
        s1.log = follower_example.log ∧ s1.commitIndex = follower_example.commitIndex) :=
  have hlog : log_ok follower_example.log :=
    ⟨by decide, fun k e hk => by
      cases k with
      | zero => cases hk; rfl
      | succ k => cases hk⟩
  ⟨hlog, by decide,
    append_entries_success_iff 0 true follower_example append_example hlog (by decide)⟩

/-- Witness of C9: a fresh follower handling `append_example`. -/
theorem append_entries_commit_witness :
    log_ok follower_example.log ∧
    base_index follower_example.log ≤ append_example.prevLogIndex ∧
    append_entries 0 true follower_example append_example = some append_example_result ∧
    append_example_result.2.success = true ∧
    (∃ s1 reply, append_entries 0 true follower_example append_example = some (s1, reply)) ∧
    append_example_result.1.commitIndex =
      (if append_example.leaderCommit > follower_example.commitIndex then
        min append_example.leaderCommit (last_index append_example_result.1.log)
      else follower_example.commitIndex) :=
  have hlog : log_ok follower_example.log :=
    ⟨by decide, fun k e hk => by
      cases k with
      | zero => cases hk; rfl
      | succ k => cases hk⟩
  ⟨hlog, by decide, by decide, by decide,
    (append_entries_commit 0 true follower_example append_example).1 hlog (by decide),
    (append_entries_commit 0 true follower_example append_example).2 append_example_result.1
      append_example_result.2 (by decide) (by decide)⟩

/-- Witness of C8: a fresh follower handling `append_example`. -/
theorem append_entries_stores_witness :
    log_ok follower_example.log ∧ append_example.entries ≠ [] ∧
    (∀ (k : Nat) (e : log_entry Nat), append_example.entries[k]? = some e →
      e.index = append_example.prevLogIndex + 1 + k) ∧
    base_index follower_example.log ≤ append_example.prevLogIndex ∧
    append_entries 0 true follower_example append_example = some append_example_result ∧
    append_example_result.2.success = true ∧
    (∃ s1 reply, append_entries 0 true follower_example append_example = some (s1, reply)) ∧
    (∀ (k : Nat) (e : log_entry Nat), append_example.entries[k]? = some e →
      entry_at append_example_result.1.log (append_example.prevLogIndex + 1 + k) = some e) ∧
    (∀ i : Int, i ≤ append_example.prevLogIndex →
      entry_at append_example_result.1.log i = entry_at follower_example.log i) :=
  have hlog : log_ok follower_example.log :=
    ⟨by decide, fun k e hk => by
      cases k with
      | zero => cases hk; rfl
      | succ k => cases hk⟩
  have hidx : ∀ (k : Nat) (e : log_entry Nat), append_example.entries[k]? = some e →
      e.index = append_example.prevLogIndex + 1 + k := fun k e hk => by
    match k, hk with
    | 0, hk => cases hk; rfl
    | 1, hk => cases hk; rfl
    | k + 2, hk => cases hk
  ⟨hlog, by decide, hidx, by decide, by decide, by decide,
    (append_entries_stores 0 true follower_example append_example hlog (by decide) hidx).1
      (by decide),
    (append_entries_stores 0 true follower_example append_example hlog (by decide) hidx).2
      append_example_result.1 append_example_result.2 (by decide) (by decide)⟩

/-- C7 fails on the code: the follower that holds entries 1 and 2 of term 1 (after
`append_example`) handles the earlier AppendEntries `stale_append_example`, whose only
entry has the index and term of the existing entry 1. The call succeeds and entry 2, which
conflicts with nothing, is removed: `append_entries` erases every entry after
`prevLogIndex` whenever `prevLogIndex <` the last log index. -/
theorem append_entries_drops_matching_suffix :
    (append_entries 0 true append_example_result.1 stale_append_example).map
        (fun r => (r.2.success, r.1.log)) = some (true, [⟨0, 0, 0⟩, ⟨1, 1, 7⟩]) ∧
      ¬ keeps_matching_entries 0 true append_example_result.1 stale_append_example := by
  refine ⟨by decide, fun hk => ?_⟩
  have hrun : (append_entries 0 true append_example_result.1 stale_append_example).isSome
      = true := by decide
  obtain ⟨r, hr⟩ := Option.isSome_iff_exists.mp hrun
  have hres : (append_entries 0 true append_example_result.1 stale_append_example).map
      (fun r => (r.2.success, r.1.log)) = some (true, [⟨0, 0, 0⟩, ⟨1, 1, 7⟩]) := by decide
  rw [hr] at hres
  simp only [Option.map_some', Option.some.injEq, Prod.mk.injEq] at hres
  have hat : entry_at append_example_result.1.log 1 = some ⟨1, 1, 7⟩ := by decide
  have hmem := hk r.1 r.2 hr hres.1
    (fun e he x hx => by
      have he1 : e = ⟨1, 1, 7⟩ := by simpa [stale_append_example] using he
      subst he1
      rw [hat] at hx
      cases hx
      rfl)
    ⟨2, 1, 8⟩ (by decide)
  rw [hres.2] at hmem
  exact absurd hmem (by decide)

/-! ## C10: the leader commit rule -/

theorem votes_set (mi : List Int) (t : Nat) (p m x : Int) (hp : mi[t]? = some p)
    (hpm : p ≤ m) :
    votes (mi.set t m) x = votes mi x + (if p < x ∧ x ≤ m then 1 else 0) := by
  induction mi generalizing t with
  | nil => simp at hp
  | cons a l ih =>
    cases t with
    | zero =>
      simp only [List.getElem?_cons_zero, Option.some.injEq] at hp
      subst hp
      simp only [List.set_cons_zero, votes, List.countP_cons]
      by_cases h1 : x ≤ a
      · have h2 : x ≤ m := by omega
        have h3 : ¬ (a < x ∧ x ≤ m) := by omega
        simp [h1, h2, h3]
      · by_cases h2 : x ≤ m
        · have h3 : a < x ∧ x ≤ m := by omega
          simp [h1, h2, h3]
        · have h3 : ¬ (a < x ∧ x ≤ m) := by omega
          simp [h1, h2, h3]
    | succ t =>
      simp only [List.getElem?_cons_succ] at hp
      have := ih t hp
      simp only [votes] at this
      simp only [List.set_cons_succ, votes, List.countP_cons, this]
      omega

theorem commitLoop_spec (last : Int) (todo : Nat) (s s1 : raft Cmd)
    (hlen : (s.matchCount.length : Int) = last_index s.log - s.commitIndex)
    (hcnt : ∀ (j : Nat) (c : Int), s.matchCount[j]? = some c →
      c + (if last < j ∧ (j : Int) ≤ last + todo then 1 else 0) ≤
        (votes s.matchIndex (s.commitIndex + j + 1) : Int))
    (h : commitLoop last todo s = some s1) :
    s1.log = s.log ∧ s1.matchIndex = s.matchIndex ∧ s1.nextIndex = s.nextIndex ∧
    s1.current_term = s.current_term ∧ s1.num_nodes = s.num_nodes ∧ s1.idx = s.idx ∧
    s1.role = s.role ∧
    (s1.matchCount.length : Int) = last_index s1.log - s1.commitIndex ∧
    (∀ (j : Nat) (c : Int), s1.matchCount[j]? = some c →
      c ≤ (votes s1.matchIndex (s1.commitIndex + j + 1) : Int)) ∧
    (s1.commitIndex = s.commitIndex ∨
      (s.commitIndex < s1.commitIndex ∧
        (∃ e, vget s.log (s1.commitIndex - base_index s.log) = some e ∧
          e.term = s.current_term) ∧
        (s.num_nodes : Int) < 2 * (votes s.matchIndex s1.commitIndex : Int))) := by
  induction todo generalizing s with
  | zero =>
    simp only [commitLoop, Option.some.injEq] at h
    subst h
    refine ⟨rfl, rfl, rfl, rfl, rfl, rfl, rfl, hlen, ?_, Or.inl rfl⟩
    intro j c hj
    have := hcnt j c hj
    have hno : ¬ (last < j ∧ (j : Int) ≤ last + (0 : Nat)) := by omega
    rw [if_neg hno] at this
    omega
  | succ todo ih =>
    unfold commitLoop at h
    simp only [Nat.cast_add, Nat.cast_one] at h hcnt
    generalize hi : last + ((todo : Int) + 1) = i at h hcnt
    cases hv : vget s.matchCount i with
    | none => simp [hv] at h
    | some count =>
      simp only [hv] at h
      have hr := vget_lt_length hv
      have hget : s.matchCount[i.toNat]? = some count := by
        unfold vget at hv
        rwa [if_pos hr.1] at hv
      have hpend : count + 1 ≤ (votes s.matchIndex (s.commitIndex + i + 1) : Int) := by
        have := hcnt i.toNat count hget
        rw [if_pos (by omega)] at this
        have hc : ((i.toNat : Nat) : Int) = i := by omega
        rw [hc] at this
        exact this
      -- the state after `++matchCount[i]`
      have hrec : ∀ s2 : raft Cmd,
          s2 = { s with matchCount := s.matchCount.set i.toNat (count + 1) } →
          commitLoop last todo s2 = some s1 → _ := fun s2 hs2 h2 =>
        ih s2 (by rw [hs2]; simpa using hlen)
          (by
            intro j c hj
            rw [hs2] at hj ⊢
            simp only at hj ⊢
            by_cases hji : i.toNat = j
            · subst hji
              rw [List.getElem?_set_self (by omega)] at hj
              cases hj
              rw [if_neg (by omega)]
              have hc : ((i.toNat : Nat) : Int) = i := by omega
              rw [hc]
              omega
            · rw [List.getElem?_set_ne hji] at hj
              have := hcnt j c hj
              split_ifs at this ⊢ <;> omega)
          h2
      have hskip : commitLoop last todo
          { s with matchCount := s.matchCount.set i.toNat (count + 1) } = some s1 → _ :=
        fun h2 => hrec _ rfl h2
      by_cases hmaj : (s.num_nodes : Int) / 2 < count + 1
      · rw [if_pos hmaj] at h
        cases hf : s.log.head? with
        | none => simp [hf] at h
        | some front =>
          simp only [hf] at h
          cases he : vget s.log (s.commitIndex + i + 1 - front.index) with
          | none => simp [he] at h
          | some entry =>
            simp only [he] at h
            by_cases hterm : entry.term = s.current_term
            · rw [if_pos hterm] at h
              unfold erase_front at h
              split_ifs at h with hk
              simp only [Option.some.injEq] at h
              subst h
              simp only [List.length_set] at hk
              refine ⟨rfl, rfl, rfl, rfl, rfl, rfl, rfl, ?_, ?_, Or.inr ⟨?_, ⟨entry, ?_, hterm⟩, ?_⟩⟩
              · simp only [List.length_drop, List.length_set]
                omega
              · intro j c hj
                simp only [List.getElem?_drop] at hj
                rw [List.getElem?_set_ne (by omega)] at hj
                have := hcnt _ c hj
                rw [if_neg (by omega)] at this
                have hc : s.commitIndex + (((i + 1).toNat + j : Nat) : Int) + 1
                    = s.commitIndex + (i + 1) + j + 1 := by omega
                rw [hc, add_zero] at this
                exact this
              · simp only
                omega
              · simp only
                rw [base_index_eq_of_head hf]
                have hc : s.commitIndex + (i + 1) - front.index
                    = s.commitIndex + i + 1 - front.index := by omega
                rw [hc]
                exact he
              · simp only
                have hc : s.commitIndex + (i + 1) = s.commitIndex + i + 1 := by omega
                rw [hc]
                omega
            · rw [if_neg hterm] at h
              exact hskip h
      · rw [if_neg hmaj] at h
        exact hskip h

theorem vset_eq_some {α : Type} {v w : List α} {i : Int} {x : α} (h : vset v i x = some w) :
    0 ≤ i ∧ i.toNat < v.length ∧ w = v.set i.toNat x := by
  unfold vset at h
  split_ifs at h with hc
  simp only [Option.some.injEq] at h
  exact ⟨hc.1, hc.2, h.symm⟩

theorem vget_eq_some {α : Type} {v : List α} {i : Int} {x : α} (h : vget v i = some x) :
    0 ≤ i ∧ v[i.toNat]? = some x := by
  unfold vget at h
  split_ifs at h with hc
  exact ⟨hc, h⟩

theorem vget_set {α : Type} (v : List α) (i j : Int) (x : α) (hi : 0 ≤ i)
    (hlt : i.toNat < v.length) :
    vget (v.set i.toNat x) j = if j = i then some x else vget v j := by
  unfold vget
  by_cases hj : 0 ≤ j
  · by_cases hji : j = i
    · subst hji
      simp [hj, List.getElem?_set_self hlt]
    · have : i.toNat ≠ j.toNat := by omega
      simp [hj, hji, List.getElem?_set_ne this]
  · have : j ≠ i := by omega
    simp [hj, this]

theorem handle_append_entries_reply_spec {s s1 : raft Cmd} {target : Int}
    {arg : append_entries_args Cmd} {reply : append_entries_reply} (hinv : commit_inv s)
    (harg : arg.prevLogIndex + arg.entries.length ≤ last_index s.log)
    (h : handle_append_entries_reply s target arg reply = some s1) :
    commit_inv s1 ∧ s1.log = s.log ∧ s1.num_nodes = s.num_nodes ∧
    (s1.commitIndex = s.commitIndex ∨
      (s.role = .leader ∧ s1.current_term = s.current_term ∧
        s.commitIndex < s1.commitIndex ∧
        (∃ e, vget s.log (s1.commitIndex - base_index s.log) = some e ∧
          e.term = s.current_term) ∧
        (s.num_nodes : Int) < 2 * (votes s1.matchIndex s1.commitIndex : Int))) := by
  obtain ⟨hlog, hlen, hmi, ⟨v, hv, hvl⟩, hcnt⟩ := hinv
  unfold handle_append_entries_reply at h
  by_cases h1 : reply.term > s.current_term
  · rw [if_pos h1] at h
    simp only [Option.some.injEq] at h
    subst h
    exact ⟨⟨hlog, hlen, hmi, ⟨v, hv, hvl⟩, hcnt⟩, rfl, rfl, Or.inl rfl⟩
  · rw [if_neg h1] at h
    by_cases h2 : s.role ≠ .leader
    · rw [if_pos h2] at h
      simp only [Option.some.injEq] at h
      subst h
      exact ⟨⟨hlog, hlen, hmi, ⟨v, hv, hvl⟩, hcnt⟩, rfl, rfl, Or.inl rfl⟩
    · rw [if_neg h2] at h
      have hrole : s.role = .leader := not_not.mp h2
      by_cases h3 : reply.success = true
      · rw [if_pos h3] at h
        cases hp : vget s.matchIndex target with
        | none => simp [hp] at h
        | some p =>
          simp only [hp] at h
          have hpget := (vget_eq_some hp).2
          have hm1 : p ≤ max p (arg.prevLogIndex + (arg.entries.length : Int)) := le_max_left _ _
          have hm2 : max p (arg.prevLogIndex + (arg.entries.length : Int)) ≤
              max p (last_index s.log) := max_le_max (le_refl p) harg
          generalize max p (arg.prevLogIndex + (arg.entries.length : Int)) = m at h hm1 hm2
          cases hmi' : vset s.matchIndex target m with
          | none => simp [hmi'] at h
          | some mi =>
            cases hni' : vset s.nextIndex target (m + 1) with
            | none => simp [hmi', hni'] at h
            | some ni =>
              simp only [hmi', hni'] at h
              obtain ⟨ht0, htl, rfl⟩ := vset_eq_some hmi'
              have hloop := commitLoop_spec _ _ _ s1 (by simpa using hlen)
                (by
                  intro j c hj
                  simp only at hj ⊢
                  have := hcnt j c hj
                  rw [votes_set s.matchIndex target.toNat p m _ hpget hm1]
                  push_cast
                  split_ifs <;> omega) h
              simp only at hloop
              obtain ⟨e1, e2, e3, e4, e5, e6, e7, l1, l2, l3⟩ := hloop
              have hidx : ∃ v, vget s1.matchIndex s1.idx = some v ∧ v ≤ last_index s1.log := by
                rw [e1, e2, e6, vget_set _ _ _ _ ht0 htl]
                by_cases hti : s.idx = target
                · rw [if_pos hti]
                  refine ⟨m, rfl, ?_⟩
                  rw [hti, hp] at hv
                  cases hv
                  omega
                · rw [if_neg hti]
                  exact ⟨v, hv, hvl⟩
              refine ⟨⟨by rw [e1]; exact hlog, l1, by rw [e2, e5]; simpa using hmi,
                hidx, l2⟩, e1, e5, ?_⟩
              · rcases l3 with l3 | ⟨c1, c2, c3⟩
                · exact Or.inl l3
                · exact Or.inr ⟨hrole, e4, c1, c2, by rw [e2]; exact c3⟩
      · rw [if_neg h3] at h
        cases hn : vget s.nextIndex target with
        | none => simp [hn] at h
        | some next =>
          simp only [hn] at h
          split_ifs at h
          · cases hs : vset s.nextIndex target arg.prevLogIndex with
            | none => simp [hs] at h
            | some ni =>
              simp only [hs, Option.some.injEq] at h
              subst h
              exact ⟨⟨hlog, hlen, hmi, ⟨v, hv, hvl⟩, hcnt⟩, rfl, rfl, Or.inl rfl⟩
          · simp only [Option.some.injEq] at h
            subst h
            exact ⟨⟨hlog, hlen, hmi, ⟨v, hv, hvl⟩, hcnt⟩, rfl, rfl, Or.inl rfl⟩

theorem setLeader_commit_inv {s0 s : raft Cmd} {jobs : List (Int × append_entries_args Cmd)}
    (hlog : log_ok s0.log) (h : setLeader s0 = some (s, jobs)) : commit_inv s := by
  unfold setLeader at h
  obtain ⟨back, hb⟩ := getLast_some_of_ne_nil hlog.1
  have hli := last_index_eq_of_getLast hb
  simp only [hb] at h
  cases hmi : vset (List.replicate s0.num_nodes (0 : Int)) s0.idx back.index with
  | none => simp [hmi] at h
  | some mi =>
    cases hmc : assign (back.index - s0.commitIndex) (0 : Int) with
    | none => simp [hmi, hmc] at h
    | some mc =>
      simp only [hmi, hmc] at h
      split at h
      · rename_i jobs1 hj
        simp only [Option.some.injEq, Prod.mk.injEq] at h
        obtain ⟨rfl, -⟩ := h
        obtain ⟨ht0, htl, rfl⟩ := vset_eq_some hmi
        unfold assign at hmc
        split_ifs at hmc with hk
        simp only [Option.some.injEq] at hmc
        subst hmc
        refine ⟨hlog, ?_, by simp, ⟨back.index, ?_, by simp only; omega⟩, ?_⟩
        · simp only [List.length_replicate]
          omega
        · simp only
          rw [vget_set _ _ _ _ ht0 htl, if_pos rfl]
        · intro j c hj
          simp only at hj ⊢
          have hc : c = 0 := by
            rw [List.getElem?_replicate] at hj
            split_ifs at hj
            cases hj
            rfl
          rw [hc]
          exact Int.natCast_nonneg _
      · exact absurd h (by simp)

theorem log_ok_append {log : List (log_entry Cmd)} (h : log_ok log) (t : Int) (cmd : Cmd) :
    log_ok (log ++ [⟨last_index log + 1, t, cmd⟩]) ∧
    base_index (log ++ [⟨last_index log + 1, t, cmd⟩]) = base_index log ∧
    last_index (log ++ [⟨last_index log + 1, t, cmd⟩]) = last_index log + 1 := by
  have hlen := last_index_add_one h
  obtain ⟨front, hf⟩ := head_some_of_ne_nil h.1
  have hb : base_index (log ++ [⟨last_index log + 1, t, cmd⟩]) = base_index log := by
    cases log with
    | nil => exact absurd rfl h.1
    | cons a l => rfl
  refine ⟨⟨by simp, ?_⟩, hb, by simp [last_index]⟩
  intro k e hk
  rw [hb]
  by_cases hkl : k < log.length
  · rw [List.getElem?_append_left hkl] at hk
    exact h.2 k e hk
  · rw [List.getElem?_append_right (by omega)] at hk
    have hk0 : k - log.length = 0 := by
      by_contra hne
      obtain ⟨n, hn⟩ := Nat.exists_eq_succ_of_ne_zero hne
      rw [hn] at hk
      simp at hk
    rw [hk0] at hk
    simp only [List.getElem?_cons_zero, Option.some.injEq] at hk
    subst hk
    simp only
    omega

theorem new_command_commit_inv {ok : Bool} {s s1 : raft Cmd} {cmd : Cmd}
    {r : Option (Int × Int)} (hinv : commit_inv s)
    (h : new_command ok s cmd = some (s1, r)) : commit_inv s1 := by
  obtain ⟨hlog, hlen, hmi, ⟨v, hv, hvl⟩, hcnt⟩ := hinv
  unfold new_command at h
  by_cases h1 : s.role ≠ .leader
  · rw [if_pos h1] at h
    simp only [Option.some.injEq, Prod.mk.injEq] at h
    obtain ⟨rfl, -⟩ := h
    exact ⟨hlog, hlen, hmi, ⟨v, hv, hvl⟩, hcnt⟩
  · rw [if_neg h1] at h
    obtain ⟨back, hb⟩ := getLast_some_of_ne_nil hlog.1
    have hli := last_index_eq_of_getLast hb
    simp only [hb] at h
    cases hni : vset s.nextIndex s.idx (back.index + 1 + 1) with
    | none => simp [hni] at h
    | some ni =>
      cases hmi' : vset s.matchIndex s.idx (back.index + 1) with
      | none => simp [hni, hmi'] at h
      | some mi =>
        simp only [hni, hmi', Option.some.injEq, Prod.mk.injEq] at h
        obtain ⟨rfl, -⟩ := h
        obtain ⟨ht0, htl, rfl⟩ := vset_eq_some hmi'
        have hvget := (vget_eq_some hv).2
        obtain ⟨hl1, hl2, hl3⟩ := log_ok_append hlog s.current_term cmd
        rw [hli] at hl1 hl2 hl3
        refine ⟨hl1, ?_, by simpa using hmi,
          ⟨back.index + 1, ?_, by simp only; rw [hl3]⟩, ?_⟩
        · simp only [List.length_append, List.length_singleton]
          rw [hl3]
          push_cast
          omega
        · simp only
          rw [vget_set _ _ _ _ ht0 htl, if_pos rfl]
        · intro j c hj
          simp only at hj ⊢
          rw [votes_set s.matchIndex s.idx.toNat v (back.index + 1) _ hvget (by omega)]
          by_cases hjl : j < s.matchCount.length
          · rw [List.getElem?_append_left hjl] at hj
            have := hcnt j c hj
            push_cast
            split_ifs <;> omega
          · rw [List.getElem?_append_right (by omega)] at hj
            have hk0 : j - s.matchCount.length = 0 := by
              by_contra hne
              obtain ⟨n, hn⟩ := Nat.exists_eq_succ_of_ne_zero hne
              rw [hn] at hj
              simp at hj
            rw [hk0] at hj
            simp only [List.getElem?_cons_zero, Option.some.injEq] at hj
            subst hj
            have hjeq : (j : Int) = s.matchCount.length := by omega
            rw [if_pos (by omega)]
            push_cast
            omega

theorem leader_reach_commit_inv {s0 s : raft Cmd} (h0 : log_ok s0.log)
    (h : leader_reach s0 s) : commit_inv s := by
  induction h with
  | elected s jobs h => exact setLeader_commit_inv h0 h
  | submit s s1 ok cmd r _ h ih => exact new_command_commit_inv ih h
  | reply s s1 target arg reply _ harg h ih =>
    exact (handle_append_entries_reply_spec ih harg h).1

/-- C10, the leader commit rule: in every state reachable from `setLeader` (on a replica whose
log satisfies the log structure invariant) by `new_command` and `handle_append_entries_reply` steps whose arguments satisfy
`prevLogIndex + |entries| ≤` last log index, when `handle_append_entries_reply` changes
`commitIndex` from `c` to `N`, the replica is leader, `N > c`, the log entry with index `N`
has term `current_term`, and more than half of the `num_nodes` values of `matchIndex` are
`≥ N`. -/
theorem leader_commit_rule (s0 s s1 : raft Cmd) (target : Int)
    (arg : append_entries_args Cmd) (reply : append_entries_reply) (h0 : log_ok s0.log)
    (hreach : leader_reach s0 s)
    (harg : arg.prevLogIndex + arg.entries.length ≤ last_index s.log)
    (h : handle_append_entries_reply s target arg reply = some s1)
    (hchg : s1.commitIndex ≠ s.commitIndex) :
    s.role = .leader ∧ s.commitIndex < s1.commitIndex ∧
    (∃ e, entry_at s1.log s1.commitIndex = some e ∧ e.term = s1.current_term) ∧
    s1.matchIndex.length = s1.num_nodes ∧
    s1.num_nodes < 2 * votes s1.matchIndex s1.commitIndex := by
  have hinv := leader_reach_commit_inv h0 hreach
  obtain ⟨hinv1, hl, hn, hc⟩ := handle_append_entries_reply_spec hinv harg h
  rcases hc with hc | ⟨hrole, hterm, hlt, ⟨e, he, het⟩, hmaj⟩
  · exact absurd hc hchg
  · refine ⟨hrole, hlt, ⟨e, ?_, by rw [hterm]; exact het⟩, hinv1.2.2.1, ?_⟩
    · rw [hl, entry_at_eq_vget hinv.1]
      exact he
    · rw [hn]
      exact_mod_cast hmaj

/-- Witness of C10: the leader of term 1 of a 3-replica cluster commits its entry 1 on the
first successful reply. -/
theorem leader_commit_rule_witness :
    log_ok candidate_example.log ∧ leader_reach candidate_example leader_submit_example ∧
    replicate_example.prevLogIndex + replicate_example.entries.length ≤
      last_index leader_submit_example.log ∧
    handle_append_entries_reply leader_submit_example 1 replicate_example ⟨1, true⟩ =
      some leader_commit_example ∧
    leader_commit_example.commitIndex ≠ leader_submit_example.commitIndex ∧
    (leader_submit_example.role = .leader ∧
      leader_submit_example.commitIndex < leader_commit_example.commitIndex ∧
      (∃ e, entry_at leader_commit_example.log leader_commit_example.commitIndex = some e ∧
        e.term = leader_commit_example.current_term) ∧
      leader_commit_example.matchIndex.length = leader_commit_example.num_nodes ∧
      leader_commit_example.num_nodes <
        2 * votes leader_commit_example.matchIndex leader_commit_example.commitIndex) :=
  have hok : log_ok candidate_example.log :=
    ⟨by decide, fun k e hk => by
      cases k with
      | zero => cases hk; rfl
      | succ k => cases hk⟩
  have hreach : leader_reach candidate_example leader_submit_example :=
    leader_reach.submit leader_example leader_submit_example true 7 (some (1, 1))
      (leader_reach.elected leader_example
        [(1, ⟨1, 0, 0, 0, [], 0⟩), (2, ⟨1, 0, 0, 0, [], 0⟩)] (by decide))
      (by decide)
  ⟨hok, hreach, by decide, by decide, by decide,
    leader_commit_rule candidate_example leader_submit_example leader_commit_example 1
      replicate_example ⟨1, true⟩ hok hreach (by decide) (by decide) (by decide)⟩

/-! ## What each operation leaves unchanged -/

theorem request_vote_frame {now : Nat} {s s1 : raft Cmd} {arg : request_vote_args}
    {reply : request_vote_reply} (h : request_vote now s arg = some (s1, reply)) :
    s1.log = s.log ∧ s1.snapshot = s.snapshot ∧ s1.commitIndex = s.commitIndex ∧
    s1.lastApplied = s.lastApplied ∧ s1.state = s.state ∧ reply.term = s.current_term ∧
    s1.current_term = (if arg.term > s.current_term then arg.term else s.current_term) ∧
    s1.role = (if arg.term > s.current_term then .follower else s.role) ∧
    s1.vote_for = (if reply.vote_grant = true then arg.candidate_id
      else if arg.term > s.current_term then -1 else s.vote_for) ∧
    (arg.term < s.current_term → reply.vote_grant = false) := by
  unfold request_vote at h
  simp only [setFollower] at h
  by_cases h1 : arg.term < s.current_term
  · have h2 : ¬ arg.term > s.current_term := by omega
    rw [if_pos h1] at h
    simp only [Option.some.injEq, Prod.mk.injEq] at h
    obtain ⟨rfl, rfl⟩ := h
    simp [h2]
  · rw [if_neg h1] at h
    by_cases h2 : arg.term > s.current_term
    · simp only [if_pos h2, true_or, if_true] at h
      split at h
      · exact absurd h (by simp)
      · split_ifs at h
        all_goals
          simp only [Option.some.injEq, Prod.mk.injEq] at h
          obtain ⟨rfl, rfl⟩ := h
          simp [h1, h2]
    · simp only [if_neg h2] at h
      split_ifs at h
      · split at h
        · exact absurd h (by simp)
        · split_ifs at h
          all_goals
            simp only [Option.some.injEq, Prod.mk.injEq] at h
            obtain ⟨rfl, rfl⟩ := h
            simp [h1, h2]
      · simp only [Option.some.injEq, Prod.mk.injEq] at h
        obtain ⟨rfl, rfl⟩ := h
        simp [h1, h2]

theorem append_entries_frame {now : Nat} {ok : Bool} {s s1 : raft Cmd}
    {arg : append_entries_args Cmd} {reply : append_entries_reply}
    (h : append_entries now ok s arg = some (s1, reply)) :
    s1.lastApplied = s.lastApplied ∧ s1.snapshot = s.snapshot ∧ s1.state = s.state ∧
    reply.term = s.current_term ∧
    (arg.term < s.current_term →
      s1.current_term = s.current_term ∧ s1.role = s.role ∧ s1.vote_for = s.vote_for ∧
      reply.success = false ∧ s1.log = s.log ∧ s1.commitIndex = s.commitIndex) ∧
    (¬ arg.term < s.current_term →
      s1.current_term = arg.term ∧
      s1.role = (if arg.term > s.current_term ∨ s.role = .candidate then .follower
        else s.role) ∧
      s1.vote_for = (if arg.term > s.current_term ∨ s.role = .candidate then -1
        else s.vote_for)) := by
  unfold append_entries at h
  simp only at h
  by_cases h1 : arg.term < s.current_term
  · rw [if_pos h1] at h
    simp only [Option.some.injEq, Prod.mk.injEq] at h
    obtain ⟨rfl, rfl⟩ := h
    exact ⟨rfl, rfl, rfl, rfl, fun _ => ⟨rfl, rfl, rfl, rfl, rfl, rfl⟩, fun hn => absurd h1 hn⟩
  · rw [if_neg h1] at h
    generalize hs2 : (if arg.term > s.current_term ∨ s.role = raft_role.candidate then
      setFollower { s with pre_time := now } arg.term else { s with pre_time := now }) = s2 at h
    have hf : s2.lastApplied = s.lastApplied ∧ s2.snapshot = s.snapshot ∧
        s2.state = s.state ∧ s2.current_term = arg.term ∧
        s2.role = (if arg.term > s.current_term ∨ s.role = .candidate then .follower
          else s.role) ∧
        s2.vote_for = (if arg.term > s.current_term ∨ s.role = .candidate then -1
          else s.vote_for) := by
      rw [← hs2]
      split_ifs with hc
      · exact ⟨rfl, rfl, rfl, rfl, rfl, rfl⟩
      · refine ⟨rfl, rfl, rfl, ?_, rfl, rfl⟩
        simp only
        have : ¬ arg.term > s.current_term := fun hgt => hc (Or.inl hgt)
        omega
    clear hs2
    have key : s1.lastApplied = s2.lastApplied ∧ s1.snapshot = s2.snapshot ∧
        s1.state = s2.state ∧ s1.current_term = s2.current_term ∧ s1.role = s2.role ∧
        s1.vote_for = s2.vote_for ∧ reply.term = s.current_term := by
      cases hb : s2.log.getLast? with
      | none => simp [hb] at h
      | some back =>
        cases hfr : s2.log.head? with
        | none => simp [hb, hfr] at h
        | some front =>
          simp only [hb, hfr] at h
          by_cases h2 : arg.prevLogIndex ≤ back.index
          · rw [if_pos h2] at h
            cases hv : vget s2.log (arg.prevLogIndex - front.index) with
            | none => simp [hv] at h
            | some prev =>
              simp only [hv] at h
              by_cases h3 : arg.prevLogTerm = prev.term
              · rw [if_pos h3] at h
                split at h
                · exact absurd h (by simp)
                · rename_i s3 happ
                  have hs3 : s3.lastApplied = s2.lastApplied ∧ s3.snapshot = s2.snapshot ∧
                      s3.state = s2.state ∧ s3.current_term = s2.current_term ∧
                      s3.role = s2.role ∧ s3.vote_for = s2.vote_for := by
                    by_cases e1 : arg.entries.isEmpty = true
                    · simp only [e1, Bool.not_true, Bool.false_eq_true, if_false,
                        Option.some.injEq] at happ
                      subst happ
                      exact ⟨rfl, rfl, rfl, rfl, rfl, rfl⟩
                    · simp only [e1, Bool.not_false, if_true] at happ
                      by_cases e2 : arg.prevLogIndex < back.index
                      · rw [if_pos e2] at happ
                        split at happ
                        · exact absurd happ (by simp)
                        · simp only [Option.some.injEq] at happ
                          subst happ
                          exact ⟨rfl, rfl, rfl, rfl, rfl, rfl⟩
                      · simp only [if_neg e2, Option.some.injEq] at happ
                        subst happ
                        exact ⟨rfl, rfl, rfl, rfl, rfl, rfl⟩
                  obtain ⟨a1, a2, a3, a4, a5, a6⟩ := hs3
                  by_cases h4 : arg.leaderCommit > s3.commitIndex
                  · rw [if_pos h4] at h
                    split at h
                    · exact absurd h (by simp)
                    · simp only [Option.some.injEq, Prod.mk.injEq] at h
                      obtain ⟨rfl, rfl⟩ := h
                      exact ⟨a1, a2, a3, a4, a5, a6, rfl⟩
                  · rw [if_neg h4] at h
                    simp only [Option.some.injEq, Prod.mk.injEq] at h
                    obtain ⟨rfl, rfl⟩ := h
                    exact ⟨a1, a2, a3, a4, a5, a6, rfl⟩
              · rw [if_neg h3] at h
                simp only [Option.some.injEq, Prod.mk.injEq] at h
                obtain ⟨rfl, rfl⟩ := h
                exact ⟨rfl, rfl, rfl, rfl, rfl, rfl, rfl⟩
          · rw [if_neg h2] at h
            simp only [Option.some.injEq, Prod.mk.injEq] at h
            obtain ⟨rfl, rfl⟩ := h
            exact ⟨rfl, rfl, rfl, rfl, rfl, rfl, rfl⟩
    obtain ⟨k1, k2, k3, k4, k5, k6, k7⟩ := key
    obtain ⟨f1, f2, f3, f4, f5, f6⟩ := hf
    exact ⟨k1.trans f1, k2.trans f2, k3.trans f3, k7, fun hn => absurd hn h1,
      fun _ => ⟨k4.trans f4, k5.trans f5, k6.trans f6⟩⟩

theorem install_snapshot_inv [Inhabited Cmd] {now : Nat} {s s1 : raft Cmd}
    {arg : install_snapshot_args} {reply : install_snapshot_reply}
    (h : install_snapshot now s arg = some (s1, reply)) :
    reply.term = s.current_term ∧
    ((arg.term < s.current_term ∧ s1 = { s with pre_time := now }) ∨
      (¬ arg.term < s.current_term ∧ s.log ≠ [] ∧ s1.current_term = arg.term ∧
        s1.role = (if arg.term > s.current_term ∨ s.role = .candidate then .follower
          else s.role) ∧
        s1.vote_for = (if arg.term > s.current_term ∨ s.role = .candidate then -1
          else s.vote_for) ∧
        s1.snapshot = arg.snapshot ∧
        s1.state = s.state ++ [sm_call.apply_snapshot arg.snapshot] ∧
        s1.lastApplied = arg.last_index ∧
        s1.commitIndex = max s.commitIndex arg.last_index ∧
        ((arg.last_index ≤ last_index s.log ∧
            (∃ e, vget s.log (arg.last_index - base_index s.log) = some e ∧
              arg.lastIncludedTerm = e.term) ∧
            s1.log = s.log.drop (arg.last_index - base_index s.log).toNat) ∨
          ((last_index s.log < arg.last_index ∨
              ∃ e, vget s.log (arg.last_index - base_index s.log) = some e ∧
                arg.lastIncludedTerm ≠ e.term) ∧
            s1.log = [⟨arg.last_index, arg.lastIncludedTerm, default⟩])))) := by
  unfold install_snapshot at h
  simp only at h
  by_cases h1 : arg.term < s.current_term
  · rw [if_pos h1] at h
    simp only [Option.some.injEq, Prod.mk.injEq] at h
    obtain ⟨rfl, rfl⟩ := h
    exact ⟨rfl, Or.inl ⟨h1, rfl⟩⟩
  · rw [if_neg h1] at h
    generalize hs2 : (if arg.term > s.current_term ∨ s.role = raft_role.candidate then
      setFollower { s with pre_time := now } arg.term else { s with pre_time := now }) = s2 at h
    have hf : s2.log = s.log ∧ s2.commitIndex = s.commitIndex ∧ s2.state = s.state ∧
        s2.current_term = arg.term ∧
        s2.role = (if arg.term > s.current_term ∨ s.role = .candidate then .follower
          else s.role) ∧
        s2.vote_for = (if arg.term > s.current_term ∨ s.role = .candidate then -1
          else s.vote_for) := by
      rw [← hs2]
      split_ifs with hc
      · exact ⟨rfl, rfl, rfl, rfl, rfl, rfl⟩
      · refine ⟨rfl, rfl, rfl, ?_, rfl, rfl⟩
        simp only
        have : ¬ arg.term > s.current_term := fun hgt => hc (Or.inl hgt)
        omega
    clear hs2
    obtain ⟨f1, f2, f3, f4, f5, f6⟩ := hf
    rw [f1] at h
    cases hb : s.log.getLast? with
    | none => simp [hb] at h
    | some back =>
      cases hfr : s.log.head? with
      | none => simp [hb, hfr] at h
      | some front =>
        have hne : s.log ≠ [] := by
          intro h0
          simp [h0] at hfr
        rw [last_index_eq_of_getLast hb, base_index_eq_of_head hfr]
        simp only [hb, hfr] at h
        split at h
        · exact absurd h (by simp)
        · rename_i log1 htrim
          simp only [Option.some.injEq, Prod.mk.injEq] at h
          obtain ⟨rfl, rfl⟩ := h
          refine ⟨rfl, Or.inr ⟨h1, hne, f4, f5, f6, rfl, by simp only; rw [f3], rfl, ?_, ?_⟩⟩
          · simp only
            rw [f2]
            split_ifs with hc
            · exact (max_eq_left (by omega)).symm
            · exact (max_eq_right (by omega)).symm
          · simp only
            by_cases h2 : arg.last_index ≤ back.index
            · rw [if_pos h2] at htrim
              cases hv : vget s.log (arg.last_index - front.index) with
              | none => simp [hv] at htrim
              | some at_last =>
                simp only [hv] at htrim
                by_cases h3 : arg.lastIncludedTerm = at_last.term
                · rw [if_pos h3, if_pos h2] at htrim
                  unfold erase_front at htrim
                  split_ifs at htrim
                  simp only [Option.some.injEq] at htrim
                  exact Or.inl ⟨h2, ⟨at_last, rfl, h3⟩, htrim.symm⟩
                · rw [if_neg h3] at htrim
                  simp only [Option.some.injEq] at htrim
                  exact Or.inr ⟨Or.inr ⟨at_last, rfl, h3⟩, htrim.symm⟩
            · rw [if_neg h2] at htrim
              simp only [Option.some.injEq] at htrim
              exact Or.inr ⟨Or.inl (by omega), htrim.symm⟩

theorem install_snapshot_returns [Inhabited Cmd] (now : Nat) (s : raft Cmd)
    (arg : install_snapshot_args) (hlog : log_ok s.log)
    (hbase : base_index s.log ≤ arg.last_index) :
    ∃ s1 reply, install_snapshot now s arg = some (s1, reply) := by
  cases h : install_snapshot now s arg with
  | some p => exact ⟨p.1, p.2, rfl⟩
  | none =>
    exfalso
    unfold install_snapshot at h
    simp only at h
    by_cases h1 : arg.term < s.current_term
    · rw [if_pos h1] at h
      exact absurd h (by simp)
    · rw [if_neg h1] at h
      generalize hs2 : (if arg.term > s.current_term ∨ s.role = raft_role.candidate then
        setFollower { s with pre_time := now } arg.term else { s with pre_time := now }) = s2
        at h
      have hl2 : s2.log = s.log := by
        rw [← hs2]; split_ifs <;> rfl
      rw [hl2] at h
      obtain ⟨back, hb⟩ := getLast_some_of_ne_nil hlog.1
      obtain ⟨front, hf⟩ := head_some_of_ne_nil hlog.1
      have hli := last_index_eq_of_getLast hb
      have hbi := base_index_eq_of_head hf
      have hlen := last_index_add_one hlog
      simp only [hb, hf] at h
      split at h
      · rename_i htrim
        by_cases h2 : arg.last_index ≤ back.index
        · rw [if_pos h2] at htrim
          obtain ⟨e, hv⟩ := vget_some_of_lt (v := s.log) (j := arg.last_index - front.index)
            (by omega) (by omega)
          simp only [hv] at htrim
          by_cases h3 : arg.lastIncludedTerm = e.term
          · rw [if_pos h3, if_pos h2] at htrim
            unfold erase_front at htrim
            rw [if_pos ⟨by omega, by omega⟩] at htrim
            exact absurd htrim (by simp)
          · rw [if_neg h3] at htrim
            exact absurd htrim (by simp)
        · rw [if_neg h2] at htrim
          exact absurd htrim (by simp)
      · exact absurd h (by simp)

theorem same_data_refl (s : raft Cmd) : same_data s s := ⟨rfl, rfl, rfl, rfl, rfl⟩

theorem same_election_refl (s : raft Cmd) : same_election s s := ⟨rfl, rfl, rfl⟩

theorem setLeader_inv {s s1 : raft Cmd} {jobs : List (Int × append_entries_args Cmd)}
    (h : setLeader s = some (s1, jobs)) :
    same_data s s1 ∧ s1.role = .leader ∧ s1.current_term = s.current_term ∧
    s1.vote_for = s.vote_for ∧ s1.vote_count = s.vote_count ∧
    s1.votedNodes = s.votedNodes ∧ s1.num_nodes = s.num_nodes ∧ s1.idx = s.idx := by
  unfold setLeader at h
  split at h
  · exact absurd h (by simp)
  · split at h
    · simp only at h
      split at h
      · simp only [Option.some.injEq, Prod.mk.injEq] at h
        obtain ⟨rfl, -⟩ := h
        exact ⟨⟨rfl, rfl, rfl, rfl, rfl⟩, rfl, rfl, rfl, rfl, rfl, rfl, rfl⟩
      · exact absurd h (by simp)
    · exact absurd h (by simp)

theorem make_election_inv {now : Nat} {s s1 : raft Cmd}
    {jobs : List (Int × request_vote_args)} (h : make_election now s = some (s1, jobs)) :
    same_data s s1 ∧ s1.role = .candidate ∧ s1.current_term = s.current_term + 1 ∧
    s1.vote_for = s.idx ∧ s1.vote_count = 1 ∧ s1.num_nodes = s.num_nodes ∧
    s1.idx = s.idx ∧ 0 ≤ s.idx ∧ s.idx.toNat < s.num_nodes ∧
    s1.votedNodes = (List.replicate s.num_nodes false).set s.idx.toNat true := by
  unfold make_election at h
  split at h
  · rename_i voted back hv hb
    simp only [Option.some.injEq, Prod.mk.injEq] at h
    obtain ⟨rfl, -⟩ := h
    obtain ⟨h0, hl, rfl⟩ := vset_eq_some hv
    simp only [List.length_replicate] at hl
    exact ⟨⟨rfl, rfl, rfl, rfl, rfl⟩, rfl, rfl, rfl, rfl, rfl, rfl, h0, hl, rfl⟩
  · exact absurd h (by simp)

theorem run_background_election_inv {now : Nat} {s s1 : raft Cmd}
    {jobs : List (Int × request_vote_args)}
    (h : run_background_election now s = some (s1, jobs)) :
    same_data s s1 ∧ s.current_term ≤ s1.current_term := by
  unfold run_background_election at h
  split at h
  · obtain ⟨hd, _, ht, _⟩ := make_election_inv h
    exact ⟨hd, by omega⟩
  · obtain ⟨hd, _, ht, _⟩ := make_election_inv h
    exact ⟨hd, by omega⟩
  · simp only [Option.some.injEq, Prod.mk.injEq] at h
    obtain ⟨rfl, -⟩ := h
    exact ⟨same_data_refl _, le_refl _⟩

theorem handle_request_vote_reply_inv {s s1 : raft Cmd} {target : Int}
    {arg : request_vote_args} {reply : request_vote_reply}
    {jobs : List (Int × append_entries_args Cmd)}
    (h : handle_request_vote_reply s target arg reply = some (s1, jobs)) :
    (reply.term > s.current_term ∧ s1 = setFollower s reply.term ∧ jobs = []) ∨
    (¬ reply.term > s.current_term ∧
      (s.role ≠ .candidate ∨ reply.vote_grant = false ∨
        vget s.votedNodes target = some true) ∧ s1 = s ∧ jobs = []) ∨
    (¬ reply.term > s.current_term ∧ s.role = .candidate ∧ reply.vote_grant = true ∧
      vget s.votedNodes target = some false ∧
      ((¬ s.vote_count + 1 > (s.num_nodes : Int) / 2 ∧ jobs = [] ∧
          s1 = { s with votedNodes := s.votedNodes.set target.toNat true
                        vote_count := s.vote_count + 1 }) ∨
        (s.vote_count + 1 > (s.num_nodes : Int) / 2 ∧
          setLeader { s with votedNodes := s.votedNodes.set target.toNat true
                             vote_count := s.vote_count + 1 } = some (s1, jobs)))) := by
  unfold handle_request_vote_reply at h
  by_cases h1 : reply.term > s.current_term
  · rw [if_pos h1] at h
    simp only [Option.some.injEq, Prod.mk.injEq] at h
    exact Or.inl ⟨h1, h.1.symm, h.2.symm⟩
  · rw [if_neg h1] at h
    by_cases h2 : s.role ≠ .candidate
    · rw [if_pos h2] at h
      simp only [Option.some.injEq, Prod.mk.injEq] at h
      exact Or.inr (Or.inl ⟨h1, Or.inl h2, h.1.symm, h.2.symm⟩)
    · rw [if_neg h2] at h
      have hrole : s.role = .candidate := not_not.mp h2
      by_cases h3 : reply.vote_grant = true
      · rw [if_pos h3] at h
        cases hv : vget s.votedNodes target with
        | none => simp [hv] at h
        | some voted =>
          simp only [hv] at h
          cases voted with
          | true =>
            simp only [Bool.not_true, Bool.false_eq_true, if_false, Option.some.injEq,
              Prod.mk.injEq] at h
            exact Or.inr (Or.inl ⟨h1, Or.inr (Or.inr rfl), h.1.symm, h.2.symm⟩)
          | false =>
            simp only [Bool.not_false, if_true] at h
            refine Or.inr (Or.inr ⟨h1, hrole, h3, rfl, ?_⟩)
            by_cases h4 : s.vote_count + 1 > (s.num_nodes : Int) / 2
            · rw [if_pos h4] at h
              exact Or.inr ⟨h4, h⟩
            · rw [if_neg h4] at h
              simp only [Option.some.injEq, Prod.mk.injEq] at h
              exact Or.inl ⟨h4, h.2.symm, h.1.symm⟩
      · rw [if_neg h3] at h
        simp only [Option.some.injEq, Prod.mk.injEq] at h
        exact Or.inr (Or.inl ⟨h1, Or.inr (Or.inl (by simpa using h3)), h.1.symm, h.2.symm⟩)

theorem setFollower_frame (s : raft Cmd) (t : Int) :
    same_data s (setFollower s t) ∧ (setFollower s t).role = .follower ∧
    (setFollower s t).current_term = t ∧ (setFollower s t).vote_for = -1 :=
  ⟨⟨rfl, rfl, rfl, rfl, rfl⟩, rfl, rfl, rfl⟩

theorem handle_request_vote_reply_frame {s s1 : raft Cmd} {target : Int}
    {arg : request_vote_args} {reply : request_vote_reply}
    {jobs : List (Int × append_entries_args Cmd)}
    (h : handle_request_vote_reply s target arg reply = some (s1, jobs)) :
    same_data s s1 ∧
    s1.current_term = (if reply.term > s.current_term then reply.term else s.current_term) ∧
    (reply.term > s.current_term → s1.role = .follower ∧ s1.vote_for = -1) := by
  rcases handle_request_vote_reply_inv h with ⟨h1, rfl, -⟩ | ⟨h1, -, rfl, -⟩ |
    ⟨h1, -, -, -, ⟨-, -, rfl⟩ | ⟨-, hl⟩⟩
  · exact ⟨⟨rfl, rfl, rfl, rfl, rfl⟩, by rw [if_pos h1]; rfl, fun _ => ⟨rfl, rfl⟩⟩
  · exact ⟨same_data_refl _, by rw [if_neg h1], fun hh => absurd hh h1⟩
  · exact ⟨⟨rfl, rfl, rfl, rfl, rfl⟩, by rw [if_neg h1], fun hh => absurd hh h1⟩
  · obtain ⟨hd, -, ht, -⟩ := setLeader_inv hl
    exact ⟨hd, by rw [if_neg h1]; exact ht, fun hh => absurd hh h1⟩

theorem commitLoop_frame (last : Int) (todo : Nat) (s s1 : raft Cmd)
    (h : commitLoop last todo s = some s1) :
    s1.log = s.log ∧ s1.lastApplied = s.lastApplied ∧ s1.snapshot = s.snapshot ∧
    s1.state = s.state ∧ same_election s s1 ∧ s.commitIndex ≤ s1.commitIndex ∧
    (s1.commitIndex = s.commitIndex ∨
      ∃ e, vget s.log (s1.commitIndex - base_index s.log) = some e) := by
  induction todo generalizing s with
  | zero =>
    simp only [commitLoop, Option.some.injEq] at h
    subst h
    exact ⟨rfl, rfl, rfl, rfl, same_election_refl _, le_refl _, Or.inl rfl⟩
  | succ todo ih =>
    unfold commitLoop at h
    simp only [Nat.cast_add, Nat.cast_one] at h
    generalize last + ((todo : Int) + 1) = i at h
    cases hv : vget s.matchCount i with
    | none => simp [hv] at h
    | some count =>
      simp only [hv] at h
      have hi := (vget_lt_length hv).1
      have hskip : commitLoop last todo
          { s with matchCount := s.matchCount.set i.toNat (count + 1) } = some s1 → _ :=
        fun h2 => ih _ h2
      by_cases hmaj : (s.num_nodes : Int) / 2 < count + 1
      · rw [if_pos hmaj] at h
        cases hf : s.log.head? with
        | none => simp [hf] at h
        | some front =>
          simp only [hf] at h
          cases he : vget s.log (s.commitIndex + i + 1 - front.index) with
          | none => simp [he] at h
          | some entry =>
            simp only [he] at h
            by_cases hterm : entry.term = s.current_term
            · rw [if_pos hterm] at h
              split at h
              · exact absurd h (by simp)
              · simp only [Option.some.injEq] at h
                subst h
                refine ⟨rfl, rfl, rfl, rfl, ⟨rfl, rfl, rfl⟩, by simp only; omega,
                  Or.inr ⟨entry, ?_⟩⟩
                simp only
                rw [base_index_eq_of_head hf]
                have hc : s.commitIndex + (i + 1) - front.index
                    = s.commitIndex + i + 1 - front.index := by omega
                rw [hc]
                exact he
            · rw [if_neg hterm] at h
              exact hskip h
      · rw [if_neg hmaj] at h
        exact hskip h

theorem handle_append_entries_reply_frame {s s1 : raft Cmd} {target : Int}
    {arg : append_entries_args Cmd} {reply : append_entries_reply}
    (h : handle_append_entries_reply s target arg reply = some s1) :
    s1.log = s.log ∧ s1.lastApplied = s.lastApplied ∧ s1.snapshot = s.snapshot ∧
    s1.state = s.state ∧ s.commitIndex ≤ s1.commitIndex ∧
    (s1.commitIndex = s.commitIndex ∨
      ∃ e, vget s.log (s1.commitIndex - base_index s.log) = some e) ∧
    s1.current_term = (if reply.term > s.current_term then reply.term else s.current_term) ∧
    (reply.term > s.current_term → s1.role = .follower ∧ s1.vote_for = -1) := by
  unfold handle_append_entries_reply at h
  by_cases h1 : reply.term > s.current_term
  · rw [if_pos h1] at h
    simp only [Option.some.injEq] at h
    subst h
    exact ⟨rfl, rfl, rfl, rfl, le_refl _, Or.inl rfl, by rw [if_pos h1]; rfl,
      fun _ => ⟨rfl, rfl⟩⟩
  · rw [if_neg h1] at h
    rw [if_neg h1]
    by_cases h2 : s.role ≠ .leader
    · rw [if_pos h2] at h
      simp only [Option.some.injEq] at h
      subst h
      exact ⟨rfl, rfl, rfl, rfl, le_refl _, Or.inl rfl, rfl, fun hh => absurd hh h1⟩
    · rw [if_neg h2] at h
      by_cases h3 : reply.success = true
      · rw [if_pos h3] at h
        split at h
        · exact absurd h (by simp)
        · simp only at h
          split at h
          · obtain ⟨e1, e2, e3, e4, ⟨e5, _, _⟩, e6, e7⟩ := commitLoop_frame _ _ _ _ h
            exact ⟨e1, e2, e3, e4, e6, e7, e5, fun hh => absurd hh h1⟩
          · exact absurd h (by simp)
      · rw [if_neg h3] at h
        split at h
        · exact absurd h (by simp)
        · split_ifs at h
          · split at h
            · simp only [Option.some.injEq] at h
              subst h
              exact ⟨rfl, rfl, rfl, rfl, le_refl _, Or.inl rfl, rfl, fun hh => absurd hh h1⟩
            · exact absurd h (by simp)
          · simp only [Option.some.injEq] at h
            subst h
            exact ⟨rfl, rfl, rfl, rfl, le_refl _, Or.inl rfl, rfl, fun hh => absurd hh h1⟩

theorem handle_install_snapshot_reply_frame {s s1 : raft Cmd} {target : Int}
    {arg : install_snapshot_args} {reply : install_snapshot_reply}
    (h : handle_install_snapshot_reply s target arg reply = some s1) :
    same_data s s1 ∧
    s1.current_term = (if reply.term > s.current_term then reply.term else s.current_term) ∧
    (reply.term > s.current_term → s1.role = .follower ∧ s1.vote_for = -1) := by
  unfold handle_install_snapshot_reply at h
  by_cases h1 : reply.term > s.current_term
  · rw [if_pos h1] at h
    simp only [Option.some.injEq] at h
    subst h
    exact ⟨⟨rfl, rfl, rfl, rfl, rfl⟩, by rw [if_pos h1]; rfl, fun _ => ⟨rfl, rfl⟩⟩
  · rw [if_neg h1] at h
    rw [if_neg h1]
    by_cases h2 : s.role ≠ .leader
    · rw [if_pos h2] at h
      simp only [Option.some.injEq] at h
      subst h
      exact ⟨same_data_refl _, rfl, fun hh => absurd hh h1⟩
    · rw [if_neg h2] at h
      split at h
      · exact absurd h (by simp)
      · simp only at h
        split at h
        · simp only [Option.some.injEq] at h
          subst h
          exact ⟨⟨rfl, rfl, rfl, rfl, rfl⟩, rfl, fun hh => absurd hh h1⟩
        · exact absurd h (by simp)

theorem new_command_inv {ok : Bool} {s s1 : raft Cmd} {cmd : Cmd} {r : Option (Int × Int)}
    (h : new_command ok s cmd = some (s1, r)) :
    (s.role ≠ .leader ∧ s1 = s ∧ r = none) ∨
    (s.role = .leader ∧ s.log ≠ [] ∧ r = some (s.current_term, last_index s.log + 1) ∧
      s1.log = s.log ++ [⟨last_index s.log + 1, s.current_term, cmd⟩] ∧
      s1.commitIndex = s.commitIndex ∧ s1.lastApplied = s.lastApplied ∧
      s1.snapshot = s.snapshot ∧ s1.state = s.state ∧ same_election s s1) := by
  unfold new_command at h
  by_cases h1 : s.role ≠ .leader
  · rw [if_pos h1] at h
    simp only [Option.some.injEq, Prod.mk.injEq] at h
    exact Or.inl ⟨h1, h.1.symm, h.2.symm⟩
  · rw [if_neg h1] at h
    cases hb : s.log.getLast? with
    | none => simp [hb] at h
    | some back =>
      simp only [hb] at h
      have hne : s.log ≠ [] := by
        intro h0
        simp [h0] at hb
      split at h
      · simp only [Option.some.injEq, Prod.mk.injEq] at h
        obtain ⟨rfl, rfl⟩ := h
        rw [last_index_eq_of_getLast hb]
        exact Or.inr ⟨not_not.mp h1, hne, rfl, rfl, rfl, rfl, rfl, rfl, ⟨rfl, rfl, rfl⟩⟩
      · exact absurd h (by simp)

theorem save_snapshot_inv {snap : List (sm_call Cmd) → List Char} {s s1 : raft Cmd}
    {r : Bool} (h : save_snapshot snap s = some (s1, r)) :
    r = true ∧ s.log ≠ [] ∧ s1.snapshot = snap s.state ∧ s1.commitIndex = s.commitIndex ∧
    s1.lastApplied = s.lastApplied ∧ s1.state = s.state ∧ same_election s s1 ∧
    ((s.lastApplied ≤ last_index s.log ∧ 0 ≤ s.lastApplied - base_index s.log ∧
        (s.lastApplied - base_index s.log).toNat ≤ s.log.length ∧
        s1.log = s.log.drop (s.lastApplied - base_index s.log).toNat) ∨
      (last_index s.log < s.lastApplied ∧ s1.log = [])) := by
  unfold save_snapshot at h
  cases hb : s.log.getLast? with
  | none => simp [hb] at h
  | some back =>
    cases hf : s.log.head? with
    | none => simp [hb, hf] at h
    | some front =>
      have hne : s.log ≠ [] := by
        intro h0
        simp [h0] at hf
      rw [last_index_eq_of_getLast hb, base_index_eq_of_head hf]
      simp only [hb, hf] at h
      split at h
      · exact absurd h (by simp)
      · rename_i log1 hl
        simp only [Option.some.injEq, Prod.mk.injEq] at h
        obtain ⟨rfl, rfl⟩ := h
        refine ⟨rfl, hne, rfl, rfl, rfl, rfl, ⟨rfl, rfl, rfl⟩, ?_⟩
        simp only
        by_cases h2 : s.lastApplied ≤ back.index
        · rw [if_pos h2] at hl
          unfold erase_front at hl
          split_ifs at hl with hk
          simp only [Option.some.injEq] at hl
          exact Or.inl ⟨h2, hk.1, hk.2, hl.symm⟩
        · rw [if_neg h2] at hl
          simp only [Option.some.injEq] at hl
          exact Or.inr ⟨by omega, hl.symm⟩

theorem run_background_apply_inv {s s1 : raft Cmd} (h : run_background_apply s = some s1) :
    s1.log = s.log ∧ s1.commitIndex = s.commitIndex ∧ s1.snapshot = s.snapshot ∧
    same_election s s1 ∧
    ((s.commitIndex ≤ s.lastApplied ∧ s1 = s) ∨
      (s.lastApplied < s.commitIndex ∧ s1.lastApplied = s.commitIndex ∧
        ∃ entries, getEntries s (s.lastApplied + 1) (s.commitIndex + 1) = some entries ∧
          s1.state = s.state ++ entries.map sm_call.apply_log)) := by
  unfold run_background_apply at h
  by_cases h1 : s.commitIndex > s.lastApplied
  · rw [if_pos h1] at h
    split at h
    · exact absurd h (by simp)
    · rename_i entries he
      simp only [Option.some.injEq] at h
      subst h
      exact ⟨rfl, rfl, rfl, ⟨rfl, rfl, rfl⟩, Or.inr ⟨h1, rfl, entries, he, rfl⟩⟩
  · rw [if_neg h1] at h
    simp only [Option.some.injEq] at h
    subst h
    exact ⟨rfl, rfl, rfl, same_election_refl _, Or.inl ⟨by omega, rfl⟩⟩

/-! ## Trimming the front of the log -/

theorem vget_drop {α : Type} (v : List α) (k : Nat) (j : Int) :
    vget (v.drop k) j = if 0 ≤ j then vget v (k + j) else none := by
  unfold vget
  by_cases hj : 0 ≤ j
  · have h1 : (0 : Int) ≤ k + j := by omega
    have h2 : ((k : Int) + j).toNat = k + j.toNat := by omega
    simp only [hj, h1, if_true, h2, List.getElem?_drop]
  · simp [hj]

theorem log_ok_drop {log : List (log_entry Cmd)} (h : log_ok log) {k : Nat}
    (hk : k < log.length) :
    log_ok (log.drop k) ∧ base_index (log.drop k) = base_index log + k ∧
    last_index (log.drop k) = last_index log := by
  have hne : log.drop k ≠ [] := by
    intro h0
    have := congrArg List.length h0
    simp only [List.length_drop, List.length_nil] at this
    omega
  have hb : base_index (log.drop k) = base_index log + k := by
    have hk0 : (log.drop k)[0]? = some log[k] := by
      rw [List.getElem?_drop]
      exact List.getElem?_eq_getElem hk
    have hh : (log.drop k).head? = some log[k] := by
      rw [List.head?_eq_getElem?]
      exact hk0
    unfold base_index
    rw [hh]
    exact h.2 k _ (List.getElem?_eq_getElem hk)
  refine ⟨⟨hne, ?_⟩, hb, ?_⟩
  · intro j e hj
    rw [List.getElem?_drop] at hj
    have := h.2 (k + j) e hj
    rw [hb]
    push_cast at this
    omega
  · unfold last_index
    rw [List.getLast?_drop, if_neg (by omega)]

theorem entry_at_drop {log : List (log_entry Cmd)} (h : log_ok log) {k : Nat}
    (hk : k < log.length) (i : Int) :
    entry_at (log.drop k) i =
      if base_index log + k ≤ i then entry_at log i else none := by
  obtain ⟨hok, hb, -⟩ := log_ok_drop h hk
  rw [entry_at_eq_vget hok, entry_at_eq_vget h, hb, vget_drop]
  by_cases hi : base_index log + k ≤ i
  · have h0 : 0 ≤ i - (base_index log + k) := by omega
    have hc : (k : Int) + (i - (base_index log + k)) = i - base_index log := by omega
    rw [if_pos h0, if_pos hi, hc]
  · have h0 : ¬ 0 ≤ i - (base_index log + k) := by omega
    rw [if_neg h0, if_neg hi]

theorem head_drop_eq_entry_at {log : List (log_entry Cmd)} (h : log_ok log) {i : Int}
    (h1 : base_index log ≤ i) (h2 : i ≤ last_index log) :
    (log.drop (i - base_index log).toNat).head? = entry_at log i ∧
    ∃ e, entry_at log i = some e := by
  have hlen := last_index_add_one h
  obtain ⟨e, he⟩ := vget_some_of_lt (v := log) (j := i - base_index log) (by omega)
    (by omega)
  rw [entry_at_eq_vget h, he]
  refine ⟨?_, e, rfl⟩
  rw [List.head?_eq_getElem?, List.getElem?_drop]
  have := (vget_eq_some he).2
  simpa using this

theorem volatile_ok_of_same_data {s s1 : raft Cmd} (hd : same_data s s1)
    (h : volatile_ok s) : volatile_ok s1 := by
  obtain ⟨e1, e2, e3, -, -⟩ := hd
  unfold volatile_ok
  rw [e1, e2, e3]
  exact h

theorem base_index_append {log : List (log_entry Cmd)} (h : log ≠ [])
    (more : List (log_entry Cmd)) : base_index (log ++ more) = base_index log := by
  cases log with
  | nil => exact absurd rfl h
  | cons a l => rfl

theorem last_index_append {log more : List (log_entry Cmd)} {e : log_entry Cmd}
    (h : more.getLast? = some e) : last_index (log ++ more) = e.index := by
  have hne : more ≠ [] := by
    intro h0
    simp [h0] at h
  unfold last_index
  rw [List.getLast?_append_of_ne_nil _ hne, h]

theorem base_index_take {log : List (log_entry Cmd)} {k : Nat} (hk : 0 < k) :
    base_index (log.take k) = base_index log := by
  cases log with
  | nil => simp
  | cons a l =>
    cases k with
    | zero => omega
    | succ k => rfl

/-! ## C11 to C14: the volatile-state invariant and the monotone fields -/

theorem operate_timeout [Inhabited Cmd] {s s1 : raft Cmd} {now : Nat}
    (h : s.operate (.rpc (.timeout now)) = some s1) :
    ∃ jobs, run_background_election now s = some (s1, jobs) := by
  simp only [raft.operate, raft.step, Option.map_eq_some'] at h
  obtain ⟨⟨s2, jobs⟩, h, rfl⟩ := h
  exact ⟨jobs, h⟩

theorem operate_request_vote [Inhabited Cmd] {s s1 : raft Cmd} {now : Nat}
    {arg : request_vote_args} (h : s.operate (.rpc (.request_vote now arg)) = some s1) :
    ∃ reply, request_vote now s arg = some (s1, reply) := by
  simp only [raft.operate, raft.step, Option.map_eq_some'] at h
  obtain ⟨⟨s2, reply⟩, h, rfl⟩ := h
  exact ⟨reply, h⟩

theorem operate_append_entries [Inhabited Cmd] {s s1 : raft Cmd} {now : Nat} {ok : Bool}
    {arg : append_entries_args Cmd}
    (h : s.operate (.rpc (.append_entries now ok arg)) = some s1) :
    ∃ reply, append_entries now ok s arg = some (s1, reply) := by
  simp only [raft.operate, raft.step, Option.map_eq_some'] at h
  obtain ⟨⟨s2, reply⟩, h, rfl⟩ := h
  exact ⟨reply, h⟩

theorem operate_install_snapshot [Inhabited Cmd] {s s1 : raft Cmd} {now : Nat}
    {arg : install_snapshot_args}
    (h : s.operate (.rpc (.install_snapshot now arg)) = some s1) :
    ∃ reply, install_snapshot now s arg = some (s1, reply) := by
  simp only [raft.operate, raft.step, Option.map_eq_some'] at h
  obtain ⟨⟨s2, reply⟩, h, rfl⟩ := h
  exact ⟨reply, h⟩

theorem operate_vote_reply [Inhabited Cmd] {s s1 : raft Cmd} {target : Int}
    {arg : request_vote_args} {reply : request_vote_reply}
    (h : s.operate (.rpc (.vote_reply target arg reply)) = some s1) :
    ∃ jobs, handle_request_vote_reply s target arg reply = some (s1, jobs) := by
  simp only [raft.operate, raft.step, Option.map_eq_some'] at h
  obtain ⟨⟨s2, jobs⟩, h, rfl⟩ := h
  exact ⟨jobs, h⟩

theorem operate_new_command [Inhabited Cmd] {s s1 : raft Cmd} {ok : Bool} {cmd : Cmd}
    (h : s.operate (.new_command ok cmd) = some s1) :
    ∃ r, new_command ok s cmd = some (s1, r) := by
  simp only [raft.operate, Option.map_eq_some'] at h
  obtain ⟨⟨s2, r⟩, h, rfl⟩ := h
  exact ⟨r, h⟩

theorem operate_save_snapshot [Inhabited Cmd] {s s1 : raft Cmd}
    {snap : List (sm_call Cmd) → List Char} (h : s.operate (.save_snapshot snap) = some s1) :
    ∃ r, save_snapshot snap s = some (s1, r) := by
  simp only [raft.operate, Option.map_eq_some'] at h
  obtain ⟨⟨s2, r⟩, h, rfl⟩ := h
  exact ⟨r, h⟩

/-- C14: `current_term` is non-decreasing: after every operation of a replica (the three RPC
handlers, the three reply handlers, an election-timer expiry, `new_command`,
`save_snapshot`, an applier step), in every state and with every argument, `current_term`
is at least what it was. -/
theorem current_term_monotone [Inhabited Cmd] (s s1 : raft Cmd) (o : operation Cmd)
    (h : s.operate o = some s1) : s.current_term ≤ s1.current_term := by
  cases o with
  | rpc o =>
    cases o with
    | timeout now =>
      obtain ⟨jobs, h⟩ := operate_timeout h
      exact (run_background_election_inv h).2
    | request_vote now arg =>
      obtain ⟨reply, h⟩ := operate_request_vote h
      obtain ⟨-, -, -, -, -, -, ht, -⟩ := request_vote_frame h
      rw [ht]
      split_ifs <;> omega
    | append_entries now ok arg =>
      obtain ⟨reply, h⟩ := operate_append_entries h
      obtain ⟨-, -, -, -, hst, hnst⟩ := append_entries_frame h
      by_cases h1 : arg.term < s.current_term
      · rw [(hst h1).1]
      · rw [(hnst h1).1]
        omega
    | install_snapshot now arg =>
      obtain ⟨reply, h⟩ := operate_install_snapshot h
      rcases (install_snapshot_inv h).2 with ⟨-, rfl⟩ | ⟨h1, -, ht, -⟩
      · exact le_refl _
      · rw [ht]
        omega
    | vote_reply target arg reply =>
      obtain ⟨jobs, h⟩ := operate_vote_reply h
      rw [(handle_request_vote_reply_frame h).2.1]
      split_ifs <;> omega
    | append_reply target arg reply =>
      rw [(handle_append_entries_reply_frame h).2.2.2.2.2.2.1]
      split_ifs <;> omega
    | snapshot_reply target arg reply =>
      rw [(handle_install_snapshot_reply_frame h).2.1]
      split_ifs <;> omega
  | new_command ok cmd =>
    obtain ⟨r, h⟩ := operate_new_command h
    rcases new_command_inv h with ⟨-, rfl, -⟩ | ⟨-, -, -, -, -, -, -, -, ht, -⟩
    · exact le_refl _
    · rw [ht]
  | save_snapshot snap =>
    obtain ⟨r, h⟩ := operate_save_snapshot h
    obtain ⟨-, -, -, -, -, -, ⟨ht, -⟩, -⟩ := save_snapshot_inv h
    rw [ht]
  | applier =>
    obtain ⟨-, -, -, ⟨ht, -⟩, -⟩ := run_background_apply_inv h
    rw [ht]

/-- Witness of C14: the election-timer expiry on a fresh replica raises the term from 0
to 1. -/
theorem current_term_monotone_witness :
    (raft.fresh 3 0 0 : raft Nat).operate (.rpc (.timeout 0)) = some candidate_example ∧
    (raft.fresh 3 0 0 : raft Nat).current_term ≤ candidate_example.current_term :=
  ⟨by decide,
    current_term_monotone (raft.fresh 3 0 0) candidate_example (.rpc (.timeout 0)) (by decide)⟩

theorem indexed_from_getElem {l : List (log_entry Cmd)} {b : Int}
    (h : indexed_from b l = true) (k : Nat) (e : log_entry Cmd) (hk : l[k]? = some e) :
    e.index = b + k := by
  induction l generalizing b k with
  | nil => simp at hk
  | cons a l ih =>
    simp only [indexed_from, Bool.and_eq_true, decide_eq_true_eq] at h
    cases k with
    | zero =>
      simp only [List.getElem?_cons_zero, Option.some.injEq] at hk
      subst hk
      simp [h.1]
    | succ k =>
      simp only [List.getElem?_cons_succ] at hk
      have := ih h.2 k hk
      push_cast
      omega

theorem log_ok_of_indexed {log : List (log_entry Cmd)} (hne : log ≠ [])
    (h : indexed_from (base_index log) log = true) : log_ok log :=
  ⟨hne, indexed_from_getElem h⟩

/-- C11 fails on the code as stated: on the follower `applied_example` (log entries 0 to 2,
`lastApplied = commitIndex = 2`, which satisfies the invariant) an InstallSnapshot whose last
included entry (1, term 9) is not in the log replaces the log by the sentinel of index 1
while `commitIndex` stays 2, and the earlier AppendEntries `stale_append_example` cuts the
log back to entry 1 while `commitIndex` stays 2: in both cases `commitIndex` exceeds the last
log index afterwards. -/
theorem volatile_invariant_broken :
    log_ok applied_example.log ∧ volatile_ok applied_example ∧
    (∃ s1, applied_example.operate (.rpc (.install_snapshot 0 foreign_snapshot_example))
        = some s1 ∧ ¬ volatile_ok s1) ∧
    (∃ s1, applied_example.operate (.rpc (.append_entries 0 true stale_append_example))
        = some s1 ∧ ¬ volatile_ok s1) := by
  refine ⟨log_ok_of_indexed (by decide) (by decide), by unfold volatile_ok; decide, ?_, ?_⟩
  · have hrun : (applied_example.operate
        (.rpc (.install_snapshot 0 foreign_snapshot_example))).isSome = true := by decide
    obtain ⟨s1, hs1⟩ := Option.isSome_iff_exists.mp hrun
    have hv : ((applied_example.operate
        (.rpc (.install_snapshot 0 foreign_snapshot_example))).map fun r =>
        (r.commitIndex, last_index r.log)) = some (2, 1) := by decide
    rw [hs1] at hv
    simp only [Option.map_some', Option.some.injEq, Prod.mk.injEq] at hv
    refine ⟨s1, hs1, fun hok => ?_⟩
    have := hok.2.2
    rw [hv.1, hv.2] at this
    exact absurd this (by decide)
  · have hrun : (applied_example.operate
        (.rpc (.append_entries 0 true stale_append_example))).isSome = true := by decide
    obtain ⟨s1, hs1⟩ := Option.isSome_iff_exists.mp hrun
    have hv : ((applied_example.operate
        (.rpc (.append_entries 0 true stale_append_example))).map fun r =>
        (r.commitIndex, last_index r.log)) = some (2, 1) := by decide
    rw [hs1] at hv
    simp only [Option.map_some', Option.some.injEq, Prod.mk.injEq] at hv
    refine ⟨s1, hs1, fun hok => ?_⟩
    have := hok.2.2
    rw [hv.1, hv.2] at this
    exact absurd this (by decide)

/-- C13 fails on the code as stated: on the follower `applied_example`
(`lastApplied = 2`, base 0, invariant satisfied) the InstallSnapshot `old_snapshot_example`
with `last_index = 1 ≥ base` sets `lastApplied` to 1. -/
theorem last_applied_decreases :
    volatile_ok applied_example ∧
    base_index applied_example.log ≤ old_snapshot_example.last_index ∧
    ∃ s1, applied_example.operate (.rpc (.install_snapshot 0 old_snapshot_example)) = some s1 ∧
      s1.lastApplied < applied_example.lastApplied := by
  refine ⟨by unfold volatile_ok; decide, by decide, ?_⟩
  have hrun : (applied_example.operate
      (.rpc (.install_snapshot 0 old_snapshot_example))).isSome = true := by decide
  obtain ⟨s1, hs1⟩ := Option.isSome_iff_exists.mp hrun
  have hv : ((applied_example.operate
      (.rpc (.install_snapshot 0 old_snapshot_example))).map fun r =>
      r.lastApplied) = some 1 := by decide
  rw [hs1] at hv
  simp only [Option.map_some', Option.some.injEq] at hv
  exact ⟨s1, hs1, by rw [hv]; decide⟩

theorem last_index_of_append_entries {s : raft Cmd} {arg : append_entries_args Cmd}
    (hinv : s.commitIndex ≤ last_index s.log) (hadm : reaches_commit s arg)
    (log1 : List (log_entry Cmd))
    (hl : log1 = (if arg.entries.isEmpty then s.log
      else if arg.prevLogIndex < last_index s.log then
        s.log.take (arg.prevLogIndex + 1 - base_index s.log).toNat ++ arg.entries
      else s.log ++ arg.entries)) :
    s.commitIndex ≤ last_index log1 := by
  by_cases e1 : arg.entries.isEmpty = true
  · rw [hl, if_pos e1]
    exact hinv
  · rw [if_neg e1] at hl
    have hne : arg.entries ≠ [] := by simpa using e1
    obtain ⟨e, he⟩ := getLast_some_of_ne_nil hne
    have := hadm e he
    split_ifs at hl
    · rw [hl, last_index_append he]
      exact this
    · rw [hl, last_index_append he]
      exact this

/-- C13 as amended: `lastApplied` does not decrease under any operation with any argument
other than an `install_snapshot` with `arg.term ≥ current_term` and
`last_index < lastApplied`; every `install_snapshot` with `arg.term ≥ current_term` sets
`lastApplied` to `last_index`. -/
theorem last_applied_monotone [Inhabited Cmd] (s s1 : raft Cmd) (o : operation Cmd)
    (h : s.operate o = some s1) :
    (keeps_applied s o → s.lastApplied ≤ s1.lastApplied) ∧
    (∀ (now : Nat) (arg : install_snapshot_args), o = .rpc (.install_snapshot now arg) →
      arg.term ≥ s.current_term → s1.lastApplied = arg.last_index) := by
  cases o with
  | rpc o =>
    cases o with
    | timeout now =>
      obtain ⟨jobs, h⟩ := operate_timeout h
      refine ⟨fun _ => ?_, fun _ _ ho => by cases ho⟩
      rw [(run_background_election_inv h).1.2.2.1]
    | request_vote now arg =>
      obtain ⟨reply, h⟩ := operate_request_vote h
      refine ⟨fun _ => ?_, fun _ _ ho => by cases ho⟩
      rw [(request_vote_frame h).2.2.2.1]
    | append_entries now ok arg =>
      obtain ⟨reply, h⟩ := operate_append_entries h
      refine ⟨fun _ => ?_, fun _ _ ho => by cases ho⟩
      rw [(append_entries_frame h).1]
    | install_snapshot now arg =>
      obtain ⟨reply, h⟩ := operate_install_snapshot h
      constructor
      · intro hadm
        rcases (install_snapshot_inv h).2 with ⟨-, rfl⟩ | ⟨h1, -, -, -, -, -, -, ha, -⟩
        · exact le_refl _
        · rw [ha]
          rcases hadm with hst | hge
          · exact absurd hst h1
          · exact hge
      · intro now2 arg2 ho hterm
        cases ho
        rcases (install_snapshot_inv h).2 with ⟨h1, -⟩ | ⟨-, -, -, -, -, -, -, ha, -⟩
        · omega
        · exact ha
    | vote_reply target arg reply =>
      obtain ⟨jobs, h⟩ := operate_vote_reply h
      refine ⟨fun _ => ?_, fun _ _ ho => by cases ho⟩
      rw [(handle_request_vote_reply_frame h).1.2.2.1]
    | append_reply target arg reply =>
      refine ⟨fun _ => ?_, fun _ _ ho => by cases ho⟩
      rw [(handle_append_entries_reply_frame h).2.1]
    | snapshot_reply target arg reply =>
      refine ⟨fun _ => ?_, fun _ _ ho => by cases ho⟩
      rw [(handle_install_snapshot_reply_frame h).1.2.2.1]
  | new_command ok cmd =>
    obtain ⟨r, h⟩ := operate_new_command h
    refine ⟨fun _ => ?_, fun _ _ ho => by cases ho⟩
    rcases new_command_inv h with ⟨-, rfl, -⟩ | ⟨-, -, -, -, -, ha, -⟩
    · exact le_refl _
    · rw [ha]
  | save_snapshot snap =>
    obtain ⟨r, h⟩ := operate_save_snapshot h
    refine ⟨fun _ => ?_, fun _ _ ho => by cases ho⟩
    rw [(save_snapshot_inv h).2.2.2.2.1]
  | applier =>
    refine ⟨fun _ => ?_, fun _ _ ho => by cases ho⟩
    rcases (run_background_apply_inv h).2.2.2.2 with ⟨-, rfl⟩ | ⟨hlt, ha, -⟩
    · exact le_refl _
    · rw [ha]
      omega

/-- Witness of C13 as amended: an applier step raises `lastApplied` from 0 to 1, and the
InstallSnapshot `old_snapshot_example` sets `lastApplied` to its `last_index`. -/
theorem last_applied_monotone_witness :
    append_example_result.1.operate .applier = some applied_once_example ∧
    keeps_applied append_example_result.1 (operation.applier : operation Nat) ∧
    append_example_result.1.lastApplied ≤ applied_once_example.lastApplied ∧
    applied_example.operate (.rpc (.install_snapshot 0 old_snapshot_example)) =
      some trimmed_example ∧
    old_snapshot_example.term ≥ applied_example.current_term ∧
    trimmed_example.lastApplied = old_snapshot_example.last_index :=
  ⟨by decide, trivial,
    (last_applied_monotone append_example_result.1 applied_once_example .applier
      (by decide)).1 trivial,
    by decide, by decide,
    (last_applied_monotone applied_example trimmed_example
      (.rpc (.install_snapshot 0 old_snapshot_example)) (by decide)).2 0
      old_snapshot_example rfl (by decide)⟩

theorem create_inv [Inhabited Cmd] {n : Nat} {idx : Int} {now : Nat}
    {restored : Option (raft_storage Cmd)} {s : raft Cmd}
    (h : raft.create n idx now restored = some s) :
    s.commitIndex = base_index s.log ∧ s.lastApplied = base_index s.log ∧
    s.role = .follower ∧
    s.log = (match restored with
      | some st => st.log
      | none => [⟨0, 0, default⟩]) := by
  unfold raft.create at h
  simp only at h
  split at h
  · exact absurd h (by simp)
  · rename_i front hf
    simp only [Option.some.injEq] at h
    subst h
    have hb := base_index_eq_of_head hf
    refine ⟨hb.symm, hb.symm, rfl, ?_⟩
    cases restored <;> rfl

/-- C11 as amended: the volatile-state invariant `base ≤ lastApplied ≤ commitIndex ≤` last
log index holds in the initial state (fresh, or restored with a log that satisfies the log
structure invariant) and, on states that satisfy the log structure invariant, is preserved
by `new_command`, `save_snapshot`, `request_vote`, the three reply handlers, an
election-timer expiry and an applier step with any argument, by `append_entries` for every
argument whose entries are empty or end with an entry of index `≥ commitIndex`, and by
`install_snapshot` for every argument of a stale term, or whose last included entry is in
the log, or with `last_index ≥ commitIndex`. -/
theorem volatile_invariant [Inhabited Cmd] :
    (∀ (n : Nat) (idx : Int) (now : Nat),
      raft.create n idx now none = some (raft.fresh n idx now : raft Cmd) ∧
      volatile_ok (raft.fresh n idx now : raft Cmd)) ∧
    (∀ (n : Nat) (idx : Int) (now : Nat) (st : raft_storage Cmd) (s : raft Cmd),
      raft.create n idx now (some st) = some s → log_ok st.log → volatile_ok s) ∧
    ∀ (s s1 : raft Cmd) (o : operation Cmd), log_ok s.log → volatile_ok s →
      keeps_volatile s o → s.operate o = some s1 → volatile_ok s1 := by
  refine ⟨fun n idx now => ⟨rfl, ?_⟩, ?_, ?_⟩
  · unfold volatile_ok raft.fresh base_index last_index
    simp
  · intro n idx now st s h hlog
    obtain ⟨hc, ha, -, hl⟩ := create_inv h
    simp only at hl
    rw [← hl] at hlog
    have := last_index_add_one hlog
    have hpos : 0 < s.log.length := List.length_pos.mpr hlog.1
    unfold volatile_ok
    rw [hc, ha]
    omega
  · intro s s1 o hlog hinv hadm h
    have hlen := last_index_add_one hlog
    obtain ⟨hv1, hv2, hv3⟩ := hinv
    cases o with
    | rpc o =>
      cases o with
      | timeout now =>
        obtain ⟨jobs, h⟩ := operate_timeout h
        exact volatile_ok_of_same_data (run_background_election_inv h).1 ⟨hv1, hv2, hv3⟩
      | request_vote now arg =>
        obtain ⟨reply, h⟩ := operate_request_vote h
        obtain ⟨e1, e2, e3, e4, e5, -⟩ := request_vote_frame h
        exact volatile_ok_of_same_data ⟨e1, e3, e4, e2, e5⟩ ⟨hv1, hv2, hv3⟩
      | append_entries now ok arg =>
        obtain ⟨reply, h⟩ := operate_append_entries h
        have ha := (append_entries_frame h).1
        rcases append_entries_inv h with ⟨-, hl, hc, -⟩ | ⟨-, -, hne, -, ⟨e, he, -⟩, hl, hc⟩
        · unfold volatile_ok
          rw [hl, hc, ha]
          exact ⟨hv1, hv2, hv3⟩
        · have hlast := last_index_of_append_entries hv3 hadm s1.log hl
          have hbase : base_index s1.log = base_index s.log := by
            rw [hl]
            have hk := (vget_lt_length he).1
            have hk1 : 0 < (arg.prevLogIndex + 1 - base_index s.log).toNat := by omega
            have htake : s.log.take (arg.prevLogIndex + 1 - base_index s.log).toNat ≠ [] := by
              intro h0
              have := congrArg List.length h0
              simp only [List.length_take, List.length_nil] at this
              have hpos : 0 < s.log.length := List.length_pos.mpr hne
              omega
            split_ifs
            · rfl
            · rw [base_index_append htake, base_index_take hk1]
            · rw [base_index_append hne]
          unfold volatile_ok
          rw [hbase, ha, hc]
          refine ⟨hv1, ?_, ?_⟩
          · split_ifs <;> omega
          · split_ifs <;> omega
      | install_snapshot now arg =>
        obtain ⟨reply, h⟩ := operate_install_snapshot h
        rcases (install_snapshot_inv h).2 with ⟨-, rfl⟩ |
          ⟨h1, -, -, -, -, -, -, ha, hc, hcase⟩
        · exact ⟨hv1, hv2, hv3⟩
        · unfold volatile_ok
          rw [ha, hc]
          rcases hcase with ⟨hle, ⟨e, he, -⟩, hl⟩ | ⟨hno, hl⟩
          · have hr := vget_lt_length he
            obtain ⟨-, hb, hla⟩ := log_ok_drop hlog
              (k := (arg.last_index - base_index s.log).toNat) (by omega)
            rw [hl, hb, hla]
            refine ⟨by omega, le_max_right _ _, max_le hv3 hle⟩
          · have hcl : s.commitIndex ≤ arg.last_index := by
              rcases hadm with hst | ⟨e, he, het⟩ | hge
              · exact absurd hst h1
              · rw [entry_at_eq_vget hlog] at he
                have hr := vget_lt_length he
                rcases hno with hgt | ⟨e2, he2, hne2⟩
                · omega
                · rw [he] at he2
                  cases he2
                  exact absurd het.symm hne2
              · exact hge
            rw [hl]
            simp only [base_index, last_index, List.head?_cons, List.getLast?_singleton]
            exact ⟨le_refl _, le_max_right _ _, max_le hcl (le_refl _)⟩
      | vote_reply target arg reply =>
        obtain ⟨jobs, h⟩ := operate_vote_reply h
        exact volatile_ok_of_same_data (handle_request_vote_reply_frame h).1 ⟨hv1, hv2, hv3⟩
      | append_reply target arg reply =>
        obtain ⟨e1, e2, -, -, e5, e6, -⟩ := handle_append_entries_reply_frame h
        unfold volatile_ok
        rw [e1, e2]
        refine ⟨hv1, by omega, ?_⟩
        rcases e6 with e6 | ⟨e, he⟩
        · rw [e6]
          exact hv3
        · have hr := vget_lt_length he
          omega
      | snapshot_reply target arg reply =>
        exact volatile_ok_of_same_data (handle_install_snapshot_reply_frame h).1
          ⟨hv1, hv2, hv3⟩
    | new_command ok cmd =>
      obtain ⟨r, h⟩ := operate_new_command h
      rcases new_command_inv h with ⟨-, rfl, -⟩ | ⟨-, hne, -, hl, hc, ha, -⟩
      · exact ⟨hv1, hv2, hv3⟩
      · unfold volatile_ok
        rw [hl, hc, ha, base_index_append hne, last_index_append (List.getLast?_singleton _)]
        exact ⟨hv1, hv2, by simp only; omega⟩
    | save_snapshot snap =>
      obtain ⟨r, h⟩ := operate_save_snapshot h
      obtain ⟨-, -, -, hc, ha, -, -, hcase⟩ := save_snapshot_inv h
      unfold volatile_ok
      rw [hc, ha]
      rcases hcase with ⟨-, -, -, hl⟩ | ⟨hgt, -⟩
      · obtain ⟨-, hb, hla⟩ := log_ok_drop hlog
          (k := (s.lastApplied - base_index s.log).toNat) (by omega)
        rw [hl, hb, hla]
        exact ⟨by omega, hv2, hv3⟩
      · omega
    | applier =>
      obtain ⟨hl, hc, -, -, hcase⟩ := run_background_apply_inv h
      rcases hcase with ⟨-, rfl⟩ | ⟨hlt, ha, -⟩
      · exact ⟨hv1, hv2, hv3⟩
      · unfold volatile_ok
        rw [hl, hc, ha]
        exact ⟨by omega, le_refl _, hv3⟩

/-- Witness of C11 as amended: the follower `applied_example` handles the InstallSnapshot
`old_snapshot_example`, whose last included entry (1, term 1) is in its log. -/
theorem volatile_invariant_witness :
    log_ok applied_example.log ∧ volatile_ok applied_example ∧
    keeps_volatile applied_example (.rpc (.install_snapshot 0 old_snapshot_example)) ∧
    applied_example.operate (.rpc (.install_snapshot 0 old_snapshot_example)) =
      some trimmed_example ∧
    volatile_ok trimmed_example ∧
    volatile_ok (raft.fresh 3 0 0 : raft Nat) :=
  have hlog : log_ok applied_example.log := log_ok_of_indexed (by decide) (by decide)
  have hinv : volatile_ok applied_example := by unfold volatile_ok; decide
  have hadm : keeps_volatile applied_example
      (.rpc (.install_snapshot 0 old_snapshot_example)) :=
    Or.inr (Or.inl ⟨⟨1, 1, 7⟩, by decide, by decide⟩)
  ⟨hlog, hinv, hadm, by decide,
    volatile_invariant.2.2 applied_example trimmed_example
      (.rpc (.install_snapshot 0 old_snapshot_example)) hlog hinv hadm (by decide),
    (volatile_invariant.1 3 0 0).2⟩

/-! ## C15: `new_command` -/

/-- C15: `new_command` on a replica that is not leader returns none and leaves the replica
unchanged; whenever it returns, the result is none exactly when the role is not leader, and
on a leader the result is `(current_term, last log index + 1)`, the new log is the old log
followed by the entry `(last log index + 1, current_term, cmd)`, and `commitIndex` and
`lastApplied` are unchanged; on a leader with a non-empty log and its own slot in
`nextIndex` and `matchIndex` the call does return. -/
theorem new_command_contract (ok : Bool) (s : raft Cmd) (cmd : Cmd) :
    (s.role ≠ .leader → new_command ok s cmd = some (s, none)) ∧
    (∀ (s1 : raft Cmd) (r : Option (Int × Int)), new_command ok s cmd = some (s1, r) →
      (r = none ↔ s.role ≠ .leader) ∧
      (s.role = .leader →
        r = some (s.current_term, last_index s.log + 1) ∧
        s1.log = s.log ++ [⟨last_index s.log + 1, s.current_term, cmd⟩] ∧
        s1.commitIndex = s.commitIndex ∧ s1.lastApplied = s.lastApplied)) ∧
    (s.role = .leader → s.log ≠ [] → 0 ≤ s.idx → s.idx < s.nextIndex.length →
      s.idx < s.matchIndex.length → ∃ s1, new_command ok s cmd =
        some (s1, some (s.current_term, last_index s.log + 1))) := by
  refine ⟨fun h1 => ?_, fun s1 r h => ?_, fun hrole hne h0 hn hm => ?_⟩
  · unfold new_command
    rw [if_pos h1]
  · rcases new_command_inv h with ⟨h1, -, rfl⟩ | ⟨h1, -, hr, hl, hc, ha, -⟩
    · exact ⟨⟨fun _ => h1, fun _ => rfl⟩, fun h2 => absurd h2 h1⟩
    · refine ⟨⟨fun hn => ?_, fun hn => absurd h1 hn⟩, fun _ => ⟨hr, hl, hc, ha⟩⟩
      rw [hr] at hn
      exact absurd hn (by simp)
  · obtain ⟨back, hb⟩ := getLast_some_of_ne_nil hne
    unfold new_command
    rw [if_neg (not_not.mpr hrole)]
    simp only [hb]
    have hni : ∃ ni, vset s.nextIndex s.idx (back.index + 1 + 1) = some ni := by
      unfold vset
      rw [if_pos ⟨h0, by omega⟩]
      exact ⟨_, rfl⟩
    have hmi : ∃ mi, vset s.matchIndex s.idx (back.index + 1) = some mi := by
      unfold vset
      rw [if_pos ⟨h0, by omega⟩]
      exact ⟨_, rfl⟩
    obtain ⟨ni, hni⟩ := hni
    obtain ⟨mi, hmi⟩ := hmi
    simp only [hni, hmi]
    rw [last_index_eq_of_getLast hb]
    exact ⟨_, rfl⟩

/-- Witness of C15: a second `new_command` on the leader `leader_submit_example`, and
`new_command` on the follower `follower_example`. -/
theorem new_command_contract_witness :
    follower_example.role ≠ .leader ∧
    new_command true follower_example 9 = some (follower_example, none) ∧
    new_command true leader_submit_example 9 = some submit_example ∧
    leader_submit_example.role = .leader ∧
    (submit_example.2 = none ↔ leader_submit_example.role ≠ .leader) ∧
    submit_example.2 =
      some (leader_submit_example.current_term, last_index leader_submit_example.log + 1) ∧
    submit_example.1.log = leader_submit_example.log ++
      [⟨last_index leader_submit_example.log + 1, leader_submit_example.current_term, 9⟩] ∧
    submit_example.1.commitIndex = leader_submit_example.commitIndex ∧
    submit_example.1.lastApplied = leader_submit_example.lastApplied :=
  have h := (new_command_contract true leader_submit_example 9).2.1 submit_example.1
    submit_example.2 (by decide)
  ⟨by decide, (new_command_contract true follower_example 9).1 (by decide), by decide,
    by decide, h.1, (h.2 (by decide)).1, (h.2 (by decide)).2.1, (h.2 (by decide)).2.2.1,
    (h.2 (by decide)).2.2.2⟩

/-! ## C17 and C18: terms of requests and replies -/

theorem request_vote_returns (now : Nat) (s : raft Cmd) (arg : request_vote_args)
    (hlog : s.log ≠ []) : ∃ s1 reply, request_vote now s arg = some (s1, reply) := by
  cases h : request_vote now s arg with
  | some p => exact ⟨p.1, p.2, rfl⟩
  | none =>
    exfalso
    obtain ⟨back, hb⟩ := getLast_some_of_ne_nil hlog
    unfold request_vote at h
    simp only [setFollower] at h
    split_ifs at h
    all_goals simp [hb] at h
    all_goals split_ifs at h

/-- C18: a request from a stale term is rejected without effect: when
`arg.term < current_term`, each of `request_vote`, `append_entries` and `install_snapshot`
returns, the reply carries `term = current_term` and (for the first two) `vote_grant` resp.
`success = false`, and `current_term`, `vote_for`, `role`, the log, the snapshot bytes,
`commitIndex`, `lastApplied` and the trace of state-machine calls are unchanged. -/
theorem stale_request_rejected [Inhabited Cmd] (s : raft Cmd) :
    (∀ (now : Nat) (arg : request_vote_args), arg.term < s.current_term →
      ∃ s1 reply, request_vote now s arg = some (s1, reply) ∧
        reply.term = s.current_term ∧ reply.vote_grant = false ∧
        same_election s s1 ∧ same_data s s1) ∧
    (∀ (now : Nat) (ok : Bool) (arg : append_entries_args Cmd), arg.term < s.current_term →
      ∃ s1 reply, append_entries now ok s arg = some (s1, reply) ∧
        reply.term = s.current_term ∧ reply.success = false ∧
        same_election s s1 ∧ same_data s s1) ∧
    (∀ (now : Nat) (arg : install_snapshot_args), arg.term < s.current_term →
      ∃ s1 reply, install_snapshot now s arg = some (s1, reply) ∧
        reply.term = s.current_term ∧ same_election s s1 ∧ same_data s s1) := by
  refine ⟨fun now arg h1 => ?_, fun now ok arg h1 => ?_, fun now arg h1 => ?_⟩
  · refine ⟨{ s with pre_time := now }, ⟨s.current_term, false⟩, ?_, rfl, rfl, ?_, ?_⟩
    · rw [request_vote, if_pos h1]
    · exact ⟨rfl, rfl, rfl⟩
    · exact ⟨rfl, rfl, rfl, rfl, rfl⟩
  · refine ⟨{ s with pre_time := now }, ⟨s.current_term, false⟩, ?_, rfl, rfl, ?_, ?_⟩
    · rw [append_entries, if_pos h1]
    · exact ⟨rfl, rfl, rfl⟩
    · exact ⟨rfl, rfl, rfl, rfl, rfl⟩
  · refine ⟨{ s with pre_time := now }, ⟨s.current_term⟩, ?_, rfl, ?_, ?_⟩
    · rw [install_snapshot, if_pos h1]
    · exact ⟨rfl, rfl, rfl⟩
    · exact ⟨rfl, rfl, rfl, rfl, rfl⟩

/-- Witness of C18: the candidate `candidate_example` of term 1 receives requests of
term 0. -/
theorem stale_request_rejected_witness :
    (0 : Int) < candidate_example.current_term ∧
    (∃ s1 reply, request_vote 5 candidate_example ⟨0, 2, 0, 0⟩ = some (s1, reply) ∧
      reply.term = candidate_example.current_term ∧ reply.vote_grant = false ∧
      same_election candidate_example s1 ∧ same_data candidate_example s1) ∧
    (∃ s1 reply, append_entries 5 true candidate_example ⟨0, 2, 0, 0, [], 0⟩ =
        some (s1, reply) ∧
      reply.term = candidate_example.current_term ∧ reply.success = false ∧
      same_election candidate_example s1 ∧ same_data candidate_example s1) ∧
    (∃ s1 reply, install_snapshot 5 candidate_example ⟨0, 2, 0, 0, []⟩ = some (s1, reply) ∧
      reply.term = candidate_example.current_term ∧
      same_election candidate_example s1 ∧ same_data candidate_example s1) :=
  ⟨by decide,
    (stale_request_rejected candidate_example).1 5 ⟨0, 2, 0, 0⟩ (by decide),
    (stale_request_rejected candidate_example).2.1 5 true ⟨0, 2, 0, 0, [], 0⟩ (by decide),
    (stale_request_rejected candidate_example).2.2 5 ⟨0, 2, 0, 0, []⟩ (by decide)⟩

/-- C17: step-down on a higher term. When the incoming term is greater than
`current_term`, each of `request_vote`, `append_entries`, `install_snapshot` and the three
reply handlers leaves the replica, whatever its role, a follower of the incoming term with
no vote, except that `request_vote` leaves the vote with the candidate when it grants;
`append_entries` and `install_snapshot` also make a candidate a follower when
`arg.term = current_term`. The reply handlers always return in that case, and the RPC
handlers return on a replica whose log satisfies the log structure invariant (for
`base ≤ prevLogIndex` resp. `base ≤ last_index`). -/
theorem step_down_on_higher_term [Inhabited Cmd] (s : raft Cmd) :
    (∀ (now : Nat) (arg : request_vote_args) (s1 : raft Cmd) (reply : request_vote_reply),
      request_vote now s arg = some (s1, reply) → arg.term > s.current_term →
      s1.role = .follower ∧ s1.current_term = arg.term ∧
      s1.vote_for = (if reply.vote_grant = true then arg.candidate_id else -1)) ∧
    (∀ (now : Nat) (ok : Bool) (arg : append_entries_args Cmd) (s1 : raft Cmd)
      (reply : append_entries_reply), append_entries now ok s arg = some (s1, reply) →
      (arg.term > s.current_term →
        s1.role = .follower ∧ s1.current_term = arg.term ∧ s1.vote_for = -1) ∧
      (arg.term = s.current_term → s.role = .candidate → s1.role = .follower)) ∧
    (∀ (now : Nat) (arg : install_snapshot_args) (s1 : raft Cmd)
      (reply : install_snapshot_reply), install_snapshot now s arg = some (s1, reply) →
      (arg.term > s.current_term →
        s1.role = .follower ∧ s1.current_term = arg.term ∧ s1.vote_for = -1) ∧
      (arg.term = s.current_term → s.role = .candidate → s1.role = .follower)) ∧
    (∀ (target : Int) (arg : request_vote_args) (reply : request_vote_reply),
      reply.term > s.current_term →
      ∃ s1 jobs, handle_request_vote_reply s target arg reply = some (s1, jobs) ∧
        s1.role = .follower ∧ s1.current_term = reply.term ∧ s1.vote_for = -1) ∧
    (∀ (target : Int) (arg : append_entries_args Cmd) (reply : append_entries_reply),
      reply.term > s.current_term →
      ∃ s1, handle_append_entries_reply s target arg reply = some s1 ∧
        s1.role = .follower ∧ s1.current_term = reply.term ∧ s1.vote_for = -1) ∧
    (∀ (target : Int) (arg : install_snapshot_args) (reply : install_snapshot_reply),
      reply.term > s.current_term →
      ∃ s1, handle_install_snapshot_reply s target arg reply = some s1 ∧
        s1.role = .follower ∧ s1.current_term = reply.term ∧ s1.vote_for = -1) ∧
    (log_ok s.log →
      (∀ (now : Nat) (arg : request_vote_args),
        ∃ s1 reply, request_vote now s arg = some (s1, reply)) ∧
      (∀ (now : Nat) (ok : Bool) (arg : append_entries_args Cmd),
        base_index s.log ≤ arg.prevLogIndex →
        ∃ s1 reply, append_entries now ok s arg = some (s1, reply)) ∧
      (∀ (now : Nat) (arg : install_snapshot_args), base_index s.log ≤ arg.last_index →
        ∃ s1 reply, install_snapshot now s arg = some (s1, reply))) := by
  refine ⟨?_, ?_, ?_, ?_, ?_, ?_, ?_⟩
  · intro now arg s1 reply h hgt
    obtain ⟨-, -, -, -, -, -, ht, hr, hv, -⟩ := request_vote_frame h
    rw [if_pos hgt] at ht hr
    refine ⟨hr, ht, ?_⟩
    rw [hv]
    split_ifs <;> rfl
  · intro now ok arg s1 reply h
    obtain ⟨-, -, -, -, -, hn⟩ := append_entries_frame h
    constructor
    · intro hgt
      obtain ⟨ht, hr, hv⟩ := hn (by omega)
      rw [if_pos (Or.inl hgt)] at hr hv
      exact ⟨hr, ht, hv⟩
    · intro heq hcand
      obtain ⟨-, hr, -⟩ := hn (by omega)
      rw [if_pos (Or.inr hcand)] at hr
      exact hr
  · intro now arg s1 reply h
    constructor
    · intro hgt
      rcases (install_snapshot_inv h).2 with ⟨h1, -⟩ | ⟨-, -, ht, hr, hv, -⟩
      · omega
      · rw [if_pos (Or.inl hgt)] at hr hv
        exact ⟨hr, ht, hv⟩
    · intro heq hcand
      rcases (install_snapshot_inv h).2 with ⟨h1, -⟩ | ⟨-, -, -, hr, -⟩
      · omega
      · rw [if_pos (Or.inr hcand)] at hr
        exact hr
  · intro target arg reply hgt
    exact ⟨_, _, by rw [handle_request_vote_reply, if_pos hgt], rfl, rfl, rfl⟩
  · intro target arg reply hgt
    exact ⟨_, by rw [handle_append_entries_reply, if_pos hgt], rfl, rfl, rfl⟩
  · intro target arg reply hgt
    exact ⟨_, by rw [handle_install_snapshot_reply, if_pos hgt], rfl, rfl, rfl⟩
  · intro hlog
    exact ⟨fun now arg => request_vote_returns now s arg hlog.1,
      fun now ok arg hb => append_entries_returns now ok s arg hlog hb,
      fun now arg hb => install_snapshot_returns now s arg hlog hb⟩

/-! ## C16: counting the votes -/

theorem count_set_true : ∀ (l : List Bool) (t : Nat), l[t]? = some false →
    (l.set t true).count true = l.count true + 1 := by
  intro l
  induction l with
  | nil => intro t h; simp at h
  | cons a l ih =>
    intro t h
    cases t with
    | zero =>
      simp only [List.getElem?_cons_zero, Option.some.injEq] at h
      subst h
      simp
    | succ t =>
      simp only [List.getElem?_cons_succ] at h
      simp only [List.set_cons_succ, List.count_cons, ih t h]
      omega

theorem count_replicate_false (n : Nat) : (List.replicate n false).count true = 0 := by
  rw [List.count_eq_zero]
  intro h
  have := List.eq_of_mem_replicate h
  cases this

/-- After `make_election` one replica, the candidate itself, is marked as granter. -/
theorem make_election_granters {now : Nat} {s s1 : raft Cmd}
    {jobs : List (Int × request_vote_args)} (h : make_election now s = some (s1, jobs)) :
    s1.vote_count = granters s1 ∧ s1.vote_count = 1 ∧ s1.role = .candidate ∧
    s1.num_nodes = s.num_nodes := by
  obtain ⟨-, hr, -, -, hc, hn, -, h0, hlt, hv⟩ := make_election_inv h
  refine ⟨?_, hc, hr, hn⟩
  rw [hc, granters, hv, count_set_true, count_replicate_false]
  · rfl
  · rw [List.getElem?_replicate, if_pos hlt]

/-- A new grant marks one more replica. -/
theorem granters_grant {s : raft Cmd} {target : Int}
    (hv : vget s.votedNodes target = some false) :
    granters { s with votedNodes := s.votedNodes.set target.toNat true
                      vote_count := s.vote_count + 1 } = granters s + 1 := by
  unfold vget at hv
  split at hv
  · exact count_set_true _ _ hv
  · cases hv

/-- Along the replies processed since `make_election`, `vote_count` is the number of
replicas marked as granters, and in a cluster of at least 2 replicas a candidate has not
yet more than `N / 2` of them while a leader has. -/
theorem candidate_reach_inv {s0 s : raft Cmd} (h : candidate_reach s0 s) :
    s.vote_count = granters s ∧
    (2 ≤ s.num_nodes → s.role = .candidate → s.vote_count ≤ (s.num_nodes : Int) / 2) := by
  induction h with
  | started now s jobs h =>
    obtain ⟨hg, hc, -, -⟩ := make_election_granters h
    refine ⟨hg, fun hn _ => ?_⟩
    rw [hc]
    omega
  | reply s s1 target arg reply jobs _ h ih =>
    obtain ⟨ihc, ihn⟩ := ih
    rcases handle_request_vote_reply_inv h with
      ⟨-, hs, -⟩ | ⟨-, -, hs, -⟩ | ⟨-, hrole, -, hv, ⟨hle, -, hs⟩ | ⟨-, hs⟩⟩
    · subst hs
      exact ⟨ihc, fun _ hr => by cases hr⟩
    · subst hs
      exact ⟨ihc, ihn⟩
    · subst hs
      refine ⟨?_, fun _ _ => ?_⟩
      · rw [granters_grant hv]
        simp only
        rw [ihc]
        push_cast
        rfl
      · simp only
        omega
    · obtain ⟨-, hr, -, -, hc, hvn, -, -⟩ := setLeader_inv hs
      refine ⟨?_, fun _ hcand => ?_⟩
      · rw [hc, granters, hvn]
        have := granters_grant hv
        rw [granters] at this
        simp only at this ⊢
        rw [this, ihc]
        push_cast
        rfl
      · rw [hr] at hcand
        cases hcand

theorem make_election_lone {now : Nat} {s s1 : raft Cmd}
    {jobs : List (Int × request_vote_args)} (hn : s.num_nodes = 1) (hi : s.idx = 0)
    (h : make_election now s = some (s1, jobs)) :
    jobs = [] ∧ s1.role = .candidate ∧ s1.vote_count = 1 ∧ s1.votedNodes = [true] ∧
      s1.num_nodes = 1 ∧ s1.idx = 0 := by
  obtain ⟨-, hr, -, -, hc, hnn, hidx, -, -, hv⟩ := make_election_inv h
  refine ⟨?_, hr, hc, ?_, by rw [hnn, hn], by rw [hidx, hi]⟩
  · unfold make_election at h
    split at h
    · simp only [Option.some.injEq, Prod.mk.injEq] at h
      obtain ⟨-, rfl⟩ := h
      rw [hn, hi]
      rfl
    · exact absurd h (by simp)
  · rw [hv, hn, hi]
    rfl

theorem run_background_apply_election {s s1 : raft Cmd}
    (h : run_background_apply s = some s1) :
    s1.num_nodes = s.num_nodes ∧ s1.idx = s.idx ∧ s1.role = s.role ∧
      s1.vote_count = s.vote_count ∧ s1.votedNodes = s.votedNodes := by
  unfold run_background_apply at h
  repeat' split at h
  all_goals first
    | (cases h; done)
    | (cases h; exact ⟨rfl, rfl, rfl, rfl, rfl⟩)

/-- A cluster of one replica on which nothing is in flight and the replica is not leader
stays so at every step; a candidate holds its own vote. -/
theorem lone_step [Inhabited Cmd] {c c1 : cluster Cmd} {a : action Cmd} {r : raft Cmd}
    (hnodes : c.nodes = [r]) (hn : r.num_nodes = 1) (hi : r.idx = 0)
    (hrole : r.role ≠ .leader) (hreq : c.requests = []) (hrep : c.replies = [])
    (hcand : r.role = .candidate → r.vote_count = 1 ∧ r.votedNodes = [true])
    (h : c.step a = some c1) :
    ∃ r1, c1.nodes = [r1] ∧ r1.num_nodes = 1 ∧ r1.idx = 0 ∧ r1.role ≠ .leader ∧
      c1.requests = [] ∧ c1.replies = [] ∧
      (r1.role = .candidate → r1.vote_count = 1 ∧ r1.votedNodes = [true]) := by
  cases a with
  | timeout i now =>
    unfold cluster.step at h
    rw [hnodes] at h
    cases i with
    | succ i => simp at h
    | zero =>
      simp only [List.getElem?_cons_zero, if_neg hrole] at h
      cases he : run_background_election now r with
      | none => simp [he] at h
      | some p =>
        obtain ⟨r1, jobs⟩ := p
        simp only [he, Option.some.injEq] at h
        subst h
        have hm : make_election now r = some (r1, jobs) := by
          unfold run_background_election at he
          split at he
          · exact he
          · exact he
          · rename_i hl
            exact absurd hl hrole
        obtain ⟨hj, h1, h2, h3, h4, h5⟩ := make_election_lone hn hi hm
        refine ⟨r1, ?_, h4, h5, ?_, ?_, hrep, fun _ => ⟨h2, h3⟩⟩
        · simp only [hnodes, List.set_cons_zero]
        · rw [h1]
          decide
        · simp only [hreq, hj, vote_requests, List.map_nil, List.append_nil]
  | deliver_request k now appendOk =>
    unfold cluster.step at h
    rw [hreq] at h
    simp at h
  | deliver_reply k =>
    unfold cluster.step at h
    rw [hrep] at h
    simp at h
  | new_command i cmd appendOk =>
    unfold cluster.step at h
    rw [hnodes] at h
    cases i with
    | succ i => simp at h
    | zero =>
      simp only [List.getElem?_cons_zero, new_command, if_pos hrole] at h
      cases h
  | replicator i =>
    unfold cluster.step at h
    rw [hnodes] at h
    cases i with
    | succ i => simp at h
    | zero =>
      simp only [List.getElem?_cons_zero, run_background_commit, if_neg hrole,
        Option.some.injEq] at h
      subst h
      exact ⟨r, rfl, hn, hi, hrole,
        by simp only [hreq, replicate_requests, List.map_nil, List.append_nil], hrep, hcand⟩
  | heartbeat i =>
    unfold cluster.step at h
    rw [hnodes] at h
    cases i with
    | succ i => simp at h
    | zero =>
      simp only [List.getElem?_cons_zero, run_background_ping, if_neg hrole,
        Option.some.injEq] at h
      subst h
      exact ⟨r, rfl, hn, hi, hrole,
        by simp only [hreq, append_requests, List.map_nil, List.append_nil], hrep, hcand⟩
  | applier i =>
    unfold cluster.step at h
    rw [hnodes] at h
    cases i with
    | succ i => simp at h
    | zero =>
      simp only [List.getElem?_cons_zero] at h
      cases he : run_background_apply r with
      | none => simp [he] at h
      | some r1 =>
        simp only [he, Option.some.injEq] at h
        subst h
        obtain ⟨e1, e2, e3, e4, e5⟩ := run_background_apply_election he
        refine ⟨r1, by simp only [hnodes, List.set_cons_zero], by rw [e1, hn], by rw [e2, hi],
          by rw [e3]; exact hrole, hreq, hrep, ?_⟩
        rw [e3, e4, e5]
        exact hcand

theorem lone_run [Inhabited Cmd] (acts : List (action Cmd)) :
    ∀ {c c1 : cluster Cmd} {r : raft Cmd}, c.nodes = [r] → r.num_nodes = 1 → r.idx = 0 →
      r.role ≠ .leader → c.requests = [] → c.replies = [] →
      (r.role = .candidate → r.vote_count = 1 ∧ r.votedNodes = [true]) →
      c.run acts = some c1 →
      ∃ r1, c1.nodes = [r1] ∧ r1.num_nodes = 1 ∧ r1.idx = 0 ∧ r1.role ≠ .leader ∧
        c1.requests = [] ∧ c1.replies = [] ∧
        (r1.role = .candidate → r1.vote_count = 1 ∧ r1.votedNodes = [true]) := by
  induction acts with
  | nil =>
    intro c c1 r h1 h2 h3 h4 h5 h6 h7 h
    simp only [cluster.run, Option.some.injEq] at h
    subst h
    exact ⟨r, h1, h2, h3, h4, h5, h6, h7⟩
  | cons a rest ih =>
    intro c c1 r h1 h2 h3 h4 h5 h6 h7 h
    unfold cluster.run at h
    cases hs : c.step a with
    | none => simp [hs] at h
    | some c2 =>
      simp only [hs] at h
      obtain ⟨r2, g1, g2, g3, g4, g5, g6, g7⟩ := lone_step h1 h2 h3 h4 h5 h6 h7 hs
      exact ih g1 g2 g3 g4 g5 g6 g7 h

/-- C16 fails on the code in a cluster of one replica: no run of the cluster makes the
replica leader. `make_election` marks the candidate as its own granter, so the number of
granters, 1, exceeds `N / 2 = 0`, but it queues no request (the loop skips `i == idx`), so
no reply is ever in flight; `handle_request_vote_reply`, the only caller of `setLeader`, is
never run, and `make_election` itself does not compare `vote_count` with `N / 2`. After
every run the replica is not leader and nothing is in flight; when it is a candidate it
holds 1 grant of the 1 replica. -/
theorem lone_majority_not_elected [Inhabited Cmd] (now : Nat) (acts : List (action Cmd))
    (c : cluster Cmd) (h : (cluster.fresh 1 now : cluster Cmd).run acts = some c) :
    ∃ r, c.nodes = [r] ∧ r.role ≠ .leader ∧ (is_leader r).1 = false ∧
      c.requests = [] ∧ c.replies = [] ∧
      (r.role = .candidate →
        r.vote_count = 1 ∧ granters r = 1 ∧ (r.num_nodes : Int) / 2 < granters r) := by
  obtain ⟨r, h1, h2, -, h4, h5, h6, h7⟩ :=
    lone_run acts (c := cluster.fresh 1 now) (r := raft.fresh 1 0 now) rfl rfl rfl
      (by simp [raft.fresh]) rfl rfl (by simp [raft.fresh]) h
  refine ⟨r, h1, h4, by simp [is_leader, h4], h5, h6, fun hc => ?_⟩
  obtain ⟨hv, hg⟩ := h7 hc
  refine ⟨hv, by rw [granters, hg]; rfl, ?_⟩
  rw [granters, hg, h2]
  decide

/-- Witness of C16: the single replica after three election timeouts is a candidate of
term 3 that holds its own grant, more than `1 / 2 = 0`, and is not leader. -/
theorem lone_majority_not_elected_witness :
    (cluster.fresh 1 0 : cluster Nat).run [.timeout 0 1, .timeout 0 2, .timeout 0 3] =
      some lone_cluster_example ∧
    (lone_cluster_example.nodes.map fun r =>
      (r.role, r.current_term, r.vote_count, granters r)) = [(.candidate, 3, 1, 1)] ∧
    ∃ r, lone_cluster_example.nodes = [r] ∧ r.role ≠ .leader ∧ (is_leader r).1 = false ∧
      lone_cluster_example.requests = [] ∧ lone_cluster_example.replies = [] ∧
      (r.role = .candidate →
        r.vote_count = 1 ∧ granters r = 1 ∧ (r.num_nodes : Int) / 2 < granters r) :=
  ⟨by decide, by decide,
    lone_majority_not_elected 0 [.timeout 0 1, .timeout 0 2, .timeout 0 3]
      lone_cluster_example (by decide)⟩

/-- Vote counting. Among the replies processed since `make_election`,
`handle_request_vote_reply` makes a candidate leader exactly when it processes a granting
reply, of a term not above `current_term`, of a replica not yet marked as granter, and the
number of replicas marked as granters, the candidate included, then exceeds `N / 2`; in a
cluster of at least 2 replicas that is exactly when the number of granters exceeds `N / 2`.
`vote_count` always equals the number of replicas marked as granters, processing the same
reply a second time changes no state, a granting reply of a replica already marked changes
no state, and a non-granting reply with `reply.term ≤ current_term` changes no state. -/
theorem vote_counting {s0 s s1 : raft Cmd} {target : Int} {arg : request_vote_args}
    {reply : request_vote_reply} {jobs : List (Int × append_entries_args Cmd)}
    (hreach : candidate_reach s0 s)
    (h : handle_request_vote_reply s target arg reply = some (s1, jobs)) :
    s.vote_count = granters s ∧ s1.vote_count = granters s1 ∧
    (s.role = .candidate →
      (s1.role = .leader ↔
        reply.term ≤ s.current_term ∧ reply.vote_grant = true ∧
        vget s.votedNodes target = some false ∧
        (s.num_nodes : Int) / 2 < granters s1)) ∧
    (2 ≤ s.num_nodes → s.role = .candidate →
      (s1.role = .leader ↔ (s.num_nodes : Int) / 2 < granters s1)) ∧
    handle_request_vote_reply s1 target arg reply = some (s1, []) ∧
    (reply.term ≤ s.current_term → vget s.votedNodes target = some true →
      s1 = s ∧ jobs = []) ∧
    (reply.term ≤ s.current_term → reply.vote_grant = false → s1 = s ∧ jobs = []) := by
  obtain ⟨hc, hn⟩ := candidate_reach_inv hreach
  obtain ⟨hc1, -⟩ := candidate_reach_inv (candidate_reach.reply s s1 target arg reply jobs hreach h)
  refine ⟨hc, hc1, ?_⟩
  rcases handle_request_vote_reply_inv h with
    ⟨hgt, hs, hj⟩ | ⟨hle, hcase, hs, hj⟩ | ⟨hle, hrole, hg, hv, ⟨hlow, hj, hs⟩ | ⟨hhigh, hs⟩⟩
  · -- a reply of a higher term: step-down
    subst hs
    refine ⟨fun _ => ?_, fun h2 hcand => ?_, ?_, fun h3 => ?_, fun h3 => ?_⟩
    · constructor
      · intro hl; cases hl
      · rintro ⟨h3, -⟩; omega
    · constructor
      · intro hl; cases hl
      · intro h3
        have := hn h2 hcand
        have h4 : (s.num_nodes : Int) / 2 < (granters s : Int) := h3
        rw [← hc] at h4
        omega
    · rw [handle_request_vote_reply, if_neg (by simp only [setFollower]; omega),
        if_pos (by simp [setFollower])]
    · omega
    · omega
  · -- no new grant: nothing changes
    subst hs
    subst hj
    refine ⟨fun hcand => ?_, fun h2 hcand => ?_, h, fun _ _ => ⟨rfl, rfl⟩,
      fun _ _ => ⟨rfl, rfl⟩⟩
    · constructor
      · intro hl; rw [hcand] at hl; cases hl
      · rintro ⟨-, hg, hv, -⟩
        rcases hcase with h3 | h3 | h3
        · exact absurd hcand h3
        · rw [hg] at h3; cases h3
        · rw [hv] at h3; cases h3
    · constructor
      · intro hl; rw [hcand] at hl; cases hl
      · intro h3
        have := hn h2 hcand
        rw [← hc] at h3
        omega
  · -- a new grant, no majority yet
    subst hs
    subst hj
    have hgr := granters_grant hv
    refine ⟨fun hcand => ?_, fun h2 hcand => ?_, ?_, fun _ h3 => ?_, fun _ h3 => ?_⟩
    · constructor
      · intro hl
        have hl2 : s.role = .leader := hl
        rw [hcand] at hl2
        cases hl2
      · rintro ⟨-, -, -, h3⟩
        exfalso
        rw [hgr] at h3
        push_cast at h3
        omega
    · constructor
      · intro hl
        have hl2 : s.role = .leader := hl
        rw [hcand] at hl2
        cases hl2
      · intro h3
        exfalso
        rw [hgr] at h3
        push_cast at h3
        omega
    · have hv1 : vget (s.votedNodes.set target.toNat true) target = some true := by
        unfold vget at hv ⊢
        split at hv
        · rename_i h0
          rw [if_pos h0, List.getElem?_set_self]
          exact (List.getElem?_eq_some_iff.mp hv).1
        · cases hv
      rw [handle_request_vote_reply, if_neg (by simpa using hle),
        if_neg (by simp only [hrole]; decide), if_pos hg]
      simp only [hv1]
      rfl
    · rw [hv] at h3; cases h3
    · rw [hg] at h3; cases h3
  · -- a new grant that makes the majority
    obtain ⟨-, hr, hct, -, hcnt, hvn, hnn, -⟩ := setLeader_inv hs
    have hgr := granters_grant hv
    have hg1 : (granters s1 : Int) = s.vote_count + 1 := by
      rw [← hc1, hcnt]
    refine ⟨fun _ => ?_, fun _ _ => ?_, ?_, fun _ h3 => ?_, fun _ h3 => ?_⟩
    · exact ⟨fun _ => ⟨by omega, hg, hv, by rw [hg1]; exact hhigh⟩, fun _ => hr⟩
    · exact ⟨fun _ => by rw [hg1]; exact hhigh, fun _ => hr⟩
    · rw [handle_request_vote_reply, if_neg (by rw [hct]; simpa using hle),
        if_pos (by rw [hr]; decide)]
    · rw [hv] at h3; cases h3
    · rw [hg] at h3; cases h3

/-- The candidate `candidate_example` of a 3-replica cluster processes the grant of
replica 1 and becomes leader with 2 granters. -/
theorem vote_counting_witness :
    candidate_reach (raft.fresh 3 0 0 : raft Nat) candidate_example ∧
    handle_request_vote_reply candidate_example 1 vote_request_example grant_example =
      some elected_example ∧
    candidate_example.role = .candidate ∧ elected_example.1.role = .leader ∧
    granters elected_example.1 = 2 ∧
    (candidate_example.role = .candidate →
      (elected_example.1.role = .leader ↔
        grant_example.term ≤ candidate_example.current_term ∧
        grant_example.vote_grant = true ∧
        vget candidate_example.votedNodes 1 = some false ∧
        (candidate_example.num_nodes : Int) / 2 < granters elected_example.1)) :=
  ⟨candidate_reach.started 0 candidate_example
      (requestVoteJobs 0 vote_request_example 0 3) (by decide),
    by decide, by decide, by decide, by decide,
    (vote_counting
      (@candidate_reach.started Nat (raft.fresh 3 0 0) 0 candidate_example
        (requestVoteJobs 0 vote_request_example 0 3) (by decide))
      (show handle_request_vote_reply candidate_example 1 vote_request_example
        grant_example = some elected_example by decide)).2.2.1⟩

/-! ## C19 and C20: snapshots -/

/-- C19: `install_snapshot` with `arg.term ≥ current_term` and `base ≤ last_index` (the
last included index), on a log that satisfies the log structure invariant, returns. If the
log has an entry with index `last_index` whose term is `lastIncludedTerm`, the new log is
the old log from that entry onward: that entry is first and the entries of every larger
index are those of the old log; otherwise the new log is the single entry
`(last_index, lastIncludedTerm)`. In both cases the snapshot bytes become `arg.snapshot`,
the state machine receives `apply_snapshot` of those bytes, `lastApplied = last_index` and
`commitIndex = max commitIndex last_index`. -/
theorem install_snapshot_contract [Inhabited Cmd] (now : Nat) (s : raft Cmd)
    (arg : install_snapshot_args) (hlog : log_ok s.log) (hterm : arg.term ≥ s.current_term)
    (hbase : base_index s.log ≤ arg.last_index) :
    ∃ s1 reply, install_snapshot now s arg = some (s1, reply) ∧
      ((∃ e, entry_at s.log arg.last_index = some e ∧ e.term = arg.lastIncludedTerm) →
        s1.log = s.log.drop (arg.last_index - base_index s.log).toNat ∧
        s1.log.head? = entry_at s.log arg.last_index ∧
        ∀ i, entry_at s1.log i = if arg.last_index ≤ i then entry_at s.log i else none) ∧
      ((¬ ∃ e, entry_at s.log arg.last_index = some e ∧ e.term = arg.lastIncludedTerm) →
        s1.log = [⟨arg.last_index, arg.lastIncludedTerm, default⟩]) ∧
      s1.snapshot = arg.snapshot ∧
      s1.state = s.state ++ [sm_call.apply_snapshot arg.snapshot] ∧
      s1.lastApplied = arg.last_index ∧
      s1.commitIndex = max s.commitIndex arg.last_index := by
  obtain ⟨s1, reply, h⟩ := install_snapshot_returns now s arg hlog hbase
  refine ⟨s1, reply, h, ?_⟩
  rcases (install_snapshot_inv h).2 with ⟨h1, -⟩ | ⟨-, -, -, -, -, hsnap, hst, hla, hci, hl⟩
  · omega
  have hlen := last_index_add_one hlog
  refine ⟨?_, ?_, hsnap, hst, hla, hci⟩
  · rintro ⟨e, he, het⟩
    rw [entry_at_eq_vget hlog] at he
    rcases hl with ⟨hle, -, hdrop⟩ | ⟨hcase, -⟩
    · have hk := (vget_lt_length he).2
      have hk2 : (arg.last_index - base_index s.log).toNat < s.log.length := by omega
      refine ⟨hdrop, ?_, fun i => ?_⟩
      · rw [hdrop]
        exact (head_drop_eq_entry_at hlog hbase hle).1
      · rw [hdrop, entry_at_drop hlog hk2]
        have : base_index s.log + ((arg.last_index - base_index s.log).toNat : Nat) =
            arg.last_index := by omega
        rw [this]
    · exfalso
      rcases hcase with hlt | ⟨e2, he2, hne⟩
      · have := (vget_lt_length he).2
        omega
      · rw [he] at he2
        cases he2
        exact hne het.symm
  · intro hno
    rcases hl with ⟨-, ⟨e, he, het⟩, -⟩ | ⟨-, hsingle⟩
    · exfalso
      exact hno ⟨e, by rw [entry_at_eq_vget hlog]; exact he, het.symm⟩
    · exact hsingle

theorem save_snapshot_returns (snap : List (sm_call Cmd) → List Char) (s : raft Cmd)
    (hlog : log_ok s.log) (h1 : base_index s.log ≤ s.lastApplied)
    (h2 : s.lastApplied ≤ last_index s.log) :
    ∃ s1, save_snapshot snap s = some (s1, true) := by
  obtain ⟨back, hb⟩ := getLast_some_of_ne_nil hlog.1
  obtain ⟨front, hf⟩ := head_some_of_ne_nil hlog.1
  have hlen := last_index_add_one hlog
  rw [last_index_eq_of_getLast hb] at h2 hlen
  rw [base_index_eq_of_head hf] at h1 hlen
  unfold save_snapshot
  simp only [hb, hf]
  rw [if_pos h2, erase_front, if_pos ⟨by omega, by omega⟩]
  exact ⟨_, rfl⟩

/-- C20: `save_snapshot` on a state with `base ≤ lastApplied ≤ last log index`, whose log
satisfies the log structure invariant, returns `true`, and afterwards the snapshot bytes
are the state machine's `snapshot()`, the first entry of the log is the old entry with
index `lastApplied` (so `base = lastApplied`), the entries of every larger index are those
of the old log, in order, there is no entry with a smaller index, and `commitIndex`,
`lastApplied`, `current_term`, `vote_for` and `role` are unchanged. -/
theorem save_snapshot_contract (snap : List (sm_call Cmd) → List Char) (s : raft Cmd)
    (hlog : log_ok s.log) (h1 : base_index s.log ≤ s.lastApplied)
    (h2 : s.lastApplied ≤ last_index s.log) :
    ∃ s1, save_snapshot snap s = some (s1, true) ∧
      s1.snapshot = snap s.state ∧
      s1.log = s.log.drop (s.lastApplied - base_index s.log).toNat ∧
      (∃ e, entry_at s.log s.lastApplied = some e ∧ s1.log.head? = some e) ∧
      base_index s1.log = s.lastApplied ∧
      log_ok s1.log ∧ last_index s1.log = last_index s.log ∧
      (∀ i, entry_at s1.log i = if s.lastApplied ≤ i then entry_at s.log i else none) ∧
      s1.commitIndex = s.commitIndex ∧ s1.lastApplied = s.lastApplied ∧
      s1.current_term = s.current_term ∧ s1.vote_for = s.vote_for ∧ s1.role = s.role := by
  obtain ⟨s1, h⟩ := save_snapshot_returns snap s hlog h1 h2
  refine ⟨s1, h, ?_⟩
  obtain ⟨-, -, hsnap, hci, hla, -, ⟨ht, hv, hr⟩, hl⟩ := save_snapshot_inv h
  have hlen := last_index_add_one hlog
  rcases hl with ⟨-, -, -, hdrop⟩ | ⟨hlt, -⟩
  swap
  · omega
  have hk : (s.lastApplied - base_index s.log).toNat < s.log.length := by omega
  obtain ⟨hok, hbase, hlast⟩ := log_ok_drop hlog hk
  obtain ⟨hhead, e, he⟩ := head_drop_eq_entry_at hlog h1 h2
  refine ⟨hsnap, hdrop, ⟨e, he, ?_⟩, ?_, ?_, ?_, fun i => ?_, hci, hla, ht, hv, hr⟩
  · rw [hdrop, hhead, he]
  · rw [hdrop, hbase]
    omega
  · rw [hdrop]
    exact hok
  · rw [hdrop]
    exact hlast
  · rw [hdrop, entry_at_drop hlog hk]
    have : base_index s.log + ((s.lastApplied - base_index s.log).toNat : Nat) =
        s.lastApplied := by omega
    rw [this]

/-- Witness of C17: the candidate `candidate_example` of term 1 handles the RequestVote of
candidate 1 for term 2. -/
theorem step_down_on_higher_term_witness :
    request_vote 5 candidate_example ⟨2, 1, 0, 0⟩ = some stepped_down_example ∧
    (2 : Int) > candidate_example.current_term ∧
    stepped_down_example.1.role = .follower ∧
    stepped_down_example.1.current_term = 2 ∧
    stepped_down_example.1.vote_for =
      (if stepped_down_example.2.vote_grant = true then 1 else -1) :=
  ⟨by decide, by decide,
    (step_down_on_higher_term candidate_example).1 5 ⟨2, 1, 0, 0⟩ stepped_down_example.1
      stepped_down_example.2 (by decide) (by decide)⟩

/-- Witness of C19: the follower `applied_example` (entries 0 to 2) handles an
InstallSnapshot taken at its entry 1. -/
theorem install_snapshot_contract_witness :
    log_ok applied_example.log ∧
    old_snapshot_example.term ≥ applied_example.current_term ∧
    base_index applied_example.log ≤ old_snapshot_example.last_index ∧
    ∃ s1 reply, install_snapshot 0 applied_example old_snapshot_example = some (s1, reply) ∧
      ((∃ e, entry_at applied_example.log old_snapshot_example.last_index = some e ∧
          e.term = old_snapshot_example.lastIncludedTerm) →
        s1.log = applied_example.log.drop
          (old_snapshot_example.last_index - base_index applied_example.log).toNat ∧
        s1.log.head? = entry_at applied_example.log old_snapshot_example.last_index ∧
        ∀ i, entry_at s1.log i =
          if old_snapshot_example.last_index ≤ i then entry_at applied_example.log i
          else none) ∧
      ((¬ ∃ e, entry_at applied_example.log old_snapshot_example.last_index = some e ∧
          e.term = old_snapshot_example.lastIncludedTerm) →
        s1.log = [⟨old_snapshot_example.last_index, old_snapshot_example.lastIncludedTerm,
          default⟩]) ∧
      s1.snapshot = old_snapshot_example.snapshot ∧
      s1.state = applied_example.state ++
        [sm_call.apply_snapshot old_snapshot_example.snapshot] ∧
      s1.lastApplied = old_snapshot_example.last_index ∧
      s1.commitIndex = max applied_example.commitIndex old_snapshot_example.last_index :=
  have hlog : log_ok applied_example.log := log_ok_of_indexed (by decide) (by decide)
  ⟨hlog, by decide, by decide,
    install_snapshot_contract 0 applied_example old_snapshot_example hlog (by decide)
      (by decide)⟩

/-- Witness of C20: `save_snapshot` on the follower `applied_example` (entries 0 to 2,
`lastApplied = 2`). -/
theorem save_snapshot_contract_witness :
    log_ok applied_example.log ∧
    base_index applied_example.log ≤ applied_example.lastApplied ∧
    applied_example.lastApplied ≤ last_index applied_example.log ∧
    ∃ s1, save_snapshot snapshot_example applied_example = some (s1, true) ∧
      s1.snapshot = snapshot_example applied_example.state ∧
      s1.log = applied_example.log.drop
        (applied_example.lastApplied - base_index applied_example.log).toNat ∧
      (∃ e, entry_at applied_example.log applied_example.lastApplied = some e ∧
        s1.log.head? = some e) ∧
      base_index s1.log = applied_example.lastApplied ∧
      log_ok s1.log ∧ last_index s1.log = last_index applied_example.log ∧
      (∀ i, entry_at s1.log i =
        if applied_example.lastApplied ≤ i then entry_at applied_example.log i else none) ∧
      s1.commitIndex = applied_example.commitIndex ∧
      s1.lastApplied = applied_example.lastApplied ∧
      s1.current_term = applied_example.current_term ∧
      s1.vote_for = applied_example.vote_for ∧ s1.role = applied_example.role :=
  have hlog : log_ok applied_example.log := log_ok_of_indexed (by decide) (by decide)
  ⟨hlog, by decide, by decide,
    save_snapshot_contract snapshot_example applied_example hlog (by decide) (by decide)⟩

/-! ## C27 to C30: scenarios -/

/-- C27: the normal election scenario. In a fresh 3-replica cluster, after the election
timer of replica 0 fires, replicas 1 and 2 handle its RequestVote and replica 0 handles
both replies, in any of the six possible orders, both replies are grants, `is_leader` on
replica 0 returns `(true, 1)`, and on replicas 1 and 2 it returns `(false, 1)`. -/
theorem normal_election :
    ∀ run ∈ normal_election_runs,
      election_outcome run = some ([(true, 1), (false, 1), (false, 1)], [true, true]) := by
  decide

/-- C28: the commit-one-command scenario. From the cluster reached by the normal election,
`new_command(cmd)` on replica 0 returns term 1 and index 1, and after the replicator tick,
the two AppendEntries and their replies, the applier step of replica 0, the heartbeat round
and the applier steps of the followers, every replica has `lastApplied = 1` and its state
machine has received `apply(cmd)`, for the entry of index 1, once and nothing else. -/
theorem commit_one_command (cmd : Nat) :
    (elected_cluster_example.nodes[0]?.bind fun r => new_command true r cmd).map Prod.snd =
      some (some (1, 1)) ∧
    commit_outcome cmd =
      some [(1, [.apply_log ⟨1, 1, cmd⟩]), (1, [.apply_log ⟨1, 1, cmd⟩]),
        (1, [.apply_log ⟨1, 1, cmd⟩])] := by
  constructor
  · rfl
  · with_unfolding_all rfl

/-- C29 fails on the code: replica 0 of a 3-replica cluster is candidate of term 2 (its
timer expired twice) and has only its own vote; the grant that replica 1 gave to its
RequestVote of term 1 (`arg.term = 1 < 2 = current_term`) is counted: `vote_count` and
the number of granters become 2, and replica 0 becomes leader of term 2. -/
theorem stale_grant_counted :
    second_term_candidate_example.role = .candidate ∧
    second_term_candidate_example.current_term = 2 ∧
    second_term_candidate_example.vote_count = 1 ∧
    granters second_term_candidate_example = 1 ∧
    vote_request_example.term < second_term_candidate_example.current_term ∧
    (request_vote 0 (raft.fresh 3 1 0 : raft Nat) vote_request_example).map Prod.snd =
      some grant_example ∧
    (handle_request_vote_reply second_term_candidate_example 1 vote_request_example
        grant_example).map (fun p => (p.1.vote_count, granters p.1, p.1.role, p.1.current_term)) =
      some (2, 2, .leader, 2) := by
  decide

/-- C30, counterexample: on the candidate `candidate_example` (term 1, voted for itself,
`pre_time = 0`) a RequestVote of candidate 1 for term 1, which is not granted, an
AppendEntries of term 0 and an InstallSnapshot of term 0, each handled at time 5, all set
`pre_time` to 5. -/
theorem election_timer_reset_by_rejected_request :
    candidate_example.pre_time = 0 ∧
    (request_vote 5 candidate_example ⟨1, 1, 0, 0⟩).map
        (fun p => (p.2.vote_grant, p.1.pre_time)) = some (false, 5) ∧
    (0 : Int) < candidate_example.current_term ∧
    (append_entries 5 true candidate_example ⟨0, 2, 0, 0, [], 0⟩).map
        (fun p => (p.2.success, p.1.pre_time)) = some (false, 5) ∧
    (install_snapshot 5 candidate_example ⟨0, 2, 0, 0, []⟩).map
        (fun p => p.1.pre_time) = some 5 := by
  decide

theorem request_vote_pre_time {now : Nat} {s s1 : raft Cmd} {arg : request_vote_args}
    {r : request_vote_reply} (h : request_vote now s arg = some (s1, r)) :
    s1.pre_time = now := by
  unfold request_vote at h
  simp only at h
  by_cases h1 : arg.term < s.current_term
  · rw [if_pos h1] at h
    simp only [Option.some.injEq, Prod.mk.injEq] at h
    obtain ⟨rfl, -⟩ := h
    rfl
  · rw [if_neg h1] at h
    generalize hs2 : (if arg.term > s.current_term then
      setFollower { s with pre_time := now } arg.term else { s with pre_time := now }) = s2 at h
    have hp : s2.pre_time = now := by
      rw [← hs2]; split_ifs <;> rfl
    repeat' split at h
    all_goals simp only [Option.some.injEq, Prod.mk.injEq, reduceCtorEq] at h
    all_goals obtain ⟨rfl, -⟩ := h
    all_goals exact hp

theorem append_entries_pre_time {now : Nat} {ok : Bool} {s s1 : raft Cmd}
    {arg : append_entries_args Cmd} {r : append_entries_reply}
    (h : append_entries now ok s arg = some (s1, r)) : s1.pre_time = now := by
  unfold append_entries at h
  simp only at h
  by_cases h1 : arg.term < s.current_term
  · rw [if_pos h1] at h
    simp only [Option.some.injEq, Prod.mk.injEq] at h
    obtain ⟨rfl, -⟩ := h
    rfl
  · rw [if_neg h1] at h
    generalize hs2 : (if arg.term > s.current_term ∨ s.role = raft_role.candidate then
      setFollower { s with pre_time := now } arg.term else { s with pre_time := now }) = s2 at h
    have hp : s2.pre_time = now := by
      rw [← hs2]; split_ifs <;> rfl
    repeat' split at h
    all_goals simp only [Option.some.injEq, Prod.mk.injEq, reduceCtorEq] at h
    all_goals try obtain ⟨rfl, -⟩ := h
    all_goals try exact hp
    · rename_i s3 happ _ _ _ _
      have h3 : s3.pre_time = s2.pre_time := by
        repeat' split at happ
        all_goals simp only [Option.some.injEq, reduceCtorEq] at happ
        all_goals subst happ
        all_goals rfl
      exact h3.trans hp
    · rename_i s3 happ _
      have h3 : s3.pre_time = s2.pre_time := by
        repeat' split at happ
        all_goals simp only [Option.some.injEq, reduceCtorEq] at happ
        all_goals subst happ
        all_goals rfl
      exact h3.trans hp

theorem install_snapshot_pre_time [Inhabited Cmd] {now : Nat} {s s1 : raft Cmd}
    {arg : install_snapshot_args} {r : install_snapshot_reply}
    (h : install_snapshot now s arg = some (s1, r)) : s1.pre_time = now := by
  unfold install_snapshot at h
  simp only at h
  by_cases h1 : arg.term < s.current_term
  · rw [if_pos h1] at h
    simp only [Option.some.injEq, Prod.mk.injEq] at h
    obtain ⟨rfl, -⟩ := h
    rfl
  · rw [if_neg h1] at h
    generalize hs2 : (if arg.term > s.current_term ∨ s.role = raft_role.candidate then
      setFollower { s with pre_time := now } arg.term else { s with pre_time := now }) = s2 at h
    have hp : s2.pre_time = now := by
      rw [← hs2]; split_ifs <;> rfl
    repeat' split at h
    all_goals simp only [Option.some.injEq, Prod.mk.injEq, reduceCtorEq] at h
    all_goals obtain ⟨rfl, -⟩ := h
    all_goals exact hp

theorem setLeader_pre_time {s s1 : raft Cmd} {jobs : List (Int × append_entries_args Cmd)}
    (h : setLeader s = some (s1, jobs)) : s1.pre_time = s.pre_time := by
  unfold setLeader at h
  split at h
  · exact absurd h (by simp)
  · split at h
    · simp only at h
      split at h
      · simp only [Option.some.injEq, Prod.mk.injEq] at h
        obtain ⟨rfl, -⟩ := h
        rfl
      · exact absurd h (by simp)
    · exact absurd h (by simp)

theorem handle_request_vote_reply_pre_time {s s1 : raft Cmd} {target : Int}
    {arg : request_vote_args} {reply : request_vote_reply}
    {jobs : List (Int × append_entries_args Cmd)}
    (h : handle_request_vote_reply s target arg reply = some (s1, jobs)) :
    s1.pre_time = s.pre_time := by
  rcases handle_request_vote_reply_inv h with ⟨-, rfl, -⟩ | ⟨-, -, rfl, -⟩ |
    ⟨-, -, -, -, ⟨-, -, rfl⟩ | ⟨-, hl⟩⟩
  · rfl
  · rfl
  · rfl
  · have h3 := setLeader_pre_time hl
    exact h3

theorem commitLoop_pre_time (last : Int) (todo : Nat) (s s1 : raft Cmd)
    (h : commitLoop last todo s = some s1) : s1.pre_time = s.pre_time := by
  induction todo generalizing s with
  | zero =>
    simp only [commitLoop, Option.some.injEq] at h
    subst h
    rfl
  | succ todo ih =>
    unfold commitLoop at h
    simp only [Nat.cast_add, Nat.cast_one] at h
    generalize last + ((todo : Int) + 1) = i at h
    cases hv : vget s.matchCount i with
    | none => simp [hv] at h
    | some count =>
      simp only [hv] at h
      have hskip : commitLoop last todo
          { s with matchCount := s.matchCount.set i.toNat (count + 1) } = some s1 →
          s1.pre_time = s.pre_time :=
        fun h2 => ih { s with matchCount := s.matchCount.set i.toNat (count + 1) } h2
      repeat' split at h
      all_goals first
        | exact hskip h
        | (cases h; done)
        | (cases h; rfl)

theorem handle_append_entries_reply_pre_time {s s1 : raft Cmd} {target : Int}
    {arg : append_entries_args Cmd} {reply : append_entries_reply}
    (h : handle_append_entries_reply s target arg reply = some s1) :
    s1.pre_time = s.pre_time := by
  unfold handle_append_entries_reply at h
  repeat' first | split at h | (simp only at h; split at h)
  all_goals first
    | (have h3 := commitLoop_pre_time _ _ _ _ h; exact h3)
    | (cases h; done)
    | (cases h; rfl)

theorem handle_install_snapshot_reply_pre_time {s s1 : raft Cmd} {target : Int}
    {arg : install_snapshot_args} {reply : install_snapshot_reply}
    (h : handle_install_snapshot_reply s target arg reply = some s1) :
    s1.pre_time = s.pre_time := by
  unfold handle_install_snapshot_reply at h
  repeat' first | split at h | (simp only at h; split at h)
  all_goals first
    | (cases h; done)
    | (cases h; rfl)

theorem new_command_pre_time {ok : Bool} {s s1 : raft Cmd} {cmd : Cmd}
    {r : Option (Int × Int)} (h : new_command ok s cmd = some (s1, r)) :
    s1.pre_time = s.pre_time := by
  unfold new_command at h
  repeat' first | split at h | (simp only at h; split at h)
  all_goals first
    | (cases h; done)
    | (cases h; rfl)

theorem save_snapshot_pre_time {snap : List (sm_call Cmd) → List Char} {s s1 : raft Cmd}
    {r : Bool} (h : save_snapshot snap s = some (s1, r)) : s1.pre_time = s.pre_time := by
  unfold save_snapshot at h
  split at h
  · simp only at h
    split at h
    · cases h
    · cases h
      rfl
  · cases h

theorem run_background_apply_pre_time {s s1 : raft Cmd}
    (h : run_background_apply s = some s1) : s1.pre_time = s.pre_time := by
  unfold run_background_apply at h
  repeat' split at h
  all_goals first
    | (cases h; done)
    | (cases h; rfl)

theorem make_election_pre_time {now : Nat} {s s1 : raft Cmd}
    {jobs : List (Int × request_vote_args)} (h : make_election now s = some (s1, jobs)) :
    s1.pre_time = now := by
  unfold make_election at h
  split at h
  · simp only [Option.some.injEq, Prod.mk.injEq] at h
    obtain ⟨rfl, -⟩ := h
    rfl
  · exact absurd h (by simp)

/-- C30, amended: the election timer is reset by every call of `request_vote`,
`append_entries` and `install_snapshot`, whatever its outcome. Each of the three handlers
that returns leaves `pre_time`, the time from which the election timeout is measured, at
the time `now` of the call: after a granted vote and a valid AppendEntries or
InstallSnapshot, and equally after a `request_vote` that does not grant and after an
`append_entries` or `install_snapshot` with `arg.term < current_term`. `request_vote`
returns on every non-empty log, the other two on every argument of a stale term and, on a
log that satisfies the log structure invariant, for every index from the base index on.
The start of an election sets `pre_time` too; the three reply handlers, `new_command`,
`save_snapshot` and the applier leave it unchanged. -/
theorem election_timer_reset [Inhabited Cmd] (now : Nat) (s : raft Cmd) :
    (∀ (arg : request_vote_args) (s1 : raft Cmd) (r : request_vote_reply),
      request_vote now s arg = some (s1, r) → s1.pre_time = now) ∧
    (∀ (ok : Bool) (arg : append_entries_args Cmd) (s1 : raft Cmd) (r : append_entries_reply),
      append_entries now ok s arg = some (s1, r) → s1.pre_time = now) ∧
    (∀ (arg : install_snapshot_args) (s1 : raft Cmd) (r : install_snapshot_reply),
      install_snapshot now s arg = some (s1, r) → s1.pre_time = now) ∧
    (∀ arg : request_vote_args, s.log ≠ [] →
      ∃ s1 r, request_vote now s arg = some (s1, r) ∧ s1.pre_time = now) ∧
    (∀ (ok : Bool) (arg : append_entries_args Cmd),
      arg.term < s.current_term ∨ (log_ok s.log ∧ base_index s.log ≤ arg.prevLogIndex) →
      ∃ s1 r, append_entries now ok s arg = some (s1, r) ∧ s1.pre_time = now ∧
        (arg.term < s.current_term → r.success = false)) ∧
    (∀ arg : install_snapshot_args,
      arg.term < s.current_term ∨ (log_ok s.log ∧ base_index s.log ≤ arg.last_index) →
      ∃ s1 r, install_snapshot now s arg = some (s1, r) ∧ s1.pre_time = now) ∧
    (∀ (s1 : raft Cmd) (jobs : List (Int × request_vote_args)),
      make_election now s = some (s1, jobs) → s1.pre_time = now) ∧
    (∀ (target : Int) (arg : request_vote_args) (reply : request_vote_reply) (s1 : raft Cmd)
      (jobs : List (Int × append_entries_args Cmd)),
      handle_request_vote_reply s target arg reply = some (s1, jobs) →
      s1.pre_time = s.pre_time) ∧
    (∀ (target : Int) (arg : append_entries_args Cmd) (reply : append_entries_reply)
      (s1 : raft Cmd), handle_append_entries_reply s target arg reply = some s1 →
      s1.pre_time = s.pre_time) ∧
    (∀ (target : Int) (arg : install_snapshot_args) (reply : install_snapshot_reply)
      (s1 : raft Cmd), handle_install_snapshot_reply s target arg reply = some s1 →
      s1.pre_time = s.pre_time) ∧
    (∀ (ok : Bool) (cmd : Cmd) (s1 : raft Cmd) (r : Option (Int × Int)),
      new_command ok s cmd = some (s1, r) → s1.pre_time = s.pre_time) ∧
    (∀ (snap : List (sm_call Cmd) → List Char) (s1 : raft Cmd) (r : Bool),
      save_snapshot snap s = some (s1, r) → s1.pre_time = s.pre_time) ∧
    (∀ s1 : raft Cmd, run_background_apply s = some s1 → s1.pre_time = s.pre_time) := by
  refine ⟨fun _ _ _ h => request_vote_pre_time h, fun _ _ _ _ h => append_entries_pre_time h,
    fun _ _ _ h => install_snapshot_pre_time h, ?_, ?_, ?_,
    fun _ _ h => make_election_pre_time h,
    fun _ _ _ _ _ h => handle_request_vote_reply_pre_time h,
    fun _ _ _ _ h => handle_append_entries_reply_pre_time h,
    fun _ _ _ _ h => handle_install_snapshot_reply_pre_time h,
    fun _ _ _ _ h => new_command_pre_time h, fun _ _ _ h => save_snapshot_pre_time h,
    fun _ h => run_background_apply_pre_time h⟩
  · intro arg hlog
    obtain ⟨s1, r, h⟩ := request_vote_returns now s arg hlog
    exact ⟨s1, r, h, request_vote_pre_time h⟩
  · intro ok arg harg
    rcases harg with hstale | ⟨hlog, hbase⟩
    · refine ⟨{ s with pre_time := now }, ⟨s.current_term, false⟩, ?_, rfl, fun _ => rfl⟩
      rw [append_entries, if_pos hstale]
    · obtain ⟨s1, r, h⟩ := append_entries_returns now ok s arg hlog hbase
      refine ⟨s1, r, h, append_entries_pre_time h, fun hstale => ?_⟩
      rw [append_entries, if_pos hstale] at h
      simp only [Option.some.injEq, Prod.mk.injEq] at h
      rw [← h.2]
  · intro arg harg
    rcases harg with hstale | ⟨hlog, hbase⟩
    · refine ⟨{ s with pre_time := now }, ⟨s.current_term⟩, ?_, rfl⟩
      rw [install_snapshot, if_pos hstale]
    · obtain ⟨s1, r, h⟩ := install_snapshot_returns now s arg hlog hbase
      exact ⟨s1, r, h, install_snapshot_pre_time h⟩

/-- Witness of C30: the candidate `candidate_example` of term 1, whose `pre_time` is 0,
handles at time 5 a RequestVote it does not grant and an AppendEntries of term 0; both
calls return with `pre_time = 5`, and the rejected AppendEntries reply leaves it there. -/
theorem election_timer_reset_witness :
    candidate_example.pre_time = 0 ∧ candidate_example.log ≠ [] ∧
    (0 : Int) < candidate_example.current_term ∧
    (request_vote 5 candidate_example ⟨1, 1, 0, 0⟩).map (fun p => p.2.vote_grant) =
      some false ∧
    (∃ s1 r, request_vote 5 candidate_example ⟨1, 1, 0, 0⟩ = some (s1, r) ∧
      s1.pre_time = 5) ∧
    (∃ s1 r, append_entries 5 true candidate_example ⟨0, 2, 0, 0, [], 0⟩ = some (s1, r) ∧
      s1.pre_time = 5 ∧ ((0 : Int) < candidate_example.current_term → r.success = false)) :=
  ⟨by decide, by decide, by decide, by decide,
    (election_timer_reset 5 candidate_example).2.2.2.1 ⟨1, 1, 0, 0⟩ (by decide),
    (election_timer_reset 5 candidate_example).2.2.2.2.1 true ⟨0, 2, 0, 0, [], 0⟩
      (Or.inl (by decide))⟩

/-! ## C23: a rejected AppendEntries -/

theorem set_same {α : Type} : ∀ (l : List α) (i : Nat) (x : α), l[i]? = some x →
    l.set i x = l := by
  intro l
  induction l with
  | nil => intro i x h; simp at h
  | cons a l ih =>
    intro i x h
    cases i with
    | zero =>
      simp only [List.getElem?_cons_zero, Option.some.injEq] at h
      subst h
      rfl
    | succ i =>
      simp only [List.getElem?_cons_succ] at h
      simp only [List.set_cons_succ, ih i x h]

/-- C23: on an AppendEntries reply with `success = false` and `reply.term ≤ current_term`,
a leader sets `nextIndex[target]` to `min(nextIndex[target], arg.prevLogIndex)` and changes
no other field; when the request was built from the current `nextIndex`
(`arg.prevLogIndex = nextIndex[target] - 1`) the new `nextIndex[target]` is smaller than
the old one. The reply of a replica `target` of the cluster (`0 ≤ target <` the size of
`nextIndex`) is always handled. -/
theorem append_reply_reject (s : raft Cmd) (target : Int) (arg : append_entries_args Cmd)
    (reply : append_entries_reply) (hrole : s.role = .leader)
    (hfail : reply.success = false) (hterm : reply.term ≤ s.current_term)
    (h0 : 0 ≤ target) (hlt : target < s.nextIndex.length) :
    ∃ next, vget s.nextIndex target = some next ∧
      handle_append_entries_reply s target arg reply =
        some { s with nextIndex := s.nextIndex.set target.toNat (min next arg.prevLogIndex) } ∧
      (arg.prevLogIndex = next - 1 →
        vget (s.nextIndex.set target.toNat (min next arg.prevLogIndex)) target =
          some (next - 1) ∧ next - 1 < next) := by
  have hn : target.toNat < s.nextIndex.length := by omega
  have hv : vget s.nextIndex target = some (s.nextIndex[target.toNat]) := by
    rw [vget, if_pos h0]
    exact List.getElem?_eq_getElem hn
  refine ⟨s.nextIndex[target.toNat], hv, ?_, fun hprev => ?_⟩
  · rw [handle_append_entries_reply, if_neg (by omega), if_neg (by simp [hrole]),
      if_neg (by simp [hfail])]
    simp only [hv]
    by_cases hgt : s.nextIndex[target.toNat] > arg.prevLogIndex
    · rw [if_pos hgt, vset, if_pos ⟨h0, hn⟩, min_eq_right (le_of_lt hgt)]
    · rw [if_neg hgt, min_eq_left (by omega), set_same _ _ _ (List.getElem?_eq_getElem hn)]
  · rw [vget_set _ _ _ _ h0 hn, if_pos rfl, hprev, min_eq_right (by omega)]
    exact ⟨rfl, by omega⟩

/-! ## C24: `setLeader` -/

theorem setLeader_eq {s s1 : raft Cmd} {jobs : List (Int × append_entries_args Cmd)}
    (h : setLeader s = some (s1, jobs)) :
    s.log ≠ [] ∧ 0 ≤ s.idx ∧ s.idx.toNat < s.num_nodes ∧ s.commitIndex ≤ last_index s.log ∧
    s1 = { s with
           role := .leader
           nextIndex := List.replicate s.num_nodes (last_index s.log + 1)
           matchIndex := (List.replicate s.num_nodes (0 : Int)).set s.idx.toNat (last_index s.log)
           matchCount := List.replicate (last_index s.log - s.commitIndex).toNat (0 : Int) } ∧
    sendHeartBeat s1 = some jobs := by
  unfold setLeader at h
  cases hb : s.log.getLast? with
  | none => simp [hb] at h
  | some back =>
    have hli := last_index_eq_of_getLast hb
    have hne : s.log ≠ [] := by
      intro h0
      rw [h0] at hb
      cases hb
    simp only [hb] at h
    cases hmi : vset (List.replicate s.num_nodes (0 : Int)) s.idx back.index with
    | none => simp [hmi] at h
    | some mi =>
      cases hmc : assign (back.index - s.commitIndex) (0 : Int) with
      | none => simp [hmi, hmc] at h
      | some mc =>
        simp only [hmi, hmc] at h
        obtain ⟨ht0, htl, rfl⟩ := vset_eq_some hmi
        unfold assign at hmc
        split_ifs at hmc with hk
        simp only [Option.some.injEq] at hmc
        subst hmc
        split at h
        · rename_i jobs1 hj
          simp only [Option.some.injEq, Prod.mk.injEq] at h
          obtain ⟨rfl, rfl⟩ := h
          rw [hli]
          refine ⟨hne, ht0, ?_, by omega, rfl, hj⟩
          simpa using htl
        · exact absurd h (by simp)

theorem heartBeatJobs_returns (s : raft Cmd) (next : Int) (front prev : log_entry Cmd)
    (hf : s.log.head? = some front) (hp : vget s.log (next - 1 - front.index) = some prev)
    (hn : s.nextIndex = List.replicate s.num_nodes next) :
    ∀ (todo i : Nat), i + todo ≤ s.num_nodes → ∃ jobs, heartBeatJobs s i todo = some jobs := by
  intro todo
  induction todo with
  | zero => intro i _; exact ⟨[], rfl⟩
  | succ todo ih =>
    intro i hi
    obtain ⟨jobs, hj⟩ := ih (i + 1) (by omega)
    unfold heartBeatJobs
    by_cases hidx : (i : Int) = s.idx
    · rw [if_pos hidx]
      exact ⟨jobs, hj⟩
    · rw [if_neg hidx]
      have hv : vget s.nextIndex i = some next := by
        rw [vget, if_pos (by omega), hn, Int.toNat_ofNat, List.getElem?_replicate,
          if_pos (by omega)]
      simp only [hv, hf, hp, hj]
      exact ⟨_, rfl⟩

/-- C24: when a candidate becomes leader by `setLeader`, the role is leader, `current_term`
and the log are unchanged, `nextIndex[i]` is the last log index + 1 for every replica `i`,
`matchIndex[i]` is 0 for every replica other than itself, `matchIndex[idx]` is the last log
index, and every tally of `matchCount` is 0 (one per index above `commitIndex`). The call
returns on every replica of the cluster whose log satisfies the log structure invariant
and whose `commitIndex` is at most the last log index. -/
theorem setLeader_contract (s : raft Cmd) :
    (∀ (s1 : raft Cmd) (jobs : List (Int × append_entries_args Cmd)),
      setLeader s = some (s1, jobs) →
      s1.role = .leader ∧ s1.current_term = s.current_term ∧ s1.log = s.log ∧
      (∀ i : Int, 0 ≤ i → i < s.num_nodes →
        vget s1.nextIndex i = some (last_index s.log + 1) ∧
        vget s1.matchIndex i = some (if i = s.idx then last_index s.log else 0)) ∧
      s1.nextIndex.length = s.num_nodes ∧ s1.matchIndex.length = s.num_nodes ∧
      (∀ c ∈ s1.matchCount, c = 0) ∧
      (s1.matchCount.length : Int) = last_index s.log - s.commitIndex) ∧
    (log_ok s.log → s.commitIndex ≤ last_index s.log → 0 ≤ s.idx → s.idx < s.num_nodes →
      ∃ s1 jobs, setLeader s = some (s1, jobs)) := by
  constructor
  · intro s1 jobs h
    obtain ⟨-, h0, hlt, hci, rfl, -⟩ := setLeader_eq h
    refine ⟨rfl, rfl, rfl, fun i hi0 hiN => ⟨?_, ?_⟩, by simp, by simp, ?_, ?_⟩
    · simp only
      rw [vget, if_pos hi0, List.getElem?_replicate, if_pos (by omega)]
    · simp only
      rw [vget_set _ _ _ _ h0 (by simpa using hlt)]
      by_cases hi : i = s.idx
      · rw [if_pos hi, if_pos hi]
      · rw [if_neg hi, if_neg hi, vget, if_pos hi0, List.getElem?_replicate,
          if_pos (by omega)]
    · intro c hc
      exact List.eq_of_mem_replicate hc
    · simp only [List.length_replicate]
      omega
  · intro hlog hci h0 hlt
    obtain ⟨back, hb⟩ := getLast_some_of_ne_nil hlog.1
    obtain ⟨front, hf⟩ := head_some_of_ne_nil hlog.1
    have hli := last_index_eq_of_getLast hb
    have hbi := base_index_eq_of_head hf
    have hlen := last_index_add_one hlog
    have hpos : 0 < s.log.length := List.length_pos.mpr hlog.1
    have hn : s.idx.toNat < (List.replicate s.num_nodes (0 : Int)).length := by
      simp only [List.length_replicate]
      omega
    obtain ⟨prev, hp⟩ : ∃ prev, vget s.log (back.index + 1 - 1 - front.index) = some prev :=
      vget_some_of_lt (by omega) (by omega)
    obtain ⟨jobs, hj⟩ := heartBeatJobs_returns
      { s with
        role := .leader
        nextIndex := List.replicate s.num_nodes (back.index + 1)
        matchIndex := (List.replicate s.num_nodes (0 : Int)).set s.idx.toNat back.index
        matchCount := List.replicate (back.index - s.commitIndex).toNat (0 : Int) }
      (back.index + 1) front prev hf hp rfl s.num_nodes 0 (by simp)
    have hk : 0 ≤ back.index - s.commitIndex := by omega
    have key : setLeader s = some
        ({ s with
           role := .leader
           nextIndex := List.replicate s.num_nodes (back.index + 1)
           matchIndex := (List.replicate s.num_nodes (0 : Int)).set s.idx.toNat back.index
           matchCount := List.replicate (back.index - s.commitIndex).toNat (0 : Int) },
          jobs) := by
      unfold setLeader
      simp only [hb]
      rw [vset, if_pos ⟨h0, hn⟩, assign, if_pos hk]
      simp only
      unfold sendHeartBeat
      rw [hj]
    exact ⟨_, _, key⟩

/-- Witness of C24: `setLeader` on the candidate `candidate_example` gives
`leader_example`. -/
theorem setLeader_contract_witness :
    (setLeader candidate_example).map Prod.fst = some leader_example ∧
    leader_example.role = .leader ∧
    leader_example.current_term = candidate_example.current_term ∧
    leader_example.log = candidate_example.log ∧
    leader_example.nextIndex = [1, 1, 1] ∧ leader_example.matchIndex = [0, 0, 0] ∧
    (∀ c ∈ leader_example.matchCount, c = 0) :=
  have h : setLeader candidate_example = some (leader_example, elected_example.2) := by decide
  have hc := (setLeader_contract candidate_example).1 leader_example elected_example.2 h
  ⟨by decide, hc.1, hc.2.1, hc.2.2.1, by decide, by decide, hc.2.2.2.2.2.2.1⟩

/-- Witness of C23: the leader `leader_submit_example` (`nextIndex[1] = 1`) handles the
rejection by replica 1 of the AppendEntries `replicate_example`, which was built from
`nextIndex[1]` (`prevLogIndex = 0`). -/
theorem append_reply_reject_witness :
    leader_submit_example.role = .leader ∧
    reject_example.term ≤ leader_submit_example.current_term ∧
    ∃ next, vget leader_submit_example.nextIndex 1 = some next ∧
      handle_append_entries_reply leader_submit_example 1 replicate_example reject_example =
        some { leader_submit_example with
               nextIndex := leader_submit_example.nextIndex.set (1 : Int).toNat
                 (min next replicate_example.prevLogIndex) } ∧
      (replicate_example.prevLogIndex = next - 1 →
        vget (leader_submit_example.nextIndex.set (1 : Int).toNat
          (min next replicate_example.prevLogIndex)) 1 = some (next - 1) ∧ next - 1 < next) :=
  ⟨by decide, by decide,
    append_reply_reject leader_submit_example 1 replicate_example reject_example (by decide)
      (by decide) (by decide) (by decide) (by decide)⟩

/-! ## C21: the applier -/

theorem getEntries_spec {s : raft Cmd} (hlog : log_ok s.log) {b e : Int}
    (hb : base_index s.log ≤ b) (hbe : b < e) (he : e ≤ last_index s.log + 1) :
    ∃ entries, getEntries s b e = some entries ∧ (entries.length : Int) = e - b ∧
      ∀ k : Nat, (k : Int) < e - b →
        ∃ x, entries[k]? = some x ∧ entry_at s.log (b + k) = some x ∧ x.index = b + k := by
  obtain ⟨front, hf⟩ := head_some_of_ne_nil hlog.1
  have hbi := base_index_eq_of_head hf
  have hlen := last_index_add_one hlog
  refine ⟨(s.log.take (e - front.index).toNat).drop (b - front.index).toNat, ?_, ?_, ?_⟩
  · rw [getEntries, if_pos hbe]
    simp only [hf]
    rw [if_pos ⟨by omega, by omega⟩]
  · rw [List.length_drop, List.length_take]
    omega
  · intro k hk
    have hpos : (b - front.index).toNat + k < s.log.length := by omega
    obtain ⟨x, hx⟩ : ∃ x, vget s.log (b + k - base_index s.log) = some x :=
      vget_some_of_lt (by omega) (by omega)
    refine ⟨x, ?_, ?_, ?_⟩
    · rw [List.getElem?_drop, List.getElem?_take, if_pos (by omega)]
      rw [vget, if_pos (by omega)] at hx
      rw [← hx]
      congr 1
      omega
    · rw [entry_at_eq_vget hlog, hx]
    · rw [vget_index hlog hx]
      omega

/-- C21: an applier step on a state with `base ≤ lastApplied ≤ commitIndex ≤` last log
index, whose log satisfies the log structure invariant, in any role. If
`commitIndex > lastApplied` the state machine receives `apply_log` of exactly the entries
with the indices `lastApplied + 1, ..., commitIndex`, each once and in that order, then
`lastApplied = commitIndex`, and nothing else changes. If `commitIndex ≤ lastApplied`
nothing is delivered and nothing changes. -/
theorem applier_step (s : raft Cmd) (hlog : log_ok s.log) (hinv : volatile_ok s) :
    (s.commitIndex ≤ s.lastApplied → run_background_apply s = some s) ∧
    (s.lastApplied < s.commitIndex →
      ∃ entries : List (log_entry Cmd),
        run_background_apply s =
          some { s with
                 state := s.state ++ entries.map sm_call.apply_log
                 lastApplied := s.commitIndex } ∧
        (entries.length : Int) = s.commitIndex - s.lastApplied ∧
        ∀ k : Nat, (k : Int) < s.commitIndex - s.lastApplied →
          ∃ x, entries[k]? = some x ∧ entry_at s.log (s.lastApplied + 1 + k) = some x ∧
            x.index = s.lastApplied + 1 + k) := by
  obtain ⟨h1, h2, h3⟩ := hinv
  constructor
  · intro hle
    rw [run_background_apply, if_neg (by omega)]
  · intro hlt
    obtain ⟨entries, he, hl, hk⟩ := getEntries_spec (b := s.lastApplied + 1)
      (e := s.commitIndex + 1) hlog (by omega) (by omega) (by omega)
    refine ⟨entries, ?_, by omega, fun k hk1 => hk k (by omega)⟩
    rw [run_background_apply, if_pos hlt]
    simp only [he]

/-- Witness of C21: the applier step on the follower of `append_example_result`, which
holds entries 1 and 2 with `commitIndex = 1` and `lastApplied = 0`, delivers entry 1. -/
theorem applier_step_witness :
    log_ok append_example_result.1.log ∧ volatile_ok append_example_result.1 ∧
    append_example_result.1.lastApplied < append_example_result.1.commitIndex ∧
    run_background_apply append_example_result.1 = some applied_once_example ∧
    applied_once_example.state = [.apply_log ⟨1, 1, 7⟩] ∧
    ∃ entries : List (log_entry Nat),
      run_background_apply append_example_result.1 =
        some { append_example_result.1 with
               state := append_example_result.1.state ++ entries.map sm_call.apply_log
               lastApplied := append_example_result.1.commitIndex } ∧
      (entries.length : Int) =
        append_example_result.1.commitIndex - append_example_result.1.lastApplied ∧
      ∀ k : Nat, (k : Int) <
          append_example_result.1.commitIndex - append_example_result.1.lastApplied →
        ∃ x, entries[k]? = some x ∧
          entry_at append_example_result.1.log
            (append_example_result.1.lastApplied + 1 + k) = some x ∧
          x.index = append_example_result.1.lastApplied + 1 + k :=
  have hlog : log_ok append_example_result.1.log := log_ok_of_indexed (by decide) (by decide)
  have hinv : volatile_ok append_example_result.1 := by unfold volatile_ok; decide
  ⟨hlog, hinv, by decide, by decide, by decide,
    (applier_step append_example_result.1 hlog hinv).2 (by decide)⟩

/-! ## C22: the log structure invariant -/

theorem log_ok_singleton (e : log_entry Cmd) : log_ok [e] :=
  log_ok_of_indexed (by simp) (by simp [indexed_from, base_index])

theorem log_ok_take_append {log entries : List (log_entry Cmd)} (hlog : log_ok log) {k : Nat}
    (h1 : 1 ≤ k) (h2 : k ≤ log.length)
    (hent : indexed_from (base_index log + k) entries = true) :
    log_ok (log.take k ++ entries) := by
  have hne : log.take k ≠ [] := by
    intro h0
    have := congrArg List.length h0
    rw [List.length_take] at this
    have hpos : 0 < log.length := List.length_pos.mpr hlog.1
    simp only [List.length_nil] at this
    omega
  have hbase : base_index (log.take k ++ entries) = base_index log := by
    rw [base_index_append hne, base_index_take (by omega)]
  refine ⟨by simp [hne], fun j e hj => ?_⟩
  rw [hbase]
  by_cases hjk : j < k
  · rw [List.getElem?_append_left (by rw [List.length_take]; omega), List.getElem?_take,
      if_pos hjk] at hj
    exact hlog.2 j e hj
  · rw [List.getElem?_append_right (by rw [List.length_take]; omega), List.length_take,
      min_eq_left h2] at hj
    have := indexed_from_getElem hent (j - k) e hj
    rw [this]
    push_cast [Nat.cast_sub (not_lt.mp hjk)]
    omega

theorem new_command_returns (ok : Bool) (s : raft Cmd) (cmd : Cmd) (hne : s.log ≠ [])
    (h0 : 0 ≤ s.idx) (hn : s.idx < s.nextIndex.length) (hm : s.idx < s.matchIndex.length) :
    ∃ s1 r, new_command ok s cmd = some (s1, r) := by
  by_cases hrole : s.role = .leader
  · obtain ⟨back, hb⟩ := getLast_some_of_ne_nil hne
    unfold new_command
    rw [if_neg (not_not.mpr hrole)]
    simp only [hb]
    rw [vset, if_pos ⟨h0, by omega⟩, vset, if_pos ⟨h0, by omega⟩]
    exact ⟨_, _, rfl⟩
  · exact ⟨s, none, by rw [new_command, if_pos hrole]⟩

/-- C22: the log structure invariant (the log is not empty and
`log[k].index = log[0].index + k` at every position `k`) holds in the initial state, whose
log is the single entry of index 0 and term 0, and is preserved by `new_command`, by
`save_snapshot` on states with `base ≤ lastApplied ≤` last log index, by `install_snapshot`
for every argument, and by `append_entries` for every argument whose entries carry the
indices `prevLogIndex + 1, prevLogIndex + 2, ...` in order. Each of these calls returns:
`new_command` on a replica of the cluster, `save_snapshot` on the states named,
`install_snapshot` for `last_index ≥ base`, `append_entries` for `prevLogIndex ≥ base`. -/
theorem log_structure_invariant [Inhabited Cmd] :
    (∀ (n : Nat) (idx : Int) (now : Nat),
      (raft.fresh n idx now : raft Cmd).log = [⟨0, 0, default⟩] ∧
      log_ok (raft.fresh n idx now : raft Cmd).log) ∧
    (∀ s : raft Cmd, log_ok s.log →
      (∀ (ok : Bool) (cmd : Cmd) (s1 : raft Cmd) (r : Option (Int × Int)),
        new_command ok s cmd = some (s1, r) → log_ok s1.log) ∧
      (∀ (snap : List (sm_call Cmd) → List Char), base_index s.log ≤ s.lastApplied →
        s.lastApplied ≤ last_index s.log →
        ∃ s1 r, save_snapshot snap s = some (s1, r) ∧ log_ok s1.log) ∧
      (∀ (now : Nat) (arg : install_snapshot_args) (s1 : raft Cmd)
        (reply : install_snapshot_reply),
        install_snapshot now s arg = some (s1, reply) → log_ok s1.log) ∧
      (∀ (now : Nat) (ok : Bool) (arg : append_entries_args Cmd) (s1 : raft Cmd)
        (reply : append_entries_reply),
        indexed_from (arg.prevLogIndex + 1) arg.entries = true →
        append_entries now ok s arg = some (s1, reply) → log_ok s1.log) ∧
      (∀ (ok : Bool) (cmd : Cmd), 0 ≤ s.idx → s.idx < s.nextIndex.length →
        s.idx < s.matchIndex.length → ∃ s1 r, new_command ok s cmd = some (s1, r)) ∧
      (∀ (now : Nat) (arg : install_snapshot_args), base_index s.log ≤ arg.last_index →
        ∃ s1 reply, install_snapshot now s arg = some (s1, reply)) ∧
      (∀ (now : Nat) (ok : Bool) (arg : append_entries_args Cmd),
        base_index s.log ≤ arg.prevLogIndex →
        ∃ s1 reply, append_entries now ok s arg = some (s1, reply))) := by
  refine ⟨fun n idx now => ⟨rfl, log_ok_singleton _⟩, fun s hlog => ?_⟩
  have hlen := last_index_add_one hlog
  have hpos : 0 < s.log.length := List.length_pos.mpr hlog.1
  refine ⟨?_, ?_, ?_, ?_, ?_, ?_, ?_⟩
  · intro ok cmd s1 r h
    rcases new_command_inv h with ⟨-, rfl, -⟩ | ⟨-, -, -, hl, -⟩
    · exact hlog
    · rw [hl]
      exact (log_ok_append hlog _ _).1
  · intro snap h1 h2
    obtain ⟨s1, h⟩ := save_snapshot_returns snap s hlog h1 h2
    refine ⟨s1, true, h, ?_⟩
    obtain ⟨-, -, -, -, -, -, -, hl⟩ := save_snapshot_inv h
    rcases hl with ⟨-, -, -, hdrop⟩ | ⟨hlt, -⟩
    · rw [hdrop]
      exact (log_ok_drop hlog (by omega)).1
    · omega
  · intro now arg s1 reply h
    rcases (install_snapshot_inv h).2 with ⟨-, rfl⟩ | ⟨-, -, -, -, -, -, -, -, -, hl⟩
    · exact hlog
    · rcases hl with ⟨-, ⟨e, he, -⟩, hdrop⟩ | ⟨-, hsingle⟩
      · rw [hdrop]
        have := vget_lt_length he
        exact (log_ok_drop hlog (by omega)).1
      · rw [hsingle]
        exact log_ok_singleton _
  · intro now ok arg s1 reply hent h
    rcases append_entries_inv h with ⟨-, hl, -⟩ | ⟨-, -, -, hle, ⟨e, he, -⟩, hl, -⟩
    · rw [hl]
      exact hlog
    · by_cases hemp : arg.entries.isEmpty = true
      · rw [if_pos hemp] at hl
        rw [hl]
        exact hlog
      · rw [if_neg hemp] at hl
        have hv := vget_lt_length he
        have hk : base_index s.log + ((arg.prevLogIndex + 1 - base_index s.log).toNat : Nat) =
            arg.prevLogIndex + 1 := by omega
        have key : log_ok (s.log.take (arg.prevLogIndex + 1 - base_index s.log).toNat ++
            arg.entries) :=
          log_ok_take_append hlog (by omega) (by omega) (by rw [hk]; exact hent)
        by_cases hlt : arg.prevLogIndex < last_index s.log
        · rw [if_pos hlt] at hl
          rw [hl]
          exact key
        · rw [if_neg hlt] at hl
          rw [hl]
          rw [List.take_of_length_le (by omega)] at key
          exact key
  · intro ok cmd h0 hn hm
    exact new_command_returns ok s cmd hlog.1 h0 hn hm
  · intro now arg hb
    exact install_snapshot_returns now s arg hlog hb
  · intro now ok arg hb
    exact append_entries_returns now ok s arg hlog hb

/-- Witness of C22: the fresh follower `follower_example` handles `append_example`, whose
entries carry the indices 1 and 2. -/
theorem log_structure_invariant_witness :
    log_ok follower_example.log ∧
    indexed_from (append_example.prevLogIndex + 1) append_example.entries = true ∧
    append_entries 0 true follower_example append_example = some append_example_result ∧
    log_ok append_example_result.1.log :=
  have hlog : log_ok follower_example.log := (log_structure_invariant.1 3 1 0).2
  ⟨hlog, by decide, by decide,
    (log_structure_invariant.2 follower_example hlog).2.2.2.1 0 true append_example
      append_example_result.1 append_example_result.2 (by decide) (by decide)⟩

/-! ## C25: persistence -/

theorem request_vote_persists {now : Nat} {s s1 : raft Cmd} {arg : request_vote_args}
    {reply : request_vote_reply} (h : request_vote now s arg = some (s1, reply)) :
    (reply.vote_grant = true → metadata_stored s1) ∧ (persisted s → persisted s1) := by
  unfold request_vote at h
  simp only [setFollower] at h
  by_cases h1 : arg.term < s.current_term
  · rw [if_pos h1] at h
    cases h
    exact ⟨fun hg => (by cases hg), fun hp => hp⟩
  · rw [if_neg h1] at h
    by_cases h2 : arg.term > s.current_term
    · simp only [if_pos h2] at h
      split_ifs at h
      · split at h
        · cases h
        · split_ifs at h
          · cases h
            exact ⟨fun _ => ⟨rfl, rfl⟩, fun hp => ⟨⟨rfl, rfl⟩, hp.2⟩⟩
          · cases h
            exact ⟨fun hg => (by cases hg), fun hp => ⟨⟨rfl, rfl⟩, hp.2⟩⟩
      · cases h
        exact ⟨fun hg => (by cases hg), fun hp => ⟨⟨rfl, rfl⟩, hp.2⟩⟩
    · simp only [if_neg h2] at h
      split_ifs at h
      · split at h
        · cases h
        · split_ifs at h
          · cases h
            exact ⟨fun _ => ⟨rfl, rfl⟩, fun hp => ⟨⟨rfl, rfl⟩, hp.2⟩⟩
          · cases h
            exact ⟨fun hg => (by cases hg), fun hp => hp⟩
      · cases h
        exact ⟨fun hg => (by cases hg), fun hp => hp⟩

theorem requestVoteJobs_args (idx : Int) (args : request_vote_args) :
    ∀ (todo i : Nat), ∀ job ∈ requestVoteJobs idx args i todo, job.2 = args := by
  intro todo
  induction todo with
  | zero => intro i job hj; simp [requestVoteJobs] at hj
  | succ todo ih =>
    intro i job hj
    unfold requestVoteJobs at hj
    split_ifs at hj
    · exact ih (i + 1) job hj
    · rcases List.mem_cons.mp hj with rfl | hj
      · rfl
      · exact ih (i + 1) job hj

theorem make_election_persists {now : Nat} {s s1 : raft Cmd}
    {jobs : List (Int × request_vote_args)} (h : make_election now s = some (s1, jobs)) :
    metadata_stored s1 ∧ (log_stored s → log_stored s1) ∧
    ∀ job ∈ jobs, job.2.term = s1.storage.term ∧ job.2.candidate_id = s1.storage.vote := by
  unfold make_election at h
  split at h
  · simp only [Option.some.injEq, Prod.mk.injEq] at h
    obtain ⟨rfl, rfl⟩ := h
    refine ⟨⟨rfl, rfl⟩, fun hl => hl, fun job hj => ?_⟩
    rw [requestVoteJobs_args _ _ _ _ job hj]
    exact ⟨rfl, rfl⟩
  · cases h

theorem append_entries_persists {now : Nat} {ok : Bool} {s s1 : raft Cmd}
    {arg : append_entries_args Cmd} {reply : append_entries_reply}
    (h : append_entries now ok s arg = some (s1, reply)) (hp : persisted s) :
    persisted s1 := by
  unfold append_entries at h
  simp only at h
  by_cases h1 : arg.term < s.current_term
  · rw [if_pos h1] at h
    cases h
    exact hp
  · rw [if_neg h1] at h
    generalize hs2 : (if arg.term > s.current_term ∨ s.role = raft_role.candidate then
      setFollower { s with pre_time := now } arg.term else { s with pre_time := now }) = s2 at h
    have hp2 : persisted s2 := by
      rw [← hs2]
      split_ifs
      · exact ⟨⟨rfl, rfl⟩, hp.2⟩
      · exact hp
    clear hs2
    cases hb : s2.log.getLast? with
    | none => simp [hb] at h
    | some back =>
      cases hf : s2.log.head? with
      | none => simp [hb, hf] at h
      | some front =>
        simp only [hb, hf] at h
        by_cases h2 : arg.prevLogIndex ≤ back.index
        · rw [if_pos h2] at h
          cases hv : vget s2.log (arg.prevLogIndex - front.index) with
          | none => simp [hv] at h
          | some prev =>
            simp only [hv] at h
            by_cases h3 : arg.prevLogTerm = prev.term
            · rw [if_pos h3] at h
              split at h
              · exact absurd h (by simp)
              · rename_i s3 happ
                have hp3 : persisted s3 := by
                  by_cases e1 : arg.entries.isEmpty = true
                  · simp only [e1, Bool.not_true, Bool.false_eq_true, if_false,
                      Option.some.injEq] at happ
                    subst happ
                    exact hp2
                  · simp only [e1, Bool.not_false, if_true] at happ
                    by_cases e2 : arg.prevLogIndex < back.index
                    · have e3 : arg.prevLogIndex + 1 ≤ back.index := by omega
                      simp only [if_pos e2, if_pos e3, erase_from] at happ
                      split_ifs at happ with e4
                      simp only [Option.some.injEq] at happ
                      subst happ
                      exact ⟨hp2.1, rfl⟩
                    · simp only [if_neg e2, Option.some.injEq] at happ
                      subst happ
                      refine ⟨?_, ?_⟩
                      · cases ok
                        · exact hp2.1
                        · exact hp2.1
                      · cases ok
                        · rfl
                        · show s2.storage.log ++ arg.entries = s2.log ++ arg.entries
                          rw [hp2.2]
                by_cases h4 : arg.leaderCommit > s3.commitIndex
                · rw [if_pos h4] at h
                  split at h
                  · exact absurd h (by simp)
                  · simp only [Option.some.injEq, Prod.mk.injEq] at h
                    obtain ⟨rfl, rfl⟩ := h
                    exact hp3
                · rw [if_neg h4] at h
                  simp only [Option.some.injEq, Prod.mk.injEq] at h
                  obtain ⟨rfl, rfl⟩ := h
                  exact hp3
            · rw [if_neg h3] at h
              simp only [Option.some.injEq, Prod.mk.injEq] at h
              obtain ⟨rfl, rfl⟩ := h
              exact hp2
        · rw [if_neg h2] at h
          simp only [Option.some.injEq, Prod.mk.injEq] at h
          obtain ⟨rfl, rfl⟩ := h
          exact hp2

theorem new_command_persists {ok : Bool} {s s1 : raft Cmd} {cmd : Cmd}
    {r : Option (Int × Int)} (h : new_command ok s cmd = some (s1, r)) (hp : persisted s) :
    persisted s1 := by
  unfold new_command at h
  by_cases hrole : s.role ≠ .leader
  · rw [if_pos hrole] at h
    cases h
    exact hp
  · rw [if_neg hrole] at h
    split at h
    · cases h
    · simp only at h
      split at h
      · cases h
        cases ok
        · exact ⟨hp.1, rfl⟩
        · refine ⟨hp.1, ?_⟩
          show s.storage.log ++ _ = s.log ++ _
          rw [hp.2]
      · cases h

theorem save_snapshot_persists {snap : List (sm_call Cmd) → List Char} {s s1 : raft Cmd}
    {r : Bool} (h : save_snapshot snap s = some (s1, r)) :
    log_stored s1 ∧ s1.storage.snapshot = s1.snapshot ∧
    (metadata_stored s → metadata_stored s1) := by
  unfold save_snapshot at h
  split at h
  · simp only at h
    split at h
    · cases h
    · cases h
      exact ⟨rfl, rfl, fun hm => hm⟩
  · cases h

theorem install_snapshot_persists [Inhabited Cmd] {now : Nat} {s s1 : raft Cmd}
    {arg : install_snapshot_args} {reply : install_snapshot_reply}
    (h : install_snapshot now s arg = some (s1, reply)) :
    (persisted s → persisted s1) ∧
    (arg.term ≥ s.current_term → log_stored s1 ∧ s1.storage.snapshot = s1.snapshot) := by
  unfold install_snapshot at h
  simp only at h
  by_cases h1 : arg.term < s.current_term
  · rw [if_pos h1] at h
    cases h
    exact ⟨fun hp => hp, fun h2 => absurd h2 (by omega)⟩
  · rw [if_neg h1] at h
    generalize hs2 : (if arg.term > s.current_term ∨ s.role = raft_role.candidate then
      setFollower { s with pre_time := now } arg.term else { s with pre_time := now }) = s2 at h
    have hp2 : metadata_stored s → metadata_stored s2 := by
      intro hm
      rw [← hs2]
      split_ifs
      · exact ⟨rfl, rfl⟩
      · exact hm
    clear hs2
    split at h
    · split at h
      · cases h
      · cases h
        exact ⟨fun hp => ⟨hp2 hp.1, rfl⟩, fun _ => ⟨rfl, rfl⟩⟩
    · cases h

theorem create_persists [Inhabited Cmd] {n : Nat} {idx : Int} {now : Nat}
    {restored : Option (raft_storage Cmd)} {s : raft Cmd}
    (h : raft.create n idx now restored = some s) : persisted s := by
  unfold raft.create at h
  simp only at h
  split at h
  · cases h
  · cases h
    exact ⟨⟨rfl, rfl⟩, rfl⟩

/-- C25: persistence precedes acknowledgement. The storage holds the last written
`(term, voted_for)`, log and snapshot, and a failed `appendLog` leaves it unchanged. A
replica starts with the stored metadata and log equal to the in-memory ones, and on such a
state each of `request_vote`, `append_entries`, `new_command`, `save_snapshot` and
`install_snapshot`, `make_election` and `setFollower` ends with the stored
`(term, voted_for)` equal to `(current_term, vote_for)` and the stored log equal to the
log. Moreover a granting `request_vote`, `make_election` and `setFollower` have written
the metadata whatever the storage held before, every RequestVote queued by
`make_election` carries the stored term and vote, and `save_snapshot` and a
non-stale `install_snapshot` have written the log and the snapshot. -/
theorem persistence_precedes_acknowledgement [Inhabited Cmd] (s : raft Cmd) :
    (∀ (n : Nat) (idx : Int) (now : Nat) (restored : Option (raft_storage Cmd)),
      raft.create n idx now restored = some s → persisted s) ∧
    (∀ (now : Nat) (arg : request_vote_args) (s1 : raft Cmd) (reply : request_vote_reply),
      request_vote now s arg = some (s1, reply) →
      (reply.vote_grant = true → metadata_stored s1) ∧ (persisted s → persisted s1)) ∧
    (∀ (now : Nat) (s1 : raft Cmd) (jobs : List (Int × request_vote_args)),
      make_election now s = some (s1, jobs) →
      metadata_stored s1 ∧ (persisted s → persisted s1) ∧
      ∀ job ∈ jobs, job.2.term = s1.storage.term ∧ job.2.candidate_id = s1.storage.vote) ∧
    (∀ t : Int, metadata_stored (setFollower s t) ∧
      (persisted s → persisted (setFollower s t))) ∧
    (∀ (now : Nat) (ok : Bool) (arg : append_entries_args Cmd) (s1 : raft Cmd)
      (reply : append_entries_reply),
      append_entries now ok s arg = some (s1, reply) → persisted s → persisted s1) ∧
    (∀ (ok : Bool) (cmd : Cmd) (s1 : raft Cmd) (r : Option (Int × Int)),
      new_command ok s cmd = some (s1, r) → persisted s → persisted s1) ∧
    (∀ (snap : List (sm_call Cmd) → List Char) (s1 : raft Cmd) (r : Bool),
      save_snapshot snap s = some (s1, r) →
      log_stored s1 ∧ s1.storage.snapshot = s1.snapshot ∧ (persisted s → persisted s1)) ∧
    (∀ (now : Nat) (arg : install_snapshot_args) (s1 : raft Cmd)
      (reply : install_snapshot_reply),
      install_snapshot now s arg = some (s1, reply) →
      (persisted s → persisted s1) ∧
      (arg.term ≥ s.current_term → log_stored s1 ∧ s1.storage.snapshot = s1.snapshot)) := by
  refine ⟨fun n idx now restored h => create_persists h,
    fun now arg s1 reply h => request_vote_persists h, fun now s1 jobs h => ?_,
    fun t => ⟨⟨rfl, rfl⟩, fun hp => ⟨⟨rfl, rfl⟩, hp.2⟩⟩,
    fun now ok arg s1 reply h hp => append_entries_persists h hp,
    fun ok cmd s1 r h hp => new_command_persists h hp, fun snap s1 r h => ?_,
    fun now arg s1 reply h => install_snapshot_persists h⟩
  · obtain ⟨hm, hl, hj⟩ := make_election_persists h
    exact ⟨hm, fun hp => ⟨hm, hl hp.2⟩, hj⟩
  · obtain ⟨hl, hs, hm⟩ := save_snapshot_persists h
    exact ⟨hl, hs, fun hp => ⟨hm hp.1, hl⟩⟩

/-- Witness of C25: the follower `follower_example`, fresh from the constructor, handles
`append_example` and reports success. -/
theorem persistence_precedes_acknowledgement_witness :
    raft.create 3 1 0 none = some follower_example ∧
    persisted follower_example ∧
    append_entries 0 true follower_example append_example = some append_example_result ∧
    append_example_result.2.success = true ∧
    persisted append_example_result.1 :=
  have hp : persisted follower_example :=
    (persistence_precedes_acknowledgement follower_example).1 3 1 0 none (by decide)
  ⟨by decide, hp, by decide, by decide,
    (persistence_precedes_acknowledgement follower_example).2.2.2.2.1 0 true append_example
      append_example_result.1 append_example_result.2 (by decide) hp⟩

/-! ## C26: marshalling -/

theorem example_codec_round_trips (α : Type) [Encodable α] : (example_codec α).round_trips := by
  intro x rest
  simp [example_codec]

theorem example_char_round_trips : example_char.round_trips := by
  intro x rest
  simp [example_char, Char.ofNat_toNat]

theorem read_elements_spec {α : Type} (c : codec α) (hc : c.round_trips) :
    ∀ (xs : List α) (rest : wire),
      read_elements c xs.length ((xs.map c.put).flatten ++ rest) = some (xs, rest) := by
  intro xs
  induction xs with
  | nil => intro rest; rfl
  | cons x xs ih =>
    intro rest
    simp only [List.length_cons, List.map_cons, List.flatten_cons, List.append_assoc,
      read_elements, hc x, ih rest]

theorem example_vector_round_trips {α : Type} (c : codec α) (hc : c.round_trips) :
    (example_vector c).round_trips := by
  intro xs rest
  simp only [example_vector, List.cons_append]
  exact read_elements_spec c hc xs rest

theorem example_primitives_round_trips : example_primitives.round_trips :=
  ⟨example_codec_round_trips Int, example_codec_round_trips Bool,
    example_vector_round_trips _ example_char_round_trips,
    example_codec_round_trips Nat, fun c hc => example_vector_round_trips c hc⟩

theorem log_entry_codec_round_trips (p : primitives Cmd) (hp : p.round_trips) :
    (log_entry_codec p).round_trips := by
  obtain ⟨hint, -, -, hcmd, -⟩ := hp
  intro x rest
  simp only [log_entry_codec, marshall_log_entry, unmarshall_log_entry, List.nil_append,
    List.append_assoc, hint _ _, hcmd _ _]

/-- C26: the serialization round trip. Given that the primitive marshalling of `int`,
`bool`, byte vector, command and vector round-trips, for each of `request_vote_args`,
`request_vote_reply`, `append_entries_args`, `append_entries_reply`,
`install_snapshot_args`, `install_snapshot_reply` and `log_entry`, `operator>>` applied to
a buffer that starts with what `operator<<` wrote gives back the value, equal in every
field, and the rest of the buffer; and `operator<<` appends the fields in the order of the
wire schema. -/
theorem marshall_round_trip (p : primitives Cmd) (hp : p.round_trips) :
    (∀ (x : request_vote_args) (m rest : wire),
      marshall_request_vote_args p m x = m ++ schema_request_vote_args p x ∧
      unmarshall_request_vote_args p (marshall_request_vote_args p [] x ++ rest) =
        some (x, rest)) ∧
    (∀ (x : request_vote_reply) (m rest : wire),
      marshall_request_vote_reply p m x = m ++ schema_request_vote_reply p x ∧
      unmarshall_request_vote_reply p (marshall_request_vote_reply p [] x ++ rest) =
        some (x, rest)) ∧
    (∀ (x : append_entries_args Cmd) (m rest : wire),
      marshall_append_entries_args p m x = m ++ schema_append_entries_args p x ∧
      unmarshall_append_entries_args p (marshall_append_entries_args p [] x ++ rest) =
        some (x, rest)) ∧
    (∀ (x : append_entries_reply) (m rest : wire),
      marshall_append_entries_reply p m x = m ++ schema_append_entries_reply p x ∧
      unmarshall_append_entries_reply p (marshall_append_entries_reply p [] x ++ rest) =
        some (x, rest)) ∧
    (∀ (x : install_snapshot_args) (m rest : wire),
      marshall_install_snapshot_args p m x = m ++ schema_install_snapshot_args p x ∧
      unmarshall_install_snapshot_args p (marshall_install_snapshot_args p [] x ++ rest) =
        some (x, rest)) ∧
    (∀ (x : install_snapshot_reply) (m rest : wire),
      marshall_install_snapshot_reply p m x = m ++ schema_install_snapshot_reply p x ∧
      unmarshall_install_snapshot_reply p (marshall_install_snapshot_reply p [] x ++ rest) =
        some (x, rest)) ∧
    (∀ (x : log_entry Cmd) (m rest : wire),
      marshall_log_entry p m x = m ++ schema_log_entry p x ∧
      unmarshall_log_entry p (marshall_log_entry p [] x ++ rest) = some (x, rest)) := by
  have hentry := log_entry_codec_round_trips p hp
  obtain ⟨hint, hbool, hbytes, hcmd, hvec⟩ := hp
  have hentries := hvec _ hentry
  refine ⟨fun x m rest => ⟨?_, ?_⟩, fun x m rest => ⟨?_, ?_⟩, fun x m rest => ⟨?_, ?_⟩,
    fun x m rest => ⟨?_, ?_⟩, fun x m rest => ⟨?_, ?_⟩, fun x m rest => ⟨?_, ?_⟩,
    fun x m rest => ⟨?_, ?_⟩⟩
  · simp only [marshall_request_vote_args, schema_request_vote_args, List.append_assoc]
  · simp only [marshall_request_vote_args, unmarshall_request_vote_args, List.nil_append,
      List.append_assoc, hint _ _]
  · simp only [marshall_request_vote_reply, schema_request_vote_reply, List.append_assoc]
  · simp only [marshall_request_vote_reply, unmarshall_request_vote_reply, List.nil_append,
      List.append_assoc, hint _ _, hbool _ _]
  · simp only [marshall_append_entries_args, schema_append_entries_args, List.append_assoc]
    rfl
  · simp only [marshall_append_entries_args, unmarshall_append_entries_args,
      List.nil_append, List.append_assoc, hint _ _, hentries _ _]
  · simp only [marshall_append_entries_reply, schema_append_entries_reply, List.append_assoc]
  · simp only [marshall_append_entries_reply, unmarshall_append_entries_reply,
      List.nil_append, List.append_assoc, hint _ _, hbool _ _]
  · simp only [marshall_install_snapshot_args, schema_install_snapshot_args,
      List.append_assoc]
  · simp only [marshall_install_snapshot_args, unmarshall_install_snapshot_args,
      List.nil_append, List.append_assoc, hint _ _, hbytes _ _]
  · simp only [marshall_install_snapshot_reply, schema_install_snapshot_reply]
  · simp only [marshall_install_snapshot_reply, unmarshall_install_snapshot_reply,
      List.nil_append, hint _ _]
  · simp only [marshall_log_entry, schema_log_entry, List.append_assoc]
  · simp only [marshall_log_entry, unmarshall_log_entry, List.nil_append,
      List.append_assoc, hint _ _, hcmd _ _]

/-- Witness of C26: with the primitive marshalling of the examples, the AppendEntries
`append_example` is read back from the buffer that holds it. -/
theorem marshall_round_trip_witness :
    example_primitives.round_trips ∧
    unmarshall_append_entries_args example_primitives
      (marshall_append_entries_args example_primitives [] append_example ++ []) =
        some (append_example, []) :=
  ⟨example_primitives_round_trips,
    ((marshall_round_trip example_primitives example_primitives_round_trips).2.2.1
      append_example [] []).2⟩

/-- Witness of C27: the order in which both requests are handled before both replies. -/
theorem normal_election_witness :
    normal_election_run ∈ normal_election_runs ∧
    election_outcome normal_election_run =
      some ([(true, 1), (false, 1), (false, 1)], [true, true]) :=
  ⟨by decide, normal_election normal_election_run (by decide)⟩

/-! ## C33 and C34: reads of the log -/

/-- C33 fails on the code: replica 1 of a 3-replica cluster holds the applied entries 0 to 2,
becomes leader of term 2 (`nextIndex = 3` for every peer) and takes a snapshot, so that its
log starts at index 2. The fresh replica 2 rejects its heartbeat (`prevLogIndex = 2`), and
the reply lowers `nextIndex[2]` to 2. The next heartbeat for replica 2 has
`prevLogIndex = 1`, below the base index 2: `sendHeartBeat` reads `log[-1]`. -/
theorem heartbeat_reads_below_base :
    snapshot_leader_example.1.role = .leader ∧
    snapshot_leader_example.2 =
      [(0, snapshot_heartbeat_example), (2, snapshot_heartbeat_example)] ∧
    (append_entries 0 true (raft.fresh 3 2 0 : raft Nat) snapshot_heartbeat_example).map
      Prod.snd = some ⟨0, false⟩ ∧
    ((save_snapshot snapshot_example snapshot_leader_example.1).map Prod.fst).bind
      (fun s => handle_append_entries_reply s 2 snapshot_heartbeat_example ⟨0, false⟩) =
      some lagging_leader_example ∧
    lagging_leader_example.role = .leader ∧
    log_ok lagging_leader_example.log ∧
    base_index lagging_leader_example.log = 2 ∧
    last_index lagging_leader_example.log = 2 ∧
    vget lagging_leader_example.nextIndex 2 = some 2 ∧
    vget lagging_leader_example.log (2 - 1 - base_index lagging_leader_example.log) = none ∧
    run_background_ping lagging_leader_example = none :=
  ⟨by decide, by decide, by decide, by decide, by decide,
    log_ok_of_indexed (by decide) (by decide), by decide, by decide, by decide, by decide,
    by decide⟩

theorem vget_negative {α : Type} (v : List α) {j : Int} (hj : j < 0) : vget v j = none := by
  rw [vget, if_neg (by omega)]

/-- The acceptance test of `append_entries` and `install_snapshot` reads the log before
its first entry when the index sent is below the base index: the handlers have no defined
result. -/
theorem handler_below_base [Inhabited Cmd] (now : Nat) (ok : Bool) (s : raft Cmd)
    (hlog : log_ok s.log) :
    (∀ arg : append_entries_args Cmd, arg.term ≥ s.current_term →
      arg.prevLogIndex < base_index s.log → append_entries now ok s arg = none) ∧
    (∀ arg : install_snapshot_args, arg.term ≥ s.current_term →
      arg.last_index < base_index s.log → install_snapshot now s arg = none) := by
  obtain ⟨back, hb⟩ := getLast_some_of_ne_nil hlog.1
  obtain ⟨front, hf⟩ := head_some_of_ne_nil hlog.1
  have hli := last_index_eq_of_getLast hb
  have hbi := base_index_eq_of_head hf
  have hlen := last_index_add_one hlog
  have hpos : 0 < s.log.length := List.length_pos.mpr hlog.1
  constructor
  · intro arg hterm hlt
    unfold append_entries
    simp only
    rw [if_neg (by omega)]
    generalize hs2 : (if arg.term > s.current_term ∨ s.role = raft_role.candidate then
      setFollower { s with pre_time := now } arg.term else { s with pre_time := now }) = s2
    have hl2 : s2.log = s.log := by
      rw [← hs2]; split_ifs <;> rfl
    rw [hl2]
    simp only [hb, hf]
    rw [if_pos (by omega), vget_negative _ (by omega)]
  · intro arg hterm hlt
    unfold install_snapshot
    simp only
    rw [if_neg (by omega)]
    generalize hs2 : (if arg.term > s.current_term ∨ s.role = raft_role.candidate then
      setFollower { s with pre_time := now } arg.term else { s with pre_time := now }) = s2
    have hl2 : s2.log = s.log := by
      rw [← hs2]; split_ifs <;> rfl
    rw [hl2]
    simp only [hb, hf]
    rw [if_pos (by omega), vget_negative _ (by omega)]

/-- C34 fails on the code: on the follower `trimmed_example`, whose log starts at index 1
after a snapshot, the delayed AppendEntries `stale_append_example` (`prevLogIndex = 0`) and
an InstallSnapshot taken at index 0 make the handlers compare with `log[-1]`; so do an
AppendEntries with `prevLogIndex = -1` and an InstallSnapshot with `last_index = -1` on
the fresh follower `follower_example`. All four arguments have `arg.term ≥ current_term`
and both logs satisfy the log structure invariant. -/
theorem handler_reads_below_base :
    log_ok trimmed_example.log ∧ base_index trimmed_example.log = 1 ∧
    stale_append_example.term ≥ trimmed_example.current_term ∧
    vget trimmed_example.log
      (stale_append_example.prevLogIndex - base_index trimmed_example.log) = none ∧
    append_entries 0 true trimmed_example stale_append_example = none ∧
    install_snapshot 0 trimmed_example ⟨1, 0, 0, 0, []⟩ = none ∧
    log_ok follower_example.log ∧
    append_entries 0 true follower_example ⟨1, 0, -1, 0, [], 0⟩ = none ∧
    install_snapshot 0 follower_example ⟨1, 0, -1, 0, []⟩ = none :=
  ⟨log_ok_of_indexed (by decide) (by decide), by decide, by decide, by decide, by decide,
    by decide, log_ok_of_indexed (by decide) (by decide), by decide, by decide⟩

/-! ## C31: the tallies and `commitIndex` -/

/-- The tallies after the loop of `handle_append_entries_reply`: `mc` is `matchCount` with
the tallies that the loop has incremented, of which the loop removes the first
`s1.commitIndex - s.commitIndex`. -/
theorem commitLoop_tallies (last : Int) : ∀ (todo : Nat) (s s1 : raft Cmd),
    commitLoop last todo s = some s1 →
    s.commitIndex ≤ s1.commitIndex ∧
    ∃ mc : List Int, mc.length = s.matchCount.length ∧
      (∀ (j : Nat) (c : Int), s.matchCount[j]? = some c →
        ∃ d, mc[j]? = some d ∧ c ≤ d ∧
          d ≤ c + (if last < j ∧ (j : Int) ≤ last + todo then 1 else 0)) ∧
      s1.matchCount = mc.drop (s1.commitIndex - s.commitIndex).toNat := by
  intro todo
  induction todo with
  | zero =>
    intro s s1 h
    simp only [commitLoop, Option.some.injEq] at h
    subst h
    refine ⟨le_refl _, s.matchCount, rfl, fun j c hj => ⟨c, hj, le_refl _, ?_⟩, by simp⟩
    split_ifs <;> omega
  | succ todo ih =>
    intro s s1 h
    unfold commitLoop at h
    simp only [Nat.cast_add, Nat.cast_one] at h ⊢
    generalize hi : last + ((todo : Int) + 1) = i at h
    cases hc : vget s.matchCount i with
    | none => simp [hc] at h
    | some count =>
      simp only [hc] at h
      have hr := vget_lt_length hc
      have hget : s.matchCount[i.toNat]? = some count := (vget_eq_some hc).2
      have hilt : i.toNat < s.matchCount.length := by omega
      have hset : ∀ (j : Nat) (c : Int), s.matchCount[j]? = some c →
          (s.matchCount.set i.toNat (count + 1))[j]? =
            some (if j = i.toNat then count + 1 else c) := by
        intro j c hj
        by_cases hji : j = i.toNat
        · rw [if_pos hji, hji, List.getElem?_set_self hilt]
        · rw [if_neg hji, List.getElem?_set_ne (fun h => hji h.symm), hj]
      have hrec : commitLoop last todo
          { s with matchCount := s.matchCount.set i.toNat (count + 1) } = some s1 →
          s.commitIndex ≤ s1.commitIndex ∧
          ∃ mc : List Int, mc.length = s.matchCount.length ∧
            (∀ (j : Nat) (c : Int), s.matchCount[j]? = some c →
              ∃ d, mc[j]? = some d ∧ c ≤ d ∧
                d ≤ c + (if last < j ∧ (j : Int) ≤ i then 1 else 0)) ∧
            s1.matchCount = mc.drop (s1.commitIndex - s.commitIndex).toNat := by
        intro hr2
        obtain ⟨hle, mc, hlen, hpt, hdrop⟩ := ih _ s1 hr2
        simp only [List.length_set] at hlen
        refine ⟨hle, mc, hlen, fun j c hj => ?_, hdrop⟩
        obtain ⟨d, hd, h1, h2⟩ := hpt j _ (hset j c hj)
        by_cases hji : j = i.toNat
        · rw [if_pos hji] at h1 h2
          rw [hji, hget] at hj
          cases hj
          rw [if_neg (by omega)] at h2
          refine ⟨d, hd, by omega, ?_⟩
          rw [if_pos ⟨by omega, by omega⟩]
          omega
        · rw [if_neg hji] at h1 h2
          refine ⟨d, hd, h1, ?_⟩
          split_ifs at h2 ⊢ <;> omega
      by_cases hmaj : (s.num_nodes : Int) / 2 < count + 1
      · rw [if_pos hmaj] at h
        cases hf : s.log.head? with
        | none => simp [hf] at h
        | some front =>
          simp only [hf] at h
          cases hv : vget s.log (s.commitIndex + i + 1 - front.index) with
          | none => simp [hv] at h
          | some entry =>
            simp only [hv] at h
            by_cases hterm : entry.term = s.current_term
            · rw [if_pos hterm] at h
              unfold erase_front at h
              split_ifs at h with hk
              simp only [Option.some.injEq] at h
              subst h
              refine ⟨by simp only; omega, s.matchCount.set i.toNat (count + 1),
                List.length_set _ _ _, fun j c hj => ?_, ?_⟩
              · refine ⟨_, hset j c hj, ?_, ?_⟩
                · split_ifs with hji
                  · rw [hji, hget] at hj
                    cases hj
                    omega
                  · exact le_refl _
                · by_cases hji : j = i.toNat
                  · rw [if_pos hji]
                    rw [hji, hget] at hj
                    cases hj
                    rw [if_pos ⟨by omega, by omega⟩]
                  · rw [if_neg hji]
                    split_ifs <;> omega
              · simp only
                congr 1
                omega
            · rw [if_neg hterm] at h
              exact hrec h
      · rw [if_neg hmaj] at h
        exact hrec h

/-- The tallies after `handle_append_entries_reply`. -/
theorem handle_append_entries_reply_tallies {s s1 : raft Cmd} {target : Int}
    {arg : append_entries_args Cmd} {reply : append_entries_reply}
    (h : handle_append_entries_reply s target arg reply = some s1) :
    s.commitIndex ≤ s1.commitIndex ∧
    ∃ mc : List Int, mc.length = s.matchCount.length ∧
      (∀ (j : Nat) (c : Int), s.matchCount[j]? = some c →
        ∃ d, mc[j]? = some d ∧ c ≤ d ∧ d ≤ c + 1) ∧
      s1.matchCount = mc.drop (s1.commitIndex - s.commitIndex).toNat := by
  have hsame : ∀ s2 : raft Cmd, s2.commitIndex = s.commitIndex →
      s2.matchCount = s.matchCount →
      s.commitIndex ≤ s2.commitIndex ∧
      ∃ mc : List Int, mc.length = s.matchCount.length ∧
        (∀ (j : Nat) (c : Int), s.matchCount[j]? = some c →
          ∃ d, mc[j]? = some d ∧ c ≤ d ∧ d ≤ c + 1) ∧
        s2.matchCount = mc.drop (s2.commitIndex - s.commitIndex).toNat := by
    intro s2 h1 h2
    refine ⟨by omega, s.matchCount, rfl, fun j c hj => ⟨c, hj, by omega, by omega⟩, ?_⟩
    rw [h1, h2]
    simp
  unfold handle_append_entries_reply at h
  by_cases h1 : reply.term > s.current_term
  · rw [if_pos h1] at h
    cases h
    exact hsame _ rfl rfl
  · rw [if_neg h1] at h
    by_cases h2 : s.role ≠ .leader
    · rw [if_pos h2] at h
      cases h
      exact hsame _ rfl rfl
    · rw [if_neg h2] at h
      by_cases h3 : reply.success = true
      · rw [if_pos h3] at h
        cases hp : vget s.matchIndex target with
        | none => simp [hp] at h
        | some p =>
          simp only [hp] at h
          generalize max p (arg.prevLogIndex + (arg.entries.length : Int)) = m at h
          cases hmi : vset s.matchIndex target m with
          | none => simp [hmi] at h
          | some mi =>
            cases hni : vset s.nextIndex target (m + 1) with
            | none => simp [hmi, hni] at h
            | some ni =>
              simp only [hmi, hni] at h
              obtain ⟨hle, mc, hlen, hpt, hdrop⟩ := commitLoop_tallies _ _ _ s1 h
              refine ⟨hle, mc, hlen, fun j c hj => ?_, hdrop⟩
              obtain ⟨d, hd, h4, h5⟩ := hpt j c hj
              exact ⟨d, hd, h4, by split_ifs at h5 <;> omega⟩
      · rw [if_neg h3] at h
        cases hn : vget s.nextIndex target with
        | none => simp [hn] at h
        | some next =>
          simp only [hn] at h
          split_ifs at h
          · cases hs : vset s.nextIndex target arg.prevLogIndex with
            | none => simp [hs] at h
            | some ni =>
              simp only [hs, Option.some.injEq] at h
              subst h
              exact hsame _ rfl rfl
          · cases h
            exact hsame _ rfl rfl

/-- C31: `matchCount` stays aligned with `commitIndex`. In every state reached from
`setLeader` (on a replica whose log satisfies the log structure invariant) by `new_command`
and by `handle_append_entries_reply` steps whose arguments satisfy
`prevLogIndex + |entries| ≤` last log index, the length of `matchCount` is the last log
index minus `commitIndex`. When such a reply moves `commitIndex` from `c` to `c + k`, the
tallies `mc` that the handler has counted (each the old tally or one more) lose exactly
their first `k` elements: tally `j` afterwards is the tally that stood at position
`j + k`, the one of index `c + k + j + 1`. -/
theorem match_count_aligned (s0 s : raft Cmd) (h0 : log_ok s0.log)
    (hreach : leader_reach s0 s) :
    (s.matchCount.length : Int) = last_index s.log - s.commitIndex ∧
    ∀ (target : Int) (arg : append_entries_args Cmd) (reply : append_entries_reply)
      (s1 : raft Cmd),
      arg.prevLogIndex + arg.entries.length ≤ last_index s.log →
      handle_append_entries_reply s target arg reply = some s1 →
      s.commitIndex ≤ s1.commitIndex ∧
      (s1.matchCount.length : Int) = last_index s1.log - s1.commitIndex ∧
      ∃ mc : List Int, mc.length = s.matchCount.length ∧
        (∀ (j : Nat) (c : Int), s.matchCount[j]? = some c →
          ∃ d, mc[j]? = some d ∧ c ≤ d ∧ d ≤ c + 1) ∧
        s1.matchCount = mc.drop (s1.commitIndex - s.commitIndex).toNat ∧
        ∀ j : Nat, s1.matchCount[j]? = mc[(s1.commitIndex - s.commitIndex).toNat + j]? := by
  have hinv := leader_reach_commit_inv h0 hreach
  refine ⟨hinv.2.1, fun target arg reply s1 harg h => ?_⟩
  have hinv1 := leader_reach_commit_inv h0 (leader_reach.reply s s1 target arg reply hreach harg h)
  obtain ⟨hle, mc, hlen, hpt, hdrop⟩ := handle_append_entries_reply_tallies h
  refine ⟨hle, hinv1.2.1, mc, hlen, hpt, hdrop, fun j => ?_⟩
  rw [hdrop, List.getElem?_drop]

/-- Witness of C31: the leader `leader_submit_example` (one tally, `commitIndex = 0`)
commits its entry 1 on the reply of replica 1 and is left without tallies. -/
theorem match_count_aligned_witness :
    log_ok candidate_example.log ∧ leader_reach candidate_example leader_submit_example ∧
    leader_submit_example.matchCount = [1] ∧
    handle_append_entries_reply leader_submit_example 1 replicate_example ⟨1, true⟩ =
      some leader_commit_example ∧
    leader_commit_example.commitIndex = leader_submit_example.commitIndex + 1 ∧
    leader_commit_example.matchCount = [] ∧
    (leader_submit_example.matchCount.length : Int) =
      last_index leader_submit_example.log - leader_submit_example.commitIndex ∧
    (leader_commit_example.matchCount.length : Int) =
      last_index leader_commit_example.log - leader_commit_example.commitIndex :=
  have hok : log_ok candidate_example.log := log_ok_of_indexed (by decide) (by decide)
  have hreach : leader_reach candidate_example leader_submit_example :=
    leader_reach.submit leader_example leader_submit_example true 7 (some (1, 1))
      (leader_reach.elected leader_example
        [(1, ⟨1, 0, 0, 0, [], 0⟩), (2, ⟨1, 0, 0, 0, [], 0⟩)] (by decide)) (by decide)
  have h := match_count_aligned candidate_example leader_submit_example hok hreach
  ⟨hok, hreach, by decide, by decide, by decide, by decide, h.1,
    (h.2 1 replicate_example ⟨1, true⟩ leader_commit_example (by decide) (by decide)).2.1⟩

/-! ## C32: the replicator -/

theorem filterMap_range_eq {α : Type} (l : List α) :
    ∀ f : Nat → Option α, (∀ k, k < l.length → f k = l[k]?) →
      (List.range l.length).filterMap f = l := by
  induction l using List.reverseRecOn with
  | nil => intro f _; rfl
  | append_singleton l a ih =>
    intro f h
    rw [List.length_append, List.length_singleton, List.range_succ, List.filterMap_append]
    have h1 : (List.range l.length).filterMap f = l := by
      apply ih
      intro k hk
      rw [h k (by rw [List.length_append]; omega), List.getElem?_append_left hk]
    have h2 : f l.length = some a := by
      rw [h l.length (by rw [List.length_append, List.length_singleton]; omega),
        List.getElem?_append_right (le_refl _)]
      simp
    rw [h1]
    simp [h2]

theorem getEntries_between {s : raft Cmd} (hlog : log_ok s.log) {next : Int}
    (h1 : base_index s.log ≤ next) (h2 : next ≤ last_index s.log) :
    getEntries s next (last_index s.log + 1) =
      some (entries_between s.log next (last_index s.log)) := by
  obtain ⟨entries, he, hl, hk⟩ := getEntries_spec (b := next) (e := last_index s.log + 1)
    hlog h1 (by omega) (le_refl _)
  rw [he]
  congr 1
  unfold entries_between
  have hn : (last_index s.log + 1 - next).toNat = entries.length := by omega
  rw [hn]
  symm
  apply filterMap_range_eq
  intro k hklt
  obtain ⟨x, hx, hent, -⟩ := hk k (by omega)
  rw [hx, hent]

theorem commitJobs_spec (s : raft Cmd) (hlog : log_ok s.log) :
    ∀ (todo i : Nat), i + todo ≤ s.nextIndex.length →
      commitJobs s (last_index s.log) i todo =
        some ((List.range' i todo).filterMap fun (i : Nat) =>
          if (i : Int) = s.idx then none else (vget s.nextIndex i).bind (replicate_to s i)) := by
  obtain ⟨front, hf⟩ := head_some_of_ne_nil hlog.1
  have hbi := base_index_eq_of_head hf
  have hlen := last_index_add_one hlog
  have hpos : 0 < s.log.length := List.length_pos.mpr hlog.1
  intro todo
  induction todo with
  | zero => intro i _; rfl
  | succ todo ih =>
    intro i hi
    have hrest := ih (i + 1) (by omega)
    unfold commitJobs
    rw [List.range'_succ, List.filterMap_cons]
    by_cases hidx : (i : Int) = s.idx
    · rw [if_pos hidx, if_pos hidx, hrest]
    · rw [if_neg hidx, if_neg hidx]
      obtain ⟨next, hv⟩ : ∃ next, vget s.nextIndex (i : Int) = some next :=
        vget_some_of_lt (by omega) (by omega)
      simp only [hv, hf, Option.some_bind]
      by_cases h1 : next ≤ last_index s.log
      · rw [if_pos h1]
        by_cases h2 : next > front.index
        · rw [if_pos h2]
          obtain ⟨prev, hp⟩ : ∃ prev, vget s.log (next - 1 - front.index) = some prev :=
            vget_some_of_lt (by omega) (by omega)
          have hent : entry_at s.log (next - 1) = some prev := by
            rw [entry_at_eq_vget hlog, hbi, hp]
          simp only [hp, getEntries_between hlog (by omega) h1, hrest]
          rw [replicate_to, if_pos ⟨by omega, h1⟩, hent]
          rfl
        · rw [if_neg h2]
          simp only [hrest]
          rw [replicate_to, if_neg (by omega), if_pos (by omega), hbi, hf]
          rfl
      · rw [if_neg h1, hrest, replicate_to, if_neg (by omega), if_neg (by omega)]

/-- C32: one replicator tick. On a leader whose log satisfies the log structure invariant
and that holds a `nextIndex` for every replica, the tick queues, for every peer `i` other
than itself and in the order of the peers: when `base < nextIndex[i] ≤` last log index, an
AppendEntries with `prevLogIndex = nextIndex[i] - 1`, `prevLogTerm` the term of the entry
with that index, `entries` the log entries with the indices `nextIndex[i], ...,` last log
index in order and `leaderCommit = commitIndex`; when `nextIndex[i] ≤ base`, an
InstallSnapshot with the index and term of the first entry of the log and the snapshot
bytes; when `nextIndex[i] >` last log index, nothing. A replica that is not leader queues
nothing. -/
theorem replicator_tick (s : raft Cmd) :
    (s.role = .leader → log_ok s.log → s.num_nodes ≤ s.nextIndex.length →
      run_background_commit s = some (replicator_sends s)) ∧
    (s.role ≠ .leader → run_background_commit s = some []) := by
  constructor
  · intro hrole hlog hn
    obtain ⟨back, hb⟩ := getLast_some_of_ne_nil hlog.1
    rw [run_background_commit, if_pos hrole]
    simp only [hb]
    rw [← last_index_eq_of_getLast hb, commitJobs_spec s hlog s.num_nodes 0 (by omega),
      replicator_sends, List.range_eq_range']
  · intro hrole
    rw [run_background_commit, if_neg hrole]

/-- Witness of C32: the leader `replicator_example` (entries 0 and 1, `nextIndex = [2, 1, 0]`)
sends entry 1 to replica 1 and a snapshot to replica 2. -/
theorem replicator_tick_witness :
    replicator_example.role = .leader ∧ log_ok replicator_example.log ∧
    replicator_example.num_nodes ≤ replicator_example.nextIndex.length ∧
    run_background_commit replicator_example = some (replicator_sends replicator_example) ∧
    replicator_sends replicator_example =
      [.append 1 ⟨1, 0, 0, 0, [⟨1, 1, 7⟩], 0⟩, .snapshot 2 ⟨1, 0, 0, 0, []⟩] :=
  have hlog : log_ok replicator_example.log := log_ok_of_indexed (by decide) (by decide)
  ⟨by decide, hlog, by decide,
    (replicator_tick replicator_example).1 (by decide) hlog (by decide), by decide⟩

end Raft

namespace Chfs

/-- C36 fails on the code: `unlink` erases from the first place at which the name occurs
in the directory content, which may be inside another entry. In the directory `ab:2/a:3/`
the name `a` is found at the front of `ab`: `unlink` of `a` leaves `a:3/`, so the entry `a`
is still there and the entry `ab` is gone. In `ba:2/a:3/` the name `a` is found inside
`ba`: `unlink` of `a` leaves `ba:3/`, the entry `ba` with the inum of `a`. In `x:1/1:5/`
the name `1` is found in the inum of `x`: `unlink` of `1` leaves `x:1:5/`, which
`readdir` reads as the single entry `x`. In all three directories `lookup` finds the
name. -/
theorem unlink_erases_first_occurrence :
    readdir prefix_dir_example = some [⟨"ab".toList, 2⟩, ⟨"a".toList, 3⟩] ∧
    lookup prefix_dir_example "a".toList = some (true, some 3) ∧
    unlink prefix_dir_example "a".toList = some "a:3/".toList ∧
    (unlink prefix_dir_example "a".toList).bind readdir = some [⟨"a".toList, 3⟩] ∧
    readdir shadowed_dir_example = some [⟨"ba".toList, 2⟩, ⟨"a".toList, 3⟩] ∧
    lookup shadowed_dir_example "a".toList = some (true, some 3) ∧
    unlink shadowed_dir_example "a".toList = some "ba:3/".toList ∧
    (unlink shadowed_dir_example "a".toList).bind readdir = some [⟨"ba".toList, 3⟩] ∧
    readdir numeric_dir_example = some [⟨"x".toList, 1⟩, ⟨"1".toList, 5⟩] ∧
    lookup numeric_dir_example "1".toList = some (true, some 5) ∧
    unlink numeric_dir_example "1".toList = some "x:1:5/".toList ∧
    (unlink numeric_dir_example "1".toList).bind readdir = some [⟨"x".toList, 1⟩] := by
  decide

/-! ## Blocks -/

theorem read_write_same (L : layout) (bm : block_manager) (id : Nat) (x buf : List Nat)
    (h1 : id < L.BLOCK_NUM) (h2 : bm.blocks.length = L.BLOCK_NUM) :
    read_block L (write_block L bm id x) id buf = x := by
  simp only [read_block, write_block, if_pos h1]
  rw [List.getD_eq_getElem?_getD, List.getElem?_set_self (by omega)]
  rfl

theorem read_write_other (L : layout) (bm : block_manager) (id id1 : Nat) (x buf : List Nat)
    (h : id ≠ id1) : read_block L (write_block L bm id x) id1 buf = read_block L bm id1 buf := by
  unfold read_block write_block
  by_cases h1 : id < L.BLOCK_NUM
  · rw [if_pos h1]
    simp only [List.getD_eq_getElem?_getD, List.getElem?_set_ne h]
  · rw [if_neg h1]

theorem write_block_frame (L : layout) (bm : block_manager) (id : Nat) (x : List Nat) :
    (write_block L bm id x).blocks.length = bm.blocks.length ∧
    (write_block L bm id x).using_blocks = bm.using_blocks := by
  unfold write_block
  split_ifs
  · exact ⟨List.length_set _ _ _, rfl⟩
  · exact ⟨rfl, rfl⟩

theorem free_count_pos_of (L : layout) (bm : block_manager) (h : 0 < free_count L bm) :
    ∃ b, (List.range' L.FILEBLOCK (L.BLOCK_NUM - L.FILEBLOCK)).find?
      (fun b => decide (b ∉ bm.using_blocks)) = some b := by
  unfold free_count at h
  obtain ⟨b, hb⟩ := List.exists_mem_of_length_pos h
  rw [List.mem_filter] at hb
  cases hf : (List.range' L.FILEBLOCK (L.BLOCK_NUM - L.FILEBLOCK)).find?
      (fun b => decide (b ∉ bm.using_blocks)) with
  | some c => exact ⟨c, rfl⟩
  | none =>
    rw [List.find?_eq_none] at hf
    exact absurd hb.2 (hf b hb.1)

/-- A call of `alloc_block` while a block is free: the block it returns was free, lies from
`FILEBLOCK` on, and is now in use; nothing else changes and one block less is free. -/
theorem alloc_block_spec (L : layout) (bm : block_manager) (h : 0 < free_count L bm) :
    L.FILEBLOCK ≤ (alloc_block L bm).2 ∧ (alloc_block L bm).2 < L.BLOCK_NUM ∧
    (alloc_block L bm).2 ∉ bm.using_blocks ∧
    (alloc_block L bm).1 =
      { bm with using_blocks := (alloc_block L bm).2 :: bm.using_blocks } ∧
    free_count L (alloc_block L bm).1 + 1 = free_count L bm := by
  obtain ⟨b, hb⟩ := free_count_pos_of L bm h
  have hmem := List.mem_of_find?_eq_some hb
  have hfree := List.find?_some hb
  simp only [decide_eq_true_eq] at hfree
  rw [List.mem_range'_1] at hmem
  have hres : alloc_block L bm = ({ bm with using_blocks := b :: bm.using_blocks }, b) := by
    unfold alloc_block
    rw [hb]
  rw [hres]
  refine ⟨hmem.1, by omega, hfree, rfl, ?_⟩
  unfold free_count
  simp only
  have hnodup : (List.range' L.FILEBLOCK (L.BLOCK_NUM - L.FILEBLOCK)).Nodup :=
    List.nodup_range' _ _
  have hfilter : (List.range' L.FILEBLOCK (L.BLOCK_NUM - L.FILEBLOCK)).filter
      (fun c => decide (c ∉ b :: bm.using_blocks)) =
      ((List.range' L.FILEBLOCK (L.BLOCK_NUM - L.FILEBLOCK)).filter
        (fun c => decide (c ∉ bm.using_blocks))).erase b := by
    rw [(hnodup.filter _).erase_eq_filter, List.filter_filter]
    apply List.filter_congr
    intro c _
    by_cases h1 : c = b <;> by_cases h2 : c ∈ bm.using_blocks <;> simp [h1, h2]
  rw [hfilter, List.length_erase_of_mem]
  · have : 0 < ((List.range' L.FILEBLOCK (L.BLOCK_NUM - L.FILEBLOCK)).filter
        (fun c => decide (c ∉ bm.using_blocks))).length := h
    omega
  · rw [List.mem_filter]
    exact ⟨by rw [List.mem_range'_1]; exact hmem, by simpa using hfree⟩

/-! ## The blocks of a file -/

theorem getD_set_self {α : Type} (l : List α) (n : Nat) (x d : α) (h : n < l.length) :
    (l.set n x).getD n d = x := by
  rw [List.getD_eq_getElem?_getD, List.getElem?_set_self h]
  rfl

theorem getD_set_ne {α : Type} (l : List α) (n m : Nat) (x d : α) (h : n ≠ m) :
    (l.set n x).getD m d = l.getD m d := by
  rw [List.getD_eq_getElem?_getD, List.getElem?_set_ne h, List.getD_eq_getElem?_getD]

theorem get_nth_direct (L : layout) (bm : block_manager) (ino : inode) (i : Nat)
    (h : i < L.NDIRECT) : get_nth_blockId L bm ino i = some (ino.blocks.getD i 0) := by
  rw [get_nth_blockId, if_pos h]

theorem get_nth_indirect (L : layout) (bm : block_manager) (ino : inode) (i : Nat)
    (h1 : L.NDIRECT ≤ i) (h2 : i < L.MAXFILE) :
    get_nth_blockId L bm ino i =
      some (L.get_id (read_block L bm (ino.blocks.getD L.NDIRECT 0) L.junk) (i - L.NDIRECT)) := by
  rw [get_nth_blockId, if_neg (by omega), if_pos h2]

/-- The block ids of a file depend on the disk only through the indirect block. -/
theorem get_nth_frame (L : layout) (bm bm1 : block_manager) (ino : inode) (i : Nat)
    (h : L.NDIRECT ≤ i →
      read_block L bm1 (ino.blocks.getD L.NDIRECT 0) L.junk =
        read_block L bm (ino.blocks.getD L.NDIRECT 0) L.junk) :
    get_nth_blockId L bm1 ino i = get_nth_blockId L bm ino i := by
  unfold get_nth_blockId
  by_cases h1 : i < L.NDIRECT
  · rw [if_pos h1, if_pos h1]
  · rw [if_neg h1, if_neg h1, h (by omega)]

/-- One more sound block: the first `k` blocks stay what they were, and block `k` is a block
`b` that was free. -/
theorem file_ok_extend (L : layout) (bm bm1 : block_manager) (ino ino1 : inode) (k b : Nat)
    (hfb : 0 < L.FILEBLOCK) (hok : file_ok L bm ino k) (hk : k < L.MAXFILE)
    (hlen : ino1.blocks.length = L.NDIRECT + 1) (hblen : bm1.blocks.length = L.BLOCK_NUM)
    (hold : ∀ i, i < k → get_nth_blockId L bm1 ino1 i = get_nth_blockId L bm ino i)
    (hnew : get_nth_blockId L bm1 ino1 k = some b)
    (hb1 : L.FILEBLOCK ≤ b) (hb2 : b < L.BLOCK_NUM) (hb3 : b ∉ bm.using_blocks)
    (hb4 : b ∈ bm1.using_blocks) (husing : ∀ c, c ∈ bm.using_blocks → c ∈ bm1.using_blocks)
    (hind : L.FILEBLOCK ≤ ino1.blocks.getD L.NDIRECT 0 ∧
      ino1.blocks.getD L.NDIRECT 0 < L.BLOCK_NUM ∧
      ino1.blocks.getD L.NDIRECT 0 ∈ bm1.using_blocks ∨
      (ino1.blocks.getD L.NDIRECT 0 = 0 ∧ k < L.NDIRECT))
    (hne : ino1.blocks.getD L.NDIRECT 0 = ino.blocks.getD L.NDIRECT 0 ∨
      ino1.blocks.getD L.NDIRECT 0 ∉ bm.using_blocks)
    (hbne : b ≠ ino1.blocks.getD L.NDIRECT 0) :
    file_ok L bm1 ino1 (k + 1) := by
  obtain ⟨-, -, -, h4, h5, h6, h7⟩ := hok
  refine ⟨hlen, hblen, by omega, ?_, ?_, ?_, ?_⟩
  · intro i hi
    by_cases hik : i = k
    · subst hik
      exact ⟨b, hnew, hb1, hb2, hb4, hbne⟩
    · obtain ⟨c, hc, c1, c2, c3, c4⟩ := h4 i (by omega)
      refine ⟨c, by rw [hold i (by omega), hc], c1, c2, husing c c3, ?_⟩
      rcases hne with hne | hne
      · rw [hne]
        exact c4
      · intro heq
        rw [← heq] at hne
        exact hne c3
  · intro i j hi hj heq
    by_cases hik : i = k
    · by_cases hjk : j = k
      · omega
      · exfalso
        obtain ⟨c, hc, -, -, c3, -⟩ := h4 j (by omega)
        rw [hik, hnew, hold j (by omega), hc] at heq
        cases heq
        exact hb3 c3
    · by_cases hjk : j = k
      · exfalso
        obtain ⟨c, hc, -, -, c3, -⟩ := h4 i (by omega)
        rw [hjk, hnew, hold i (by omega), hc] at heq
        cases heq
        exact hb3 c3
      · rw [hold i (by omega), hold j (by omega)] at heq
        exact h5 i j (by omega) (by omega) heq
  · intro h0
    rcases hind with hind | ⟨hind, -⟩
    · exact hind
    · exact absurd hind h0
  · intro hlt
    rcases hind with ⟨hind, -, -⟩ | ⟨-, hind⟩
    · intro h0
      rw [h0] at hind
      omega
    · omega

theorem alloc_block_ex (L : layout) (bm : block_manager) (h : 0 < free_count L bm) :
    ∃ b, alloc_block L bm = ({ bm with using_blocks := b :: bm.using_blocks }, b) ∧
      L.FILEBLOCK ≤ b ∧ b < L.BLOCK_NUM ∧ b ∉ bm.using_blocks ∧
      free_count L { bm with using_blocks := b :: bm.using_blocks } + 1 = free_count L bm := by
  obtain ⟨h1, h2, h3, h4, h5⟩ := alloc_block_spec L bm h
  refine ⟨(alloc_block L bm).2, ?_, h1, h2, h3, ?_⟩
  · exact Prod.ext h4 rfl
  · rw [← h4]
    exact h5

theorem free_count_write (L : layout) (bm : block_manager) (id : Nat) (x : List Nat) :
    free_count L (write_block L bm id x) = free_count L bm := by
  unfold free_count
  rw [(write_block_frame L bm id x).2]

/-- A call of `alloc_nth_block` for the block after the `k` sound ones, while enough blocks
are free: one block is taken for the file, one more for the indirect block when the inode
names none and `k` is not a direct block; the file has `k + 1` sound blocks afterwards. -/
theorem alloc_nth_block_step (L : layout) (hL : L.ok) (bm : block_manager) (ino : inode)
    (k : Nat) (hok : file_ok L bm ino k) (hk : k < L.MAXFILE)
    (hfree : 1 + (if ino.blocks.getD L.NDIRECT 0 = 0 ∧ L.NDIRECT ≤ k then 1 else 0) ≤
      free_count L bm) :
    ∃ bm1 ino1, alloc_nth_block L bm ino k = some (bm1, ino1) ∧ file_ok L bm1 ino1 (k + 1) ∧
      free_count L bm1 +
        (1 + (if ino.blocks.getD L.NDIRECT 0 = 0 ∧ L.NDIRECT ≤ k then 1 else 0)) =
        free_count L bm ∧
      ino1 = { ino with blocks := ino1.blocks } ∧
      (k < L.NDIRECT → ino1.blocks.getD L.NDIRECT 0 = ino.blocks.getD L.NDIRECT 0) ∧
      (L.NDIRECT ≤ k → ino1.blocks.getD L.NDIRECT 0 ≠ 0) := by
  obtain ⟨-, hfb, hfbn, -, -, -, hgs⟩ := hL
  have hok0 := hok
  obtain ⟨h1, h2, h3, h4, h5, h6, h7⟩ := hok
  by_cases hdir : k < L.NDIRECT
  · have hif : ¬ (ino.blocks.getD L.NDIRECT 0 = 0 ∧ L.NDIRECT ≤ k) := by
      rintro ⟨-, h⟩
      omega
    rw [if_neg hif] at hfree ⊢
    obtain ⟨b, hres, hb1, hb2, hb3, hfc⟩ := alloc_block_ex L bm (by omega)
    have hind : (ino.blocks.set k b).getD L.NDIRECT 0 = ino.blocks.getD L.NDIRECT 0 :=
      getD_set_ne _ _ _ _ _ (by omega)
    refine ⟨{ bm with using_blocks := b :: bm.using_blocks },
      { ino with blocks := ino.blocks.set k b }, ?_, ?_, by omega, rfl, fun _ => hind, ?_⟩
    · unfold alloc_nth_block
      rw [if_pos hdir, hres]
    · refine file_ok_extend L bm _ ino _ k b hfb hok0 hk ?_ h2 ?_ ?_ hb1 hb2 hb3 ?_ ?_ ?_ ?_ ?_
      · simp only [List.length_set]
        exact h1
      · intro i hi
        rw [get_nth_direct _ _ _ _ (by omega), get_nth_direct _ _ _ _ (by omega)]
        simp only
        rw [getD_set_ne _ _ _ _ _ (by omega)]
      · rw [get_nth_direct _ _ _ _ hdir]
        simp only
        rw [getD_set_self _ _ _ _ (by omega)]
      · exact List.mem_cons_self _ _
      · intro c hc
        exact List.mem_cons_of_mem _ hc
      · simp only [hind]
        by_cases h0 : ino.blocks.getD L.NDIRECT 0 = 0
        · exact Or.inr ⟨h0, hdir⟩
        · obtain ⟨a1, a2, a3⟩ := h6 h0
          exact Or.inl ⟨a1, a2, List.mem_cons_of_mem _ a3⟩
      · exact Or.inl hind
      · simp only [hind]
        by_cases h0 : ino.blocks.getD L.NDIRECT 0 = 0
        · rw [h0]
          omega
        · intro heq
          rw [heq] at hb3
          exact hb3 (h6 h0).2.2
    · intro h
      omega
  · have hge : L.NDIRECT ≤ k := by omega
    by_cases h0 : ino.blocks.getD L.NDIRECT 0 = 0
    · have hkeq : k = L.NDIRECT := by
        by_contra hne
        exact h7 (by omega) h0
      rw [if_pos ⟨h0, hge⟩] at hfree ⊢
      obtain ⟨b1, hresA, ha1, ha2, ha3, hfcA⟩ := alloc_block_ex L bm (by omega)
      obtain ⟨b2, hresB, hb1, hb2, hb3, hfcB⟩ :=
        alloc_block_ex L { bm with using_blocks := b1 :: bm.using_blocks } (by omega)
      simp only [List.mem_cons, not_or] at hb3
      have hfcC : free_count L { bm with using_blocks := b2 :: b1 :: bm.using_blocks } + 1 =
          free_count L { bm with using_blocks := b1 :: bm.using_blocks } := hfcB
      have hind : (ino.blocks.set L.NDIRECT b1).getD L.NDIRECT 0 = b1 :=
        getD_set_self _ _ _ _ (by omega)
      refine ⟨write_block L { bm with using_blocks := b2 :: b1 :: bm.using_blocks } b1
          (L.set_id (read_block L { bm with using_blocks := b1 :: bm.using_blocks } b1 L.junk)
            (k - L.NDIRECT) b2),
        { ino with blocks := ino.blocks.set L.NDIRECT b1 }, ?_, ?_, ?_, rfl, ?_, ?_⟩
      · unfold alloc_nth_block
        rw [if_neg hdir, if_pos hk]
        simp only [if_pos h0, hresA, hind, hresB]
      · refine file_ok_extend L bm _ ino _ k b2 hfb hok0 hk ?_ ?_ ?_ ?_ hb1 hb2 hb3.2 ?_ ?_ ?_ ?_ ?_
        · simp only [List.length_set]
          exact h1
        · rw [(write_block_frame _ _ _ _).1]
          exact h2
        · intro i hi
          rw [get_nth_direct _ _ _ _ (by omega), get_nth_direct _ _ _ _ (by omega)]
          simp only
          rw [getD_set_ne _ _ _ _ _ (by omega)]
        · rw [get_nth_indirect _ _ _ _ hge hk]
          simp only [hind]
          rw [read_write_same L { bm with using_blocks := b2 :: b1 :: bm.using_blocks } _ _ _
            ha2 h2, hgs, if_pos rfl]
        · rw [(write_block_frame _ _ _ _).2]
          exact List.mem_cons_self _ _
        · intro c hc
          rw [(write_block_frame _ _ _ _).2]
          exact List.mem_cons_of_mem _ (List.mem_cons_of_mem _ hc)
        · simp only [hind]
          refine Or.inl ⟨ha1, ha2, ?_⟩
          rw [(write_block_frame _ _ _ _).2]
          exact List.mem_cons_of_mem _ (List.mem_cons_self _ _)
        · simp only [hind]
          exact Or.inr ha3
        · simp only [hind]
          exact hb3.1
      · rw [free_count_write]
        omega
      · intro h
        omega
      · intro _
        simp only [hind]
        omega
    · have hif : ¬ (ino.blocks.getD L.NDIRECT 0 = 0 ∧ L.NDIRECT ≤ k) := fun h => h0 h.1
      rw [if_neg hif] at hfree ⊢
      obtain ⟨c1, c2, c3⟩ := h6 h0
      obtain ⟨b2, hresB, hb1, hb2, hb3, hfcB⟩ := alloc_block_ex L bm (by omega)
      refine ⟨write_block L { bm with using_blocks := b2 :: bm.using_blocks }
          (ino.blocks.getD L.NDIRECT 0)
          (L.set_id (read_block L bm (ino.blocks.getD L.NDIRECT 0) L.junk) (k - L.NDIRECT) b2),
        ino, ?_, ?_, ?_, rfl, fun _ => rfl, fun _ => h0⟩
      · unfold alloc_nth_block
        rw [if_neg hdir, if_pos hk]
        simp only [if_neg h0, hresB]
      · refine file_ok_extend L bm _ ino _ k b2 hfb hok0 hk h1 ?_ ?_ ?_ hb1 hb2 hb3 ?_ ?_ ?_ ?_ ?_
        · rw [(write_block_frame _ _ _ _).1]
          exact h2
        · intro i hi
          by_cases hid : i < L.NDIRECT
          · rw [get_nth_direct _ _ _ _ hid, get_nth_direct _ _ _ _ hid]
          · rw [get_nth_indirect _ _ _ _ (by omega) (by omega),
              get_nth_indirect _ _ _ _ (by omega) (by omega),
              read_write_same L { bm with using_blocks := b2 :: bm.using_blocks } _ _ _ c2 h2,
              hgs, if_neg (by omega)]
        · rw [get_nth_indirect _ _ _ _ hge hk,
            read_write_same L { bm with using_blocks := b2 :: bm.using_blocks } _ _ _ c2 h2,
            hgs, if_pos rfl]
        · rw [(write_block_frame _ _ _ _).2]
          exact List.mem_cons_self _ _
        · intro c hc
          rw [(write_block_frame _ _ _ _).2]
          exact List.mem_cons_of_mem _ hc
        · refine Or.inl ⟨c1, c2, ?_⟩
          rw [(write_block_frame _ _ _ _).2]
          exact List.mem_cons_of_mem _ c3
        · exact Or.inl rfl
        · intro heq
          rw [heq] at hb3
          exact hb3 c3
      · rw [free_count_write]
        omega

/-- The allocation loop of `write_file`: entered with `k` sound blocks and enough free
blocks, it ends with `k + todo` sound blocks and changes only the block ids of the inode. -/
theorem alloc_blocks_spec (L : layout) (hL : L.ok) (todo : Nat) :
    ∀ (k : Nat) (bm : block_manager) (ino : inode), file_ok L bm ino k →
      k + todo ≤ L.MAXFILE →
      todo + (if ino.blocks.getD L.NDIRECT 0 = 0 ∧ L.NDIRECT < k + todo then 1 else 0) ≤
        free_count L bm →
      ∃ bm1 ino1, alloc_blocks L bm ino k todo = some (bm1, ino1) ∧
        file_ok L bm1 ino1 (k + todo) ∧ ino1 = { ino with blocks := ino1.blocks } := by
  induction todo with
  | zero =>
    intro k bm ino hok _ _
    exact ⟨bm, ino, rfl, hok, rfl⟩
  | succ todo ih =>
    intro k bm ino hok hmax hfree
    have hstep : 1 + (if ino.blocks.getD L.NDIRECT 0 = 0 ∧ L.NDIRECT ≤ k then 1 else 0) ≤
        free_count L bm := by
      by_cases h : ino.blocks.getD L.NDIRECT 0 = 0 ∧ L.NDIRECT ≤ k
      · rw [if_pos h]
        rw [if_pos ⟨h.1, by omega⟩] at hfree
        omega
      · rw [if_neg h]
        omega
    obtain ⟨bm1, ino1, hres, hok1, hfc, hino, hsame, hnz⟩ :=
      alloc_nth_block_step L hL bm ino k hok (by omega) hstep
    have hnext : todo +
        (if ino1.blocks.getD L.NDIRECT 0 = 0 ∧ L.NDIRECT < k + 1 + todo then 1 else 0) ≤
        free_count L bm1 := by
      by_cases hdir : k < L.NDIRECT
      · rw [hsame hdir]
        have hif : ¬ (ino.blocks.getD L.NDIRECT 0 = 0 ∧ L.NDIRECT ≤ k) := by
          rintro ⟨-, h⟩
          omega
        rw [if_neg hif] at hfc
        have heq : k + 1 + todo = k + (todo + 1) := by omega
        rw [heq]
        omega
      · have hif : ¬ (ino1.blocks.getD L.NDIRECT 0 = 0 ∧ L.NDIRECT < k + 1 + todo) :=
          fun h => hnz (by omega) h.1
        rw [if_neg hif]
        by_cases h : ino.blocks.getD L.NDIRECT 0 = 0 ∧ L.NDIRECT ≤ k
        · rw [if_pos h] at hfc
          rw [if_pos ⟨h.1, by omega⟩] at hfree
          omega
        · rw [if_neg h] at hfc
          omega
    obtain ⟨bm2, ino2, hres2, hok2, hino2⟩ := ih (k + 1) bm1 ino1 hok1 (by omega) hnext
    refine ⟨bm2, ino2, ?_, ?_, ?_⟩
    · rw [alloc_blocks, hres]
      exact hres2
    · have heq : k + (todo + 1) = k + 1 + todo := by omega
      rw [heq]
      exact hok2
    · rw [hino2, hino]

theorem file_ok_mono (L : layout) (bm : block_manager) (ino : inode) (n m : Nat)
    (h : file_ok L bm ino n) (hm : m ≤ n) : file_ok L bm ino m := by
  obtain ⟨h1, h2, h3, h4, h5, h6, h7⟩ := h
  exact ⟨h1, h2, by omega, fun i hi => h4 i (by omega),
    fun i j hi hj => h5 i j (by omega) (by omega), h6, fun hlt => h7 (by omega)⟩

/-- Writing one of the blocks of a file, or a block before `FILEBLOCK`, leaves the block
ids of the file and its soundness as they were. -/
theorem file_ok_write (L : layout) (bm : block_manager) (ino : inode) (n b : Nat)
    (x : List Nat) (h : file_ok L bm ino n)
    (hb : b ≠ ino.blocks.getD L.NDIRECT 0 ∨ b < L.FILEBLOCK) :
    file_ok L (write_block L bm b x) ino n ∧
    ∀ i, i < n → get_nth_blockId L (write_block L bm b x) ino i = get_nth_blockId L bm ino i := by
  have hsame : ∀ i, i < n →
      get_nth_blockId L (write_block L bm b x) ino i = get_nth_blockId L bm ino i := by
    intro i hi
    apply get_nth_frame
    intro hge
    apply read_write_other
    rcases hb with hb | hb
    · exact hb
    · have h0 := h.2.2.2.2.2.2 (by omega)
      have := (h.2.2.2.2.2.1 h0).1
      omega
  refine ⟨?_, hsame⟩
  obtain ⟨h1, h2, h3, h4, h5, h6, h7⟩ := h
  refine ⟨h1, by rw [(write_block_frame _ _ _ _).1]; exact h2, h3, ?_, ?_, ?_, h7⟩
  · intro i hi
    obtain ⟨c, hc, c1, c2, c3, c4⟩ := h4 i hi
    exact ⟨c, by rw [hsame i hi, hc], c1, c2, by rw [(write_block_frame _ _ _ _).2]; exact c3, c4⟩
  · intro i j hi hj heq
    rw [hsame i hi, hsame j hj] at heq
    exact h5 i j hi hj heq
  · intro h0
    rw [(write_block_frame _ _ _ _).2]
    exact h6 h0

/-- The loop of `write_file` over the whole blocks: block `j` of the file holds bytes
`j * BLOCK_SIZE` on of `buf` afterwards, and the blocks that are not among those written
hold what they held. -/
theorem write_blocks_spec (L : layout) (ino : inode) (buf : List Nat) (n : Nat)
    (todo : Nat) :
    ∀ (i : Nat) (bm : block_manager), file_ok L bm ino n → i + todo ≤ n →
      ∃ bm1, write_blocks L ino buf bm i todo = some bm1 ∧ file_ok L bm1 ino n ∧
        (∀ j, j < n → get_nth_blockId L bm1 ino j = get_nth_blockId L bm ino j) ∧
        (∀ j b y, i ≤ j → j < i + todo → get_nth_blockId L bm ino j = some b →
          read_block L bm1 b y = (buf.drop (j * L.BLOCK_SIZE)).take L.BLOCK_SIZE) ∧
        (∀ b y, (∀ j, i ≤ j → j < i + todo → get_nth_blockId L bm ino j ≠ some b) →
          read_block L bm1 b y = read_block L bm b y) := by
  induction todo with
  | zero =>
    intro i bm hok _
    refine ⟨bm, rfl, hok, fun _ _ => rfl, ?_, fun _ _ _ => rfl⟩
    intro j b y h1 h2
    omega
  | succ todo ih =>
    intro i bm hok hle
    obtain ⟨c, hc, c1, c2, c3, c4⟩ := hok.2.2.2.1 i (by omega)
    obtain ⟨hok1, hsame1⟩ := file_ok_write L bm ino n c
      ((buf.drop (i * L.BLOCK_SIZE)).take L.BLOCK_SIZE) hok (Or.inl c4)
    obtain ⟨bm1, hres, hok2, hsame2, hdata, hframe⟩ := ih (i + 1) _ hok1 (by omega)
    refine ⟨bm1, ?_, hok2, ?_, ?_, ?_⟩
    · rw [write_blocks, hc]
      exact hres
    · intro j hj
      rw [hsame2 j hj, hsame1 j hj]
    · intro j b y h1 h2 hb
      by_cases hji : j = i
      · subst hji
        rw [hc] at hb
        cases hb
        rw [hframe]
        · exact read_write_same L bm c _ _ c2 hok.2.1
        · intro j2 hj2 hj3 heq
          rw [hsame1 j2 (by omega), ← hc] at heq
          have := hok.2.2.2.2.1 j2 j (by omega) (by omega) heq
          omega
      · apply hdata j b y (by omega) (by omega)
        rw [hsame1 j (by omega)]
        exact hb
    · intro b y hb
      rw [hframe]
      · apply read_write_other
        intro heq
        apply hb i (by omega) (by omega)
        rw [hc, heq]
      · intro j hj1 hj2 heq
        apply hb j (by omega) (by omega)
        rw [← hsame1 j (by omega)]
        exact heq

/-- The loop of `read_file` over whole blocks that hold consecutive pieces of `buf`. -/
theorem read_blocks_spec (L : layout) (bm : block_manager) (ino : inode) (buf : List Nat)
    (todo : Nat) :
    ∀ (i : Nat) (buf0 : List Nat),
      (∀ j, i ≤ j → j < i + todo → ∃ b, get_nth_blockId L bm ino j = some b ∧
        ∀ y, read_block L bm b y = (buf.drop (j * L.BLOCK_SIZE)).take L.BLOCK_SIZE) →
      ∃ last, read_blocks L bm ino i todo buf0 =
        some ((buf.drop (i * L.BLOCK_SIZE)).take (todo * L.BLOCK_SIZE), last) := by
  induction todo with
  | zero =>
    intro i buf0 _
    exact ⟨buf0, by simp [read_blocks]⟩
  | succ todo ih =>
    intro i buf0 h
    obtain ⟨b, hb, hread⟩ := h i (by omega) (by omega)
    obtain ⟨last, hlast⟩ := ih (i + 1) (read_block L bm b buf0)
      (fun j h1 h2 => h j (by omega) (by omega))
    refine ⟨last, ?_⟩
    have h1 : (todo + 1) * L.BLOCK_SIZE = L.BLOCK_SIZE + todo * L.BLOCK_SIZE := by ring
    have h2 : (i + 1) * L.BLOCK_SIZE = i * L.BLOCK_SIZE + L.BLOCK_SIZE := by ring
    rw [read_blocks, hb]
    simp only [hlast]
    rw [hread, h1, List.take_add, List.drop_drop, h2, List.take_take, min_self]

theorem get_inode_some (L : layout) (bm : block_manager) (inum : Nat) (ino : inode)
    (h : get_inode L bm inum = some ino) :
    inum < L.INODE_NUM ∧ ino.type ≠ 0 ∧
      ino = L.load_inode (read_block L bm (L.IBLOCK inum) L.junk) inum := by
  unfold get_inode at h
  by_cases h1 : inum ≥ L.INODE_NUM
  · rw [if_pos h1] at h
    cases h
  · rw [if_neg h1] at h
    simp only at h
    by_cases h2 : (L.load_inode (read_block L bm (L.IBLOCK inum) L.junk) inum).type = 0
    · rw [if_pos h2] at h
      cases h
    · rw [if_neg h2] at h
      cases h
      exact ⟨by omega, h2, rfl⟩

/-- An inode put on the disk is the inode that `get_inode` returns. -/
theorem get_put_inode (L : layout) (hL : L.ok) (bm : block_manager) (inum : Nat) (ino : inode)
    (h1 : inum < L.INODE_NUM) (h2 : bm.blocks.length = L.BLOCK_NUM)
    (h3 : ino.blocks.length = L.NDIRECT + 1) (h4 : ino.type ≠ 0) :
    get_inode L (put_inode L bm inum ino) inum = some ino := by
  obtain ⟨-, -, hfbn, -, hib, hls, -⟩ := hL
  have := hib inum h1
  unfold get_inode put_inode
  rw [if_neg (by omega), read_write_same L bm _ _ _ (by omega) h2]
  simp only [hls _ _ _ h3]
  rw [if_neg h4]

theorem block_count_spec (L : layout) (size : Nat) (h : 0 < L.BLOCK_SIZE) :
    size / L.BLOCK_SIZE ≤ block_count L size ∧
    (0 < size % L.BLOCK_SIZE → size / L.BLOCK_SIZE < block_count L size) ∧
    (size ≤ L.MAXFILE * L.BLOCK_SIZE → block_count L size ≤ L.MAXFILE) := by
  unfold block_count
  by_cases h0 : size = 0
  · subst h0
    simp
  · rw [if_neg h0]
    have hdm := Nat.div_add_mod size L.BLOCK_SIZE
    refine ⟨?_, ?_, ?_⟩
    · have h1 : size / L.BLOCK_SIZE ≤ (size - 1 + L.BLOCK_SIZE) / L.BLOCK_SIZE :=
        Nat.div_le_div_right (by omega)
      rw [Nat.add_div_right _ h] at h1
      exact h1
    · intro hr
      have h1 : size / L.BLOCK_SIZE ≤ (size - 1) / L.BLOCK_SIZE := by
        rw [Nat.le_div_iff_mul_le h]
        rw [Nat.mul_comm] at hdm
        omega
      omega
    · intro hmax
      have h1 : (size - 1) / L.BLOCK_SIZE < L.MAXFILE := by
        rw [Nat.div_lt_iff_lt_mul h]
        omega
      omega

/-- A call of `read_file` on an inode whose whole blocks hold the pieces of `buf` and whose
last block starts with the rest of it returns the first `size` bytes of `buf`. -/
theorem read_file_spec (L : layout) (bm : block_manager) (inum : Nat) (ino : inode)
    (buf : List Nat) (hget : get_inode L bm inum = some ino)
    (hfull : ∀ j, j < ino.size / L.BLOCK_SIZE → ∃ b, get_nth_blockId L bm ino j = some b ∧
      ∀ y, read_block L bm b y = (buf.drop (j * L.BLOCK_SIZE)).take L.BLOCK_SIZE)
    (hlast : 0 < ino.size % L.BLOCK_SIZE →
      ∃ b, get_nth_blockId L bm ino (ino.size / L.BLOCK_SIZE) = some b ∧
        ∀ y, (read_block L bm b y).take (ino.size % L.BLOCK_SIZE) =
          (buf.drop (ino.size / L.BLOCK_SIZE * L.BLOCK_SIZE)).take (ino.size % L.BLOCK_SIZE)) :
    read_file L bm inum = some (ino.size, buf.take ino.size) := by
  obtain ⟨last, hread⟩ := read_blocks_spec L bm ino buf (ino.size / L.BLOCK_SIZE) 0 L.junk
    (fun j _ h2 => hfull j (by omega))
  have hdm := Nat.div_add_mod ino.size L.BLOCK_SIZE
  rw [Nat.mul_comm] at hdm
  unfold read_file
  rw [hget]
  simp only [hread, Nat.zero_mul, List.drop_zero]
  by_cases hr : 0 < ino.size % L.BLOCK_SIZE
  · obtain ⟨b, hb, hdata⟩ := hlast hr
    rw [if_pos hr, hb]
    simp only [hdata]
    rw [← List.take_add, hdm]
  · rw [if_neg hr]
    have h0 : ino.size % L.BLOCK_SIZE = 0 := by omega
    rw [h0] at hdm
    rw [Nat.add_zero] at hdm
    rw [hdm]

/-- The resizing step of `write_file`: the file has the blocks of the new size afterwards.
When the file shrinks the loop that frees blocks does not run, and the blocks it had stay. -/
theorem resize_spec (L : layout) (hL : L.ok) (bm : block_manager) (ino : inode) (size : Nat)
    (hok : file_ok L bm ino (block_count L ino.size))
    (hsize : size ≤ L.MAXFILE * L.BLOCK_SIZE)
    (hfree : blocks_needed L ino size ≤ free_count L bm) :
    ∃ bm1 ino1,
      (if block_count L ino.size < block_count L size then
          alloc_blocks L bm ino (block_count L ino.size)
            (block_count L size - block_count L ino.size)
        else if block_count L ino.size > block_count L size then
          (free_blocks L ino bm (block_count L ino.size)
            (block_count L size - block_count L ino.size)).map fun bm => (bm, ino)
        else some (bm, ino)) = some (bm1, ino1) ∧
      file_ok L bm1 ino1 (block_count L size) ∧ ino1 = { ino with blocks := ino1.blocks } := by
  have hmax := (block_count_spec L size hL.1).2.2 hsize
  by_cases hlt : block_count L ino.size < block_count L size
  · rw [if_pos hlt]
    have heq : block_count L ino.size + (block_count L size - block_count L ino.size) =
        block_count L size := by omega
    have := alloc_blocks_spec L hL (block_count L size - block_count L ino.size)
      (block_count L ino.size) bm ino hok (by omega) (by rw [heq]; exact hfree)
    rw [heq] at this
    exact this
  · rw [if_neg hlt]
    by_cases hgt : block_count L ino.size > block_count L size
    · rw [if_pos hgt]
      have h0 : block_count L size - block_count L ino.size = 0 := by omega
      rw [h0]
      exact ⟨bm, ino, rfl, file_ok_mono L bm ino _ _ hok (by omega), rfl⟩
    · rw [if_neg hgt]
      have heq : block_count L ino.size = block_count L size := by omega
      rw [heq] at hok
      exact ⟨bm, ino, rfl, hok, rfl⟩

/-- The write of the last, partial block in `write_file`, after the loop over the whole
blocks. -/
theorem write_last_spec (L : layout) (bm : block_manager) (ino : inode) (buf : List Nat)
    (size : Nat) (hbs : 0 < L.BLOCK_SIZE) (hbuf : size ≤ buf.length)
    (hok : file_ok L bm ino (block_count L size))
    (hdata : ∀ j b y, j < size / L.BLOCK_SIZE → get_nth_blockId L bm ino j = some b →
      read_block L bm b y = (buf.drop (j * L.BLOCK_SIZE)).take L.BLOCK_SIZE) :
    ∃ bm1,
      (if size % L.BLOCK_SIZE > 0 then
        (get_nth_blockId L bm ino (size / L.BLOCK_SIZE)).map fun b =>
          write_block L bm b
            ((buf.drop (size / L.BLOCK_SIZE * L.BLOCK_SIZE)).take (size % L.BLOCK_SIZE) ++
              L.junk.drop (size % L.BLOCK_SIZE))
      else some bm) = some bm1 ∧
      file_ok L bm1 ino (block_count L size) ∧
      (∀ j, j < size / L.BLOCK_SIZE → ∃ b, get_nth_blockId L bm1 ino j = some b ∧
        ∀ y, read_block L bm1 b y = (buf.drop (j * L.BLOCK_SIZE)).take L.BLOCK_SIZE) ∧
      (0 < size % L.BLOCK_SIZE →
        ∃ b, get_nth_blockId L bm1 ino (size / L.BLOCK_SIZE) = some b ∧
          ∀ y, (read_block L bm1 b y).take (size % L.BLOCK_SIZE) =
            (buf.drop (size / L.BLOCK_SIZE * L.BLOCK_SIZE)).take (size % L.BLOCK_SIZE)) := by
  obtain ⟨hbn, hbnlt, -⟩ := block_count_spec L size hbs
  by_cases hr : size % L.BLOCK_SIZE > 0
  · rw [if_pos hr]
    obtain ⟨c, hc, c1, c2, c3, c4⟩ := hok.2.2.2.1 (size / L.BLOCK_SIZE) (hbnlt hr)
    obtain ⟨hok1, hsame⟩ := file_ok_write L bm ino _ c
      ((buf.drop (size / L.BLOCK_SIZE * L.BLOCK_SIZE)).take (size % L.BLOCK_SIZE) ++
        L.junk.drop (size % L.BLOCK_SIZE)) hok (Or.inl c4)
    refine ⟨_, by rw [hc]; rfl, hok1, ?_, ?_⟩
    · intro j hj
      obtain ⟨d, hd, -⟩ := hok.2.2.2.1 j (by omega)
      refine ⟨d, by rw [hsame j (by omega), hd], ?_⟩
      intro y
      rw [read_write_other, hdata j d y hj hd]
      intro heq
      rw [← heq, ← hc] at hd
      have := hok.2.2.2.2.1 j _ (by omega) (hbnlt hr) hd
      omega
    · intro _
      refine ⟨c, by rw [hsame _ (hbnlt hr), hc], ?_⟩
      intro y
      rw [read_write_same L bm c _ _ c2 hok.2.1]
      apply List.take_left'
      rw [List.length_take, List.length_drop]
      have hdm := Nat.div_add_mod size L.BLOCK_SIZE
      rw [Nat.mul_comm] at hdm
      omega
  · rw [if_neg hr]
    refine ⟨bm, rfl, hok, ?_, fun h => absurd h hr⟩
    intro j hj
    obtain ⟨d, hd, -⟩ := hok.2.2.2.1 j (by omega)
    exact ⟨d, hd, fun y => hdata j d y hj hd⟩

/-- The round trip of `write_file` and `read_file`. On an inode that
`get_inode` finds and whose blocks are sound, with `size` within the bounds of a file and of
`buf`, and enough free blocks for the blocks that are missing, a write succeeds and a read
then returns `size` and the first `size` bytes of `buf`, whatever the size of the file was;
the inode is still found and its blocks are sound for the new size. -/
theorem write_then_read (L : layout) (hL : L.ok) (bm : block_manager) (inum : Nat)
    (ino : inode) (buf : List Nat) (size now : Nat)
    (hget : get_inode L bm inum = some ino)
    (hok : file_ok L bm ino (block_count L ino.size))
    (hsize : size ≤ L.MAXFILE * L.BLOCK_SIZE) (hbuf : size ≤ buf.length)
    (hfree : blocks_needed L ino size ≤ free_count L bm) :
    ∃ bm1 ino1, write_file L bm inum buf (size : Int) now = some bm1 ∧
      read_file L bm1 inum = some (size, buf.take size) ∧
      get_inode L bm1 inum = some ino1 ∧ ino1.size = size ∧
      file_ok L bm1 ino1 (block_count L ino1.size) := by
  obtain ⟨hinum, htype, -⟩ := get_inode_some L bm inum ino hget
  obtain ⟨bmR, inoR, hres, hokR, hinoR⟩ := resize_spec L hL bm ino size hok hsize hfree
  have hbs := hL.1
  obtain ⟨hbn, hbnlt, -⟩ := block_count_spec L size hbs
  obtain ⟨bmW, hW, hokW, hsameW, hdataW, -⟩ := write_blocks_spec L inoR buf
    (block_count L size) (size / L.BLOCK_SIZE) 0 bmR hokR (by omega)
  obtain ⟨bmL, hlast, hokL, hfullL, hpartL⟩ := write_last_spec L bmW inoR buf size hbs hbuf hokW
    (fun j b y hj hb => hdataW j b y (by omega) (by omega)
      (by rw [← hsameW j (by omega)]; exact hb))
  have hib := hL.2.2.2.2.1 inum hinum
  have htypeR : inoR.type = ino.type := by rw [hinoR]
  have hget2 : get_inode L
      (put_inode L bmL inum { inoR with size := size, atime := now, mtime := now, ctime := now })
      inum = some { inoR with size := size, atime := now, mtime := now, ctime := now } :=
    get_put_inode L hL bmL inum _ hinum hokL.2.1 hokL.1 (by rw [← htypeR] at htype; exact htype)
  obtain ⟨hokF, hsameF⟩ := file_ok_write L bmL inoR _ (L.IBLOCK inum)
    (L.store_inode (read_block L bmL (L.IBLOCK inum) L.junk) inum
      { inoR with size := size, atime := now, mtime := now, ctime := now }) hokL (Or.inr hib)
  refine ⟨put_inode L bmL inum
    { inoR with size := size, atime := now, mtime := now, ctime := now },
    { inoR with size := size, atime := now, mtime := now, ctime := now }, ?_, ?_, hget2, rfl,
    hokF⟩
  · unfold write_file
    rw [if_neg (by
      rw [not_or]
      exact ⟨by omega, by exact_mod_cast not_lt.mpr hsize⟩), hget]
    simp only [Int.toNat_ofNat, hres, hW, hlast]
  · have key := read_file_spec L _ inum _ buf hget2
    apply key
    · intro j hj
      obtain ⟨b, hb, hdata⟩ := hfullL j hj
      have hbF := (hokL.2.2.2.1 j (by
        have : j < size / L.BLOCK_SIZE := hj
        omega))
      obtain ⟨b2, hb2, hfb, -⟩ := hbF
      rw [hb] at hb2
      cases hb2
      refine ⟨b, ?_, ?_⟩
      · have := hsameF j (by
          have : j < size / L.BLOCK_SIZE := hj
          omega)
        rw [← hb, ← this]
        rfl
      · intro y
        rw [← hdata y]
        apply read_write_other
        omega
    · intro hr
      obtain ⟨b, hb, hdata⟩ := hpartL hr
      obtain ⟨b2, hb2, hfb, -⟩ := hokL.2.2.2.1 (size / L.BLOCK_SIZE) (hbnlt hr)
      rw [hb] at hb2
      cases hb2
      refine ⟨b, ?_, ?_⟩
      · have := hsameF (size / L.BLOCK_SIZE) (hbnlt hr)
        rw [← hb, ← this]
        rfl
      · intro y
        rw [← hdata y]
        congr 1
        apply read_write_other
        omega

/-! ## The small disk -/

theorem get_set_cell (buf : List Nat) (k b j : Nat) :
    (set_cell buf k b).getD j 0 = if j = k then b else buf.getD j 0 := by
  unfold set_cell
  rw [List.getD_eq_getElem?_getD, List.getElem?_map]
  by_cases hj : j < max buf.length (k + 1)
  · rw [List.getElem?_range hj]
    rfl
  · rw [List.getElem?_eq_none (by simpa using hj)]
    have h1 : j ≠ k := by omega
    have h2 : buf.length ≤ j := by omega
    rw [if_neg h1, List.getD_eq_getElem?_getD, List.getElem?_eq_none h2]
    rfl

theorem load_store_cells (buf : List Nat) (ino : inode) (h : ino.blocks.length = 2) :
    load_cells 2 (store_cells buf ino) = ino := by
  obtain ⟨type, size, atime, mtime, ctime, blocks⟩ := ino
  match blocks, h with
  | [a, b], _ => rfl

/-- The layout `small_layout` meets what is assumed of a layout. -/
theorem small_layout_ok : small_layout.ok :=
  ⟨by decide, by decide, by decide, by decide,
    fun inum h => by
      have h2 : inum < 2 := h
      show inum + 1 < 4
      omega,
    fun buf _ ino h => load_store_cells buf ino h,
    fun buf k b j => get_set_cell buf k b j⟩

theorem file_ok_zero (L : layout) (bm : block_manager) (ino : inode)
    (h1 : ino.blocks.length = L.NDIRECT + 1) (h2 : bm.blocks.length = L.BLOCK_NUM)
    (h3 : ino.blocks.getD L.NDIRECT 0 = 0) : file_ok L bm ino 0 :=
  ⟨h1, h2, Nat.zero_le _, fun _ h => absurd h (Nat.not_lt_zero _),
    fun _ _ h => absurd h (Nat.not_lt_zero _), fun h => absurd h3 h,
    fun h => absurd h (Nat.not_lt_zero _)⟩

/-- The round trip on the small disk: 19 bytes (two whole blocks and three bytes, which
need the indirect block) written on the empty root inode and read back. -/
theorem write_then_read_witness :
    ∃ bm1 ino1, write_file small_layout rooted_disk 1 bytes_example 19 9 = some bm1 ∧
      read_file small_layout bm1 1 = some (19, bytes_example.take 19) ∧
      get_inode small_layout bm1 1 = some ino1 ∧ ino1.size = 19 ∧
      file_ok small_layout bm1 ino1 (block_count small_layout ino1.size) :=
  write_then_read small_layout small_layout_ok rooted_disk 1 root_inode bytes_example 19 9
    (by decide) (file_ok_zero small_layout rooted_disk root_inode rfl (by decide) rfl)
    (by decide) (by decide) (by decide)

/-- C35 fails on the code for the inode number `INODE_NUM`: the loop of `alloc_inode` runs
up to `inum <= INODE_NUM` and `get_inode` returns `NULL` for `inum >= INODE_NUM`, so when the
inodes before it are in use `alloc_inode` takes `INODE_NUM` for free, puts the inode there
and returns the number. On the small disk, where `INODE_NUM` is 2 and inode 1 is the root
directory, the second `alloc_inode` returns 2; `get_inode` does not find inode 2, a
`write_file` of 19 bytes on it changes nothing, and `read_file` sets no output. -/
theorem alloc_inode_out_of_range :
    small_layout.INODE_NUM = 2 ∧
    get_inode small_layout rooted_disk 1 = some root_inode ∧
    second_alloc_example.map Prod.snd = some 2 ∧
    (second_alloc_example.bind fun r => get_inode small_layout r.1 r.2) = none ∧
    (second_alloc_example.bind fun r => write_file small_layout r.1 r.2 bytes_example 19 9) =
      second_alloc_example.map Prod.fst ∧
    (second_alloc_example.bind fun r => read_file small_layout r.1 r.2) = none := by
  decide

/-- When a file shrinks, `write_file` frees nothing: the loop
`for (i = old_block_num; i < new_block_num; ++i)` of the shrinking branch does not run. Of
the 8 file blocks of the small disk, the 19 bytes take 4 (three of data and the indirect
block); after a write of 0 bytes the file reads as empty and the 4 blocks are still in
use. -/
theorem shrink_frees_nothing :
    free_count small_layout rooted_disk = 8 ∧
    write_file small_layout rooted_disk 1 bytes_example 19 9 = some written_disk ∧
    free_count small_layout written_disk = 4 ∧
    write_file small_layout written_disk 1 [] 0 10 = some shrunk_disk ∧
    read_file small_layout shrunk_disk 1 = some (0, []) ∧
    free_count small_layout shrunk_disk = 4 := by
  decide

end Chfs
